import Mathlib

/-!
The per-connection reader and writer loops of go-chat (`client.go`).

A shallow embedding of `client.go` and of the standard-library functions it calls
(`unicode/utf8`, `unicode`, `bytes`, `encoding/json`), followed by the properties of
the reader loop `readPump` and of the writer loop `writePump`.

Byte slices and Go strings are lists of naturals below 256; runes are naturals.
Channel sends to the hub and operations on the connection are recorded as a trace of
effects. Logging (`fmt`, `log`) has no effect on the state and is left out.
-/

namespace GoChat

/-- Byte sequences (`[]byte`, and Go `string`, which is a read-only byte sequence).
A byte is a natural number below 256. -/
abbrev Bytes := List Nat

/-- The bytes of an ASCII string literal of the source. -/
def str (s : String) : Bytes := s.toList.map Char.toNat

/-! ## Package `unicode/utf8` -/

namespace utf8

def RuneError : Nat := 0xFFFD
def RuneSelf : Nat := 0x80
def MaxRune : Nat := 0x10FFFF
def UTFMax : Nat := 4

def surrogateMin : Nat := 0xD800
def surrogateMax : Nat := 0xDFFF

def t1 : Nat := 0x00
def tx : Nat := 0x80
def t2 : Nat := 0xC0
def t3 : Nat := 0xE0
def t4 : Nat := 0xF0
def t5 : Nat := 0xF8

def maskx : Nat := 0x3F
def mask2 : Nat := 0x1F
def mask3 : Nat := 0x0F
def mask4 : Nat := 0x07

def rune1Max : Nat := 0x7F
def rune2Max : Nat := 0x7FF
def rune3Max : Nat := 0xFFFF

def locb : Nat := 0x80
def hicb : Nat := 0xBF

def xx : Nat := 0xF1
def as : Nat := 0xF0
def s1 : Nat := 0x02
def s2 : Nat := 0x13
def s3 : Nat := 0x03
def s4 : Nat := 0x23
def s5 : Nat := 0x34
def s6 : Nat := 0x04
def s7 : Nat := 0x44

/-- Table `first`: information about the first byte of a UTF-8 sequence. -/
def first (b : Nat) : Nat :=
  if b < 0x80 then as
  else if b < 0xC2 then xx
  else if b < 0xE0 then s1
  else if b = 0xE0 then s2
  else if b < 0xED then s3
  else if b = 0xED then s4
  else if b < 0xF0 then s3
  else if b = 0xF0 then s5
  else if b < 0xF4 then s6
  else if b = 0xF4 then s7
  else xx

/-- Table `acceptRanges`: the range `(lo, hi)` of valid second bytes. -/
def acceptRanges (i : Nat) : Nat × Nat :=
  match i with
  | 0 => (locb, hicb)
  | 1 => (0xA0, hicb)
  | 2 => (locb, 0x9F)
  | 3 => (0x90, hicb)
  | 4 => (locb, 0x8F)
  | _ => (0, 0)

/-- Function `utf8.DecodeRune`: the first rune of `p` and its width in bytes;
`(RuneError, 0)` on empty input, `(RuneError, 1)` on an invalid encoding. -/
def DecodeRune (p : Bytes) : Nat × Nat :=
  match p with
  | [] => (RuneError, 0)
  | p0 :: rest =>
    let x := first p0
    if x ≥ as then
      if x = xx then (RuneError, 1) else (p0, 1)
    else
      let sz := x &&& 7
      let accept := acceptRanges (x >>> 4)
      if p.length < sz then (RuneError, 1)
      else
        match rest with
        | [] => (RuneError, 1)
        | b1 :: rest1 =>
          if b1 < accept.1 ∨ accept.2 < b1 then (RuneError, 1)
          else if sz ≤ 2 then (((p0 &&& mask2) <<< 6) ||| (b1 &&& maskx), 2)
          else
            match rest1 with
            | [] => (RuneError, 1)
            | b2 :: rest2 =>
              if b2 < locb ∨ hicb < b2 then (RuneError, 1)
              else if sz ≤ 3 then
                (((p0 &&& mask3) <<< 12) ||| ((b1 &&& maskx) <<< 6) ||| (b2 &&& maskx), 3)
              else
                match rest2 with
                | [] => (RuneError, 1)
                | b3 :: _ =>
                  if b3 < locb ∨ hicb < b3 then (RuneError, 1)
                  else
                    (((p0 &&& mask4) <<< 18) ||| ((b1 &&& maskx) <<< 12)
                      ||| ((b2 &&& maskx) <<< 6) ||| (b3 &&& maskx), 4)

/-- Conversion `byte(x)`: truncation to the low eight bits. -/
def byte (x : Nat) : Nat := x % 256

/-- Function `utf8.EncodeRune` (`utf8.AppendRune` on an empty buffer): the UTF-8
encoding of rune `r`
(a rune outside the valid range, or a surrogate, is encoded as `RuneError`). -/
def EncodeRune (r : Nat) : Bytes :=
  if r ≤ rune1Max then [byte r]
  else if r ≤ rune2Max then [t2 ||| byte (r >>> 6), tx ||| (byte r &&& maskx)]
  else if r > MaxRune ∨ (surrogateMin ≤ r ∧ r ≤ surrogateMax) then
    [t3 ||| byte (RuneError >>> 12), tx ||| (byte (RuneError >>> 6) &&& maskx),
      tx ||| (byte RuneError &&& maskx)]
  else if r ≤ rune3Max then
    [t3 ||| byte (r >>> 12), tx ||| (byte (r >>> 6) &&& maskx), tx ||| (byte r &&& maskx)]
  else
    [t4 ||| byte (r >>> 18), tx ||| (byte (r >>> 12) &&& maskx),
      tx ||| (byte (r >>> 6) &&& maskx), tx ||| (byte r &&& maskx)]

/-- Function `utf8.RuneStart`: whether `b` could be the first byte of an encoded rune. -/
def RuneStart (b : Nat) : Bool := b &&& 0xC0 != 0x80

/-- The backwards scan of `utf8.DecodeLastRune`: starting at index `start`, move down
to the first index not below `lim` that holds a rune start, for at most `fuel` steps;
the result is an integer because the scan may stop at `lim - 1`. -/
def lastRuneStart (p : Bytes) (lim : Int) : Nat → Int → Int
  | 0, start => start
  | fuel + 1, start =>
    if start ≥ lim then
      if RuneStart (p.getD start.toNat 0) then start
      else lastRuneStart p lim fuel (start - 1)
    else start

/-- Function `utf8.DecodeLastRune`: the last rune of `p` and its width. -/
def DecodeLastRune (p : Bytes) : Nat × Nat :=
  let «end» := p.length
  if «end» = 0 then (RuneError, 0)
  else
    let start : Int := «end» - 1
    let r := p.getD start.toNat 0
    if r < RuneSelf then (r, 1)
    else
      let lim : Int := if («end» : Int) - UTFMax < 0 then 0 else «end» - UTFMax
      let start := lastRuneStart p lim (UTFMax + 1) (start - 1)
      let start := if start < 0 then 0 else start
      let (r, size) := DecodeRune (p.drop start.toNat)
      if start + size ≠ «end» then (RuneError, 1) else (r, size)

/-- Well-formed UTF-8, as reported by `utf8.Valid`: decoding the sequence rune by
rune never meets an invalid byte, that is `DecodeRune` never returns
`(RuneError, 1)`. -/
def validLoop : Nat → Bytes → Bool
  | 0, p => p = []
  | fuel + 1, p =>
    match p with
    | [] => true
    | b :: t =>
      if (DecodeRune (b :: t)).1 = RuneError ∧ (DecodeRune (b :: t)).2 = 1 then false
      else validLoop fuel ((b :: t).drop (DecodeRune (b :: t)).2)

/-- Function `utf8.Valid`: whether `p` consists entirely of valid UTF-8-encoded
runes. -/
def Valid (p : Bytes) : Bool := validLoop p.length p

end utf8


/-! ## Package `unicode` -/

namespace unicode

def MaxLatin1 : Nat := 0xFF

/-- Function `unicode.IsSpace`: the Latin-1 spaces, and beyond Latin-1 the ranges of
the table `White_Space`. -/
def IsSpace (r : Nat) : Bool :=
  if r ≤ MaxLatin1 then
    r = 0x09 || r = 0x0A || r = 0x0B || r = 0x0C || r = 0x0D || r = 0x20 || r = 0x85 || r = 0xA0
  else
    r = 0x1680 || (0x2000 ≤ r && r ≤ 0x200A) || (0x2028 ≤ r && r ≤ 0x2029)
      || r = 0x202F || r = 0x205F || r = 0x3000

end unicode

/-! ## Package `bytes` -/

namespace bytes

/-- Table `asciiSpace`: 1 for tab, line feed, vertical tab, form feed, carriage return
and space, 0 for every other byte. -/
def asciiSpace (c : Nat) : Nat :=
  if c = 0x09 ∨ c = 0x0A ∨ c = 0x0B ∨ c = 0x0C ∨ c = 0x0D ∨ c = 0x20 then 1 else 0

/-- The replacement loop of `bytes.Replace` for a non-empty `old` and no limit on the
number of replacements: at each position where `old` starts, `new` is written and
`old` is skipped; any other byte is copied. Each step consumes at least one byte, so
`fuel = len(s)` suffices. -/
def replaceLoop (old new : Bytes) : Nat → Bytes → Bytes
  | 0, s => s
  | fuel + 1, s =>
    match s with
    | [] => []
    | b :: t =>
      if old.isPrefixOf (b :: t) then new ++ replaceLoop old new fuel ((b :: t).drop old.length)
      else b :: replaceLoop old new fuel t

/-- Function `bytes.Replace(s, old, new, -1)` for a non-empty `old`: a copy of `s` with
all non-overlapping instances of `old` replaced by `new`. -/
def Replace (s old new : Bytes) : Bytes :=
  if old = [] then s else replaceLoop old new s.length s

/-- Function `bytes.indexFunc`: the index of the first rune for which `f` returns
`truth`, or `none` for `-1`. The argument `s` is the part of the slice from index
`start` on, and the result counts from the beginning of the slice. Each iteration
consumes at least one byte. -/
def indexFunc (f : Nat → Bool) (truth : Bool) : Nat → Nat → Bytes → Option Nat
  | 0, _, _ => none
  | fuel + 1, start, s =>
    match s with
    | [] => none
    | c :: t =>
      let (r, wid) := if c ≥ utf8.RuneSelf then utf8.DecodeRune (c :: t) else (c, 1)
      if f r = truth then some start
      else indexFunc f truth fuel (start + wid) ((c :: t).drop wid)

/-- Function `bytes.lastIndexFunc`: the index of the last rune of `s[0:i]` for which
`f` returns `truth`, or `none` for `-1`. -/
def lastIndexFunc (s : Bytes) (f : Nat → Bool) (truth : Bool) : Nat → Nat → Option Nat
  | 0, _ => none
  | fuel + 1, i =>
    if i > 0 then
      let c := s.getD (i - 1) 0
      let (r, size) := if c ≥ utf8.RuneSelf then utf8.DecodeLastRune (s.take i) else (c, 1)
      let i := i - size
      if f r = truth then some i else lastIndexFunc s f truth fuel i
    else none

/-- Function `bytes.TrimLeftFunc`. -/
def TrimLeftFunc (s : Bytes) (f : Nat → Bool) : Bytes :=
  match indexFunc f false (s.length + 1) 0 s with
  | none => []
  | some i => s.drop i

/-- Function `bytes.TrimRightFunc`. -/
def TrimRightFunc (s : Bytes) (f : Nat → Bool) : Bytes :=
  match lastIndexFunc s f false (s.length + 1) s.length with
  | some i =>
    if s.getD i 0 ≥ utf8.RuneSelf then s.take (i + (utf8.DecodeRune (s.drop i)).2)
    else s.take (i + 1)
  | none => s.take 0

/-- Function `bytes.TrimFunc`. -/
def TrimFunc (s : Bytes) (f : Nat → Bool) : Bytes :=
  TrimRightFunc (TrimLeftFunc s f) f

/-- Second loop of `bytes.TrimSpace`, on `s[start:]` read from its end (the argument is
that slice reversed): drop ASCII space bytes from the end; on a non-ASCII byte fall
back to `TrimFunc` on what is left. -/
def trimSpaceStop : Bytes → Bytes
  | [] => []
  | c :: r =>
    if c ≥ utf8.RuneSelf then TrimFunc (c :: r).reverse unicode.IsSpace
    else if asciiSpace c = 0 then (c :: r).reverse
    else trimSpaceStop r

/-- Function `bytes.TrimSpace`: the first loop skips leading ASCII space bytes and
falls back to `TrimFunc` on the rest at the first non-ASCII byte; the second loop
does the same from the end. -/
def TrimSpace : Bytes → Bytes
  | [] => []
  | c :: t =>
    if c ≥ utf8.RuneSelf then TrimFunc (c :: t) unicode.IsSpace
    else if asciiSpace c = 0 then trimSpaceStop (c :: t).reverse
    else TrimSpace t

end bytes


/-! ## Package `encoding/json`: encoding -/

namespace json

def hex : Bytes := str "0123456789abcdef"

/-- Table `htmlSafeSet`: the ASCII bytes that are written into a JSON string as they
are: the bytes from space to DEL except the double quote, the ampersand, the angle
brackets and the backslash. -/
def htmlSafeSet (b : Nat) : Bool :=
  0x20 ≤ b && b < 0x80 && b != 0x22 && b != 0x26 && b != 0x3C && b != 0x3E && b != 0x5C

/-- The escape written by `appendString` for an ASCII byte outside `htmlSafeSet`: a
backslash before a backslash or a quote, the short escapes of backspace, form feed,
line feed, carriage return and tab, and `\u00XX` for the other control characters and
for `<`, `>` and `&`. (Releases of Go that predate the short escapes of backspace and
form feed write `\u0008` and `\u000c`, which denote the same bytes.) -/
def escapeByte (b : Nat) : Bytes :=
  if b = 0x5C ∨ b = 0x22 then [0x5C, b]
  else if b = 0x08 then [0x5C, 0x62]
  else if b = 0x0C then [0x5C, 0x66]
  else if b = 0x0A then [0x5C, 0x6E]
  else if b = 0x0D then [0x5C, 0x72]
  else if b = 0x09 then [0x5C, 0x74]
  else [0x5C, 0x75, 0x30, 0x30, hex.getD (b >>> 4) 0, hex.getD (b &&& 0xF) 0]

/-- One iteration of the loop of `appendString` with `escapeHTML = true`, at the byte
`b` followed by `t`: what is written, and the rest of the string. A safe ASCII byte
and a well-formed multi-byte rune are copied, any other ASCII byte is escaped, an
invalid byte becomes the escape of U+FFFD, and U+2028 and U+2029 are escaped. -/
def appendStringStep (b : Nat) (t : Bytes) : Bytes × Bytes :=
  if b < utf8.RuneSelf then
    if htmlSafeSet b then ([b], t) else (escapeByte b, t)
  else
    let d := utf8.DecodeRune ((b :: t).take utf8.UTFMax)
    if d.1 = utf8.RuneError ∧ d.2 = 1 then (str "\\ufffd", (b :: t).drop d.2)
    else if d.1 = 0x2028 ∨ d.1 = 0x2029 then
      ([0x5C, 0x75, 0x32, 0x30, 0x32, hex.getD (d.1 &&& 0xF) 0], (b :: t).drop d.2)
    else ((b :: t).take d.2, (b :: t).drop d.2)

/-- The loop of `appendString` on the rest `src[i:]` of the string. Each iteration
consumes at least one byte, so `fuel = len(src)` suffices. -/
def appendStringLoop : Nat → Bytes → Bytes
  | 0, _ => []
  | fuel + 1, src =>
    match src with
    | [] => []
    | b :: t =>
      (appendStringStep b t).1 ++ appendStringLoop fuel (appendStringStep b t).2

/-- Function `appendString(nil, src, true)`: the JSON string literal for `src`. -/
def appendString (src : Bytes) : Bytes :=
  [0x22] ++ appendStringLoop src.length src ++ [0x22]

/-- Function `strconv.AppendInt(nil, i, 10)`: the decimal digits of `i`, with a
leading minus sign when negative. -/
def appendInt (i : Int) : Bytes :=
  if i < 0 then [0x2D] ++ (Nat.toDigits 10 i.natAbs).map Char.toNat
  else (Nat.toDigits 10 i.natAbs).map Char.toNat

end json

/-! ## Package `unicode/utf16` -/

namespace utf16

def replacementChar : Nat := 0xFFFD
def surr1 : Nat := 0xD800
def surr2 : Nat := 0xDC00
def surr3 : Nat := 0xE000
def surrSelf : Nat := 0x10000

/-- Function `utf16.IsSurrogate`. -/
def IsSurrogate (r : Nat) : Bool := surr1 ≤ r && r < surr3

/-- Function `utf16.DecodeRune`; the second argument is `none` for a negative rune. -/
def DecodeRune (r1 : Nat) (r2 : Option Nat) : Nat :=
  match r2 with
  | none => replacementChar
  | some r2 =>
    if surr1 ≤ r1 ∧ r1 < surr2 ∧ surr2 ≤ r2 ∧ r2 < surr3 then
      (((r1 - surr1) <<< 10) ||| (r2 - surr2)) + surrSelf
    else replacementChar

end utf16

/-! ## Package `encoding/json`: decoding

The decoder is modelled on the fragment of JSON that the program exchanges: one flat
object whose member values are string literals or integer literals. On this fragment
the functions below give the result of `json.Unmarshal`, with `none` for an error; an
input outside the fragment (a nested value, a fraction, `null`, `true`, `false`, a key
with a non-ASCII byte) also gives `none`. -/

namespace json

/-- The value of one hexadecimal digit in `getu4`; `none` for any other byte. -/
def hexDigit (c : Nat) : Option Nat :=
  if 0x30 ≤ c ∧ c ≤ 0x39 then some (c - 0x30)
  else if 0x61 ≤ c ∧ c ≤ 0x66 then some (c - 0x61 + 10)
  else if 0x41 ≤ c ∧ c ≤ 0x46 then some (c - 0x41 + 10)
  else none

/-- Function `getu4`: the rune of the escape `\uXXXX` at the beginning of `s`, or
`none` (for `-1`) when `s` does not begin with such an escape. -/
def getu4 (s : Bytes) : Option Nat :=
  match s with
  | 0x5C :: 0x75 :: c0 :: c1 :: c2 :: c3 :: _ =>
    match hexDigit c0, hexDigit c1, hexDigit c2, hexDigit c3 with
    | some d0, some d1, some d2, some d3 => some (((d0 * 16 + d1) * 16 + d2) * 16 + d3)
    | _, _, _, _ => none
  | _ => none

/-- The first loop of `unquoteBytes`: the number of bytes before the first backslash,
quote, control character or invalid UTF-8 byte of `s`. -/
def unquoteScan : Nat → Bytes → Nat
  | 0, _ => 0
  | fuel + 1, s =>
    match s with
    | [] => 0
    | c :: t =>
      if c = 0x5C ∨ c = 0x22 ∨ c < 0x20 then 0
      else if c < utf8.RuneSelf then 1 + unquoteScan fuel t
      else
        let d := utf8.DecodeRune (c :: t)
        if d.1 = utf8.RuneError ∧ d.2 = 1 then 0
        else d.2 + unquoteScan fuel ((c :: t).drop d.2)

/-- One iteration of the second loop of `unquoteBytes`, at the byte `c` followed by
`t`: the bytes written and the rest of the literal, or `none` where the source
returns `ok = false`. -/
def unquoteStep (c : Nat) (t : Bytes) : Option (Bytes × Bytes) :=
  if c = 0x5C then
    match t with
    | [] => none
    | e :: t1 =>
      if e = 0x22 ∨ e = 0x5C ∨ e = 0x2F ∨ e = 0x27 then some ([e], t1)
      else if e = 0x62 then some ([0x08], t1)
      else if e = 0x66 then some ([0x0C], t1)
      else if e = 0x6E then some ([0x0A], t1)
      else if e = 0x72 then some ([0x0D], t1)
      else if e = 0x74 then some ([0x09], t1)
      else if e = 0x75 then
        match getu4 (c :: t) with
        | none => none
        | some rr =>
          let rest := (c :: t).drop 6
          if utf16.IsSurrogate rr then
            let dec := utf16.DecodeRune rr (getu4 rest)
            if dec ≠ utf16.replacementChar then some (utf8.EncodeRune dec, rest.drop 6)
            else some (utf8.EncodeRune utf16.replacementChar, rest)
          else some (utf8.EncodeRune rr, rest)
      else none
  else if c = 0x22 ∨ c < 0x20 then none
  else if c < utf8.RuneSelf then some ([c], t)
  else
    let d := utf8.DecodeRune (c :: t)
    some (utf8.EncodeRune d.1, (c :: t).drop d.2)

/-- The second loop of `unquoteBytes`, on the rest `s[r:]` of the literal: the bytes
it writes, or `none` where the source returns `ok = false`. Each iteration consumes
at least one byte, so `fuel = len(s)` suffices. -/
def unquoteLoop : Nat → Bytes → Option Bytes
  | 0, s => if s = [] then some [] else none
  | fuel + 1, s =>
    match s with
    | [] => some []
    | c :: t =>
      match unquoteStep c t with
      | none => none
      | some (w, rest) => (unquoteLoop fuel rest).map (fun b => w ++ b)

/-- Function `unquoteBytes`: the string denoted by the quoted literal `s`. -/
def unquoteBytes (s : Bytes) : Option Bytes :=
  if s.length < 2 ∨ s.head? ≠ some 0x22 ∨ s.getLast? ≠ some 0x22 then none
  else
    let s := (s.drop 1).dropLast
    let r := unquoteScan s.length s
    if r = s.length then some s
    else (unquoteLoop s.length (s.drop r)).map (fun b => s.take r ++ b)

/-- Function `isSpace` of the scanner. -/
def isSpace (c : Nat) : Bool := c = 0x20 || c = 0x09 || c = 0x0D || c = 0x0A

/-- Skipping of white space between tokens. -/
def skipSpace (s : Bytes) : Bytes := s.dropWhile isSpace

/-- The scanner inside a string literal (`stateInString`, `stateInStringEsc`,
`stateInStringEscU`...), from the byte after the opening quote: the bytes of the
literal up to its closing quote and the input after that quote. -/
def scanString : Bytes → Option (Bytes × Bytes)
  | [] => none
  | c :: t =>
    if c = 0x22 then some ([], t)
    else if c = 0x5C then
      match t with
      | [] => none
      | e :: t1 =>
        if e = 0x62 ∨ e = 0x66 ∨ e = 0x6E ∨ e = 0x72 ∨ e = 0x74 ∨ e = 0x5C ∨ e = 0x2F
            ∨ e = 0x22 then
          (scanString t1).map (fun p => (c :: e :: p.1, p.2))
        else if e = 0x75 then
          match t1 with
          | h0 :: h1 :: h2 :: h3 :: t2 =>
            if (hexDigit h0).isSome ∧ (hexDigit h1).isSome ∧ (hexDigit h2).isSome
                ∧ (hexDigit h3).isSome then
              (scanString t2).map (fun p => (c :: e :: h0 :: h1 :: h2 :: h3 :: p.1, p.2))
            else none
          | _ => none
        else none
    else if c < 0x20 then none
    else (scanString t).map (fun p => (c :: p.1, p.2))

/-- A member value of the fragment: a string or an integer. -/
inductive Value where
  | string (s : Bytes)
  | number (n : Int)
deriving DecidableEq, Repr

def isDigit (c : Nat) : Bool := 0x30 ≤ c && c ≤ 0x39

/-- The value of a run of decimal digits. -/
def digitsValue (ds : Bytes) : Nat := ds.foldl (fun n c => n * 10 + (c - 0x30)) 0

/-- An integer literal at the beginning of `s`, as accepted by the scanner (an
optional minus sign, then `0` or a digit from 1 to 9 followed by digits) and by
`strconv.ParseInt(..., 10, 64)`: its value and the input after it. -/
def scanInt (s : Bytes) : Option (Int × Bytes) :=
  let neg := s.head? = some 0x2D
  let s1 := if neg then s.drop 1 else s
  let ds := s1.takeWhile isDigit
  let rest := s1.dropWhile isDigit
  if ds = [] then none
  else if ds.head? = some 0x30 ∧ ds.length > 1 then none
  else
    let n : Int := if neg then - (digitsValue ds : Int) else (digitsValue ds : Int)
    if n < -(2 ^ 63 : Int) ∨ n > (2 ^ 63 : Int) - 1 then none else some (n, rest)

/-- A member value at the beginning of `s`. -/
def parseValue (s : Bytes) : Option (Value × Bytes) :=
  match s with
  | [] => none
  | c :: t =>
    if c = 0x22 then
      match scanString t with
      | none => none
      | some (lit, rest) =>
        (unquoteBytes ([0x22] ++ lit ++ [0x22])).map (fun v => (Value.string v, rest))
    else (scanInt (c :: t)).map (fun p => (Value.number p.1, p.2))

/-- The members of an object, from the opening quote of a key: the keys and values in
order, and the input after the closing brace. -/
def parseMembers : Nat → Bytes → Option (List (Bytes × Value) × Bytes)
  | 0, _ => none
  | fuel + 1, s =>
    match s with
    | 0x22 :: t =>
      match scanString t with
      | none => none
      | some (klit, r1) =>
        match unquoteBytes ([0x22] ++ klit ++ [0x22]) with
        | none => none
        | some key =>
          match skipSpace r1 with
          | 0x3A :: r2 =>
            match parseValue (skipSpace r2) with
            | none => none
            | some (v, r3) =>
              match skipSpace r3 with
              | 0x2C :: r4 =>
                (parseMembers fuel (skipSpace r4)).map (fun p => ((key, v) :: p.1, p.2))
              | 0x7D :: r4 => some ([(key, v)], r4)
              | _ => none
          | _ => none
    | _ => none

/-- One JSON object of the fragment, alone in `data`: its keys and values in order. -/
def parseObject (data : Bytes) : Option (List (Bytes × Value)) :=
  match skipSpace data with
  | 0x7B :: t =>
    match skipSpace t with
    | 0x7D :: r => if skipSpace r = [] then some [] else none
    | s =>
      match parseMembers s.length s with
      | none => none
      | some (ms, r) =>
        if skipSpace r = [] ∧ ms.all (fun m => m.1.all (fun b => b < utf8.RuneSelf))
        then some ms else none
  | _ => none

/-- ASCII case folding of a key, as `foldName` does on ASCII names. -/
def foldName (k : Bytes) : Bytes :=
  k.map (fun c => if 0x61 ≤ c ∧ c ≤ 0x7A then c - 0x20 else c)

/-- Field lookup of the decoder: the index of the field whose name is `key`, else of
the first field whose name equals `key` up to case. -/
def fieldIndex (names : List Bytes) (key : Bytes) : Option Nat :=
  match names.indexOf? key with
  | some i => some i
  | none => (names.map foldName).indexOf? (foldName key)

end json

/-! ## File `client.go` -/

def newline : Bytes := [0x0A]
def space : Bytes := [0x20]

structure outMessage where
  ID : Bytes
  Body : Bytes
  SenderID : Bytes
  SendTime : Bytes
  ReadStatus : Int
deriving DecidableEq, Repr

structure action where
  Type_ : Int
  Payload : Bytes
deriving DecidableEq, Repr

structure inMessage where
  Room : Bytes
  Message : Bytes
deriving DecidableEq, Repr

/-- Modelled from the spec: type `message` is declared in the hub's file, which is not
part of the listed source; the outbound message is `{ room key, raw payload bytes }`,
built in `readPump` by the positional literal `message{[]byte(...), room}`. -/
structure message where
  data : Bytes
  room : Bytes
deriving DecidableEq, Repr

/-- Modelled from the spec: type `subscription` is declared in the hub's file, which
is not part of the listed source; it holds the connection reference, the active room
and the ordered sequence of room keys ever joined, as in the literal
`subscription{client, "0", rooms}` of `serveWs`. The connection is an opaque handle. -/
structure subscription where
  conn : Nat
  room : Bytes
  rooms : List Bytes
deriving DecidableEq, Repr

/-- What the reader loop does to its environment: the three sends to the hub's
channels and the close of the connection. -/
inductive Effect where
  | register (s : subscription)
  | broadcast (m : message)
  | unregister (s : subscription)
  | close
deriving DecidableEq, Repr

/-- The two calls of `json.Unmarshal` in `readPump`, into an `action` and into an
`inMessage`; `none` is a decoding error. -/
structure Unmarshal where
  intoAction : Bytes → Option action
  intoInMessage : Bytes → Option inMessage

/-- The loop of `findRoom` over `s.rooms`. -/
def findRoomLoop (val : Bytes) : List Bytes → Bool
  | [] => false
  | room :: rest => if room = val then true else findRoomLoop val rest

/-- Method `subscription.findRoom`. -/
def subscription.findRoom (s : subscription) (val : Bytes) : Bool :=
  findRoomLoop val s.rooms

/-- The outcome of one pass through the body of the `for` loop of `readPump`: the
subscription afterwards, the effects emitted, and whether the loop goes on (`false`
for `break` out of the loop and for `return`). -/
structure Pass where
  s : subscription
  effects : List Effect
  goesOn : Bool
deriving DecidableEq, Repr

/-- The `switch action.Type` of `readPump`. -/
def readPumpSwitch (json : Unmarshal) (s : subscription) (a : action) : Pass :=
  if a.Type_ = 1 then
    if s.findRoom a.Payload then ⟨s, [], true⟩
    else
      let s1 : subscription := ⟨s.conn, a.Payload, s.rooms ++ [a.Payload]⟩
      ⟨s1, [Effect.register s1], true⟩
  else if a.Type_ = 2 then
    if s.room = str "0" then ⟨s, [], false⟩
    else
      match json.intoInMessage a.Payload with
      | none => ⟨s, [], false⟩
      | some im =>
        if s.findRoom im.Room then ⟨s, [Effect.broadcast ⟨im.Message, im.Room⟩], true⟩
        else ⟨s, [], false⟩
  else ⟨s, [], true⟩

/-- The normalisation of a received frame in `readPump`:
`bytes.TrimSpace(bytes.Replace(msg, newline, space, -1))`. -/
def normalize (msg : Bytes) : Bytes :=
  bytes.TrimSpace (bytes.Replace msg newline space)

/-- One pass through the body of the `for` loop of `readPump`; `recv` is the result
of `c.conn.ReadMessage()`, `none` for an error. -/
def readPumpPass (json : Unmarshal) (s : subscription) (recv : Option Bytes) : Pass :=
  match recv with
  | none => ⟨s, [], false⟩
  | some msg =>
    match json.intoAction (normalize msg) with
    | none => ⟨s, [], false⟩
    | some a => readPumpSwitch json s a

/-- The `for` loop of `readPump` on the results of the successive calls of
`ReadMessage`: the subscription and the effects so far, and whether the loop was left
(`false`: it waits for the next frame). -/
def readPumpLoop (json : Unmarshal) : subscription → List (Option Bytes) →
    subscription × List Effect × Bool
  | s, [] => (s, [], false)
  | s, recv :: rest =>
    let p := readPumpPass json s recv
    if p.goesOn then
      let r := readPumpLoop json p.s rest
      (r.1, p.effects ++ r.2.1, r.2.2)
    else (p.s, p.effects, true)

/-- Method `subscription.readPump`: the loop, and once the loop is left the deferred
function, which sends the subscription to `unregister` and closes the connection. -/
def readPump (json : Unmarshal) (s : subscription) (recvs : List (Option Bytes)) :
    List Effect :=
  let r := readPumpLoop json s recvs
  if r.2.2 then r.2.1 ++ [Effect.unregister r.1, Effect.close] else r.2.1

/-- The subscription built by `serveWs` for an accepted connection. -/
def serveWs (conn : Nat) : subscription := ⟨conn, str "0", []⟩

/-- The envelope built by `writePump` for a message taken from `c.send`. -/
def envelope (message : Bytes) : outMessage :=
  ⟨str "A", message, str "A", str "1294706395881547000", 0⟩

/-- Function `json.Marshal` on an `outMessage`: the fields in declaration order under
the names of their tags. -/
def Marshal (om : outMessage) : Bytes :=
  str "\x7b" ++ json.appendString (str "id") ++ str ":" ++ json.appendString om.ID
    ++ str "," ++ json.appendString (str "body") ++ str ":" ++ json.appendString om.Body
    ++ str "," ++ json.appendString (str "senderID") ++ str ":"
    ++ json.appendString om.SenderID
    ++ str "," ++ json.appendString (str "sendTime") ++ str ":"
    ++ json.appendString om.SendTime
    ++ str "," ++ json.appendString (str "readStatus") ++ str ":"
    ++ json.appendInt om.ReadStatus ++ str "\x7d"

/-- The loop of `writePump` that adds the queued messages to the current websocket
message: for each one `w.Write(newline)` and `w.Write(<-c.send)`. -/
def writeQueued : List Bytes → Bytes
  | [] => []
  | m :: rest => newline ++ m ++ writeQueued rest

/-- The bytes written to the writer `w` by `writePump` for a message received from
`c.send` while `queued` holds the `n = len(c.send)` messages queued at that instant. -/
def writePumpWrite (message : Bytes) (queued : List Bytes) : Bytes :=
  Marshal (envelope message) ++ writeQueued queued

/-- Assignment of one decoded member to the field of `action` it names; a member of
an unknown name is skipped, a value of the wrong kind is an error. -/
def action.assign (a : action) (m : Bytes × json.Value) : Option action :=
  match json.fieldIndex [str "Type", str "Payload"] m.1, m.2 with
  | none, _ => some a
  | some 0, json.Value.number n => some ⟨n, a.Payload⟩
  | some 1, json.Value.string v => some ⟨a.Type_, v⟩
  | _, _ => none

/-- Assignment of one decoded member to the field of `inMessage` it names. -/
def inMessage.assign (im : inMessage) (m : Bytes × json.Value) : Option inMessage :=
  match json.fieldIndex [str "Room", str "Message"] m.1, m.2 with
  | none, _ => some im
  | some 0, json.Value.string v => some ⟨v, im.Message⟩
  | some 1, json.Value.string v => some ⟨im.Room, v⟩
  | _, _ => none

/-- Assignment of one decoded member to the field of `outMessage` whose tag it names. -/
def outMessage.assign (om : outMessage) (m : Bytes × json.Value) : Option outMessage :=
  match json.fieldIndex
      [str "id", str "body", str "senderID", str "sendTime", str "readStatus"] m.1, m.2 with
  | none, _ => some om
  | some 0, json.Value.string v => some ⟨v, om.Body, om.SenderID, om.SendTime, om.ReadStatus⟩
  | some 1, json.Value.string v => some ⟨om.ID, v, om.SenderID, om.SendTime, om.ReadStatus⟩
  | some 2, json.Value.string v => some ⟨om.ID, om.Body, v, om.SendTime, om.ReadStatus⟩
  | some 3, json.Value.string v => some ⟨om.ID, om.Body, om.SenderID, v, om.ReadStatus⟩
  | some 4, json.Value.number n => some ⟨om.ID, om.Body, om.SenderID, om.SendTime, n⟩
  | _, _ => none

/-- The members of an object assigned in order to a structure that starts at `zero`. -/
def assignAll {α : Type} (assign : α → Bytes × json.Value → Option α) (zero : α) :
    List (Bytes × json.Value) → Option α
  | [] => some zero
  | m :: rest =>
    match assign zero m with
    | none => none
    | some a => assignAll assign a rest

/-- Function `json.Unmarshal` into a zero `action`, on the fragment. -/
def unmarshalAction (data : Bytes) : Option action :=
  match json.parseObject data with
  | none => none
  | some ms => assignAll action.assign ⟨0, []⟩ ms

/-- Function `json.Unmarshal` into a zero `inMessage`, on the fragment. -/
def unmarshalInMessage (data : Bytes) : Option inMessage :=
  match json.parseObject data with
  | none => none
  | some ms => assignAll inMessage.assign ⟨[], []⟩ ms

/-- Function `json.Unmarshal` into a zero `outMessage`, on the fragment. -/
def unmarshalOutMessage (data : Bytes) : Option outMessage :=
  match json.parseObject data with
  | none => none
  | some ms => assignAll outMessage.assign ⟨[], [], [], [], 0⟩ ms

/-- The decoder of `encoding/json` as used by `readPump`. -/
def goJSON : Unmarshal := ⟨unmarshalAction, unmarshalInMessage⟩

/-- The relation between the active room and the join history that the reader loop
keeps: before the first join the active room is `"0"`, afterwards it is the room
joined last. -/
def roomInvariant (s : subscription) : Prop :=
  (s.rooms = [] ∧ s.room = str "0") ∨ (s.rooms ≠ [] ∧ s.rooms.getLast? = some s.room)

/-- An effect of the loop body proper: a register or a broadcast. -/
def Effect.isSend : Effect → Bool
  | Effect.register _ => true
  | Effect.broadcast _ => true
  | _ => false

/-- A frame carrying a join action for room `"lobby"`. -/
def frameJoinLobby : Bytes := str "\x7b\"Type\":1,\"Payload\":\"lobby\"\x7d\n"

/-- A frame carrying a join action for room `"0"`. -/
def frameJoinZero : Bytes := str "\x7b\"Type\":1,\"Payload\":\"0\"\x7d\n"

/-- A frame carrying a post of `"hi"` to room `"lobby"`. -/
def framePostLobby : Bytes :=
  str "\x7b\"Type\":2,\"Payload\":\"\x7b\\\"Room\\\":\\\"lobby\\\",\\\"Message\\\":\\\"hi\\\"\x7d\"\x7d\n"

/-- A frame carrying a post of `"hi"` to room `"0"`. -/
def framePostZero : Bytes :=
  str "\x7b\"Type\":2,\"Payload\":\"\x7b\\\"Room\\\":\\\"0\\\",\\\"Message\\\":\\\"hi\\\"\x7d\"\x7d\n"

/-- A frame with every newline byte replaced by a space byte. -/
def newlinesToSpaces (msg : Bytes) : Bytes :=
  msg.map (fun b => if b = 0x0A then 0x20 else b)

/-- Whether a byte is one of the six ASCII white-space bytes: tab, line feed,
vertical tab, form feed, carriage return, space. -/
def isAsciiSpace (c : Nat) : Bool :=
  c = 0x09 || c = 0x0A || c = 0x0B || c = 0x0C || c = 0x0D || c = 0x20

/-- A byte sequence without its leading and its trailing ASCII white-space bytes. -/
def trimAsciiSpace (s : Bytes) : Bytes :=
  (s.dropWhile isAsciiSpace).rdropWhile isAsciiSpace

/-- What the specification describes for one transport write: the envelopes of the
payloads, in order, separated by single newline bytes. -/
def delimitedEnvelopes (payloads : List Bytes) : Bytes :=
  newline.intercalate (payloads.map (fun m => Marshal (envelope m)))

/-- The white-space characters of Unicode in UTF-8: tab, line feed, vertical tab, form
feed, carriage return and space, then U+0085, U+00A0, U+1680, U+2000 to U+200A,
U+2028, U+2029, U+202F, U+205F and U+3000. -/
def whiteSpace : List Bytes :=
  [[0x09], [0x0A], [0x0B], [0x0C], [0x0D], [0x20],
    [0xC2, 0x85], [0xC2, 0xA0], [0xE1, 0x9A, 0x80],
    [0xE2, 0x80, 0x80], [0xE2, 0x80, 0x81], [0xE2, 0x80, 0x82], [0xE2, 0x80, 0x83],
    [0xE2, 0x80, 0x84], [0xE2, 0x80, 0x85], [0xE2, 0x80, 0x86], [0xE2, 0x80, 0x87],
    [0xE2, 0x80, 0x88], [0xE2, 0x80, 0x89], [0xE2, 0x80, 0x8A],
    [0xE2, 0x80, 0xA8], [0xE2, 0x80, 0xA9], [0xE2, 0x80, 0xAF], [0xE2, 0x81, 0x9F],
    [0xE3, 0x80, 0x80]]

/-- The number of bytes of the white-space character that `s` begins with, 0 when `s`
does not begin with a white-space character. -/
def leadingWhiteSpace (s : Bytes) : Nat :=
  match whiteSpace.find? (fun w => w.isPrefixOf s) with
  | some w => w.length
  | none => 0

/-- The number of bytes of the white-space character that `s` ends with, 0 when `s`
does not end with a white-space character. -/
def trailingWhiteSpace (s : Bytes) : Nat :=
  match whiteSpace.find? (fun w => w.isSuffixOf s) with
  | some w => w.length
  | none => 0

/-- Removal of the white-space characters at the beginning of `s`, one at a time;
each step removes at least one byte, so `fuel = len(s)` suffices. -/
def trimLeading : Nat → Bytes → Bytes
  | 0, s => s
  | fuel + 1, s =>
    if leadingWhiteSpace s = 0 then s
    else trimLeading fuel (s.drop (leadingWhiteSpace s))

/-- Removal of the white-space characters at the end of `s`, one at a time. -/
def trimTrailing : Nat → Bytes → Bytes
  | 0, s => s
  | fuel + 1, s =>
    if trailingWhiteSpace s = 0 then s
    else trimTrailing fuel (s.take (s.length - trailingWhiteSpace s))

/-- A byte sequence without the white-space characters at its beginning and at its
end; what lies between is unchanged. -/
def trimWhiteSpace (s : Bytes) : Bytes :=
  trimTrailing s.length (trimLeading s.length s)

/-! ## The reader loop -/

set_option maxRecDepth 100000

theorem findRoomLoop_eq_true (val : Bytes) (rooms : List Bytes) :
    findRoomLoop val rooms = true ↔ val ∈ rooms := by
  induction rooms with
  | nil => simp [findRoomLoop]
  | cons room rest ih =>
    by_cases h : room = val
    · simp [findRoomLoop, h]
    · have h2 : ¬ val = room := fun e => h e.symm
      simp [findRoomLoop, h, h2, ih]

theorem findRoom_eq_true (s : subscription) (val : Bytes) :
    s.findRoom val = true ↔ val ∈ s.rooms :=
  findRoomLoop_eq_true val s.rooms

theorem findRoom_eq_false (s : subscription) (val : Bytes) :
    s.findRoom val = false ↔ val ∉ s.rooms := by
  rw [← findRoom_eq_true]; cases s.findRoom val <;> simp

/-- C1: a join action for a room that is already in the join history leaves the
subscription (active room and join history) unchanged, emits nothing to the hub, in
particular no register request, and the reader loop goes on. -/
theorem readPump_join_joined (json : Unmarshal) (s : subscription) (msg R : Bytes)
    (hdec : json.intoAction (normalize msg) = some ⟨1, R⟩) (hR : R ∈ s.rooms) :
    readPumpPass json s (some msg) = ⟨s, [], true⟩ := by
  have hf : s.findRoom R = true := (findRoom_eq_true s R).mpr hR
  simp [readPumpPass, hdec, readPumpSwitch, hf]

theorem readPump_join_joined_witness :
    goJSON.intoAction (normalize frameJoinLobby) = some ⟨1, str "lobby"⟩
      ∧ str "lobby" ∈ (⟨7, str "b", [str "lobby", str "b"]⟩ : subscription).rooms
      ∧ readPumpPass goJSON ⟨7, str "b", [str "lobby", str "b"]⟩ (some frameJoinLobby)
          = ⟨⟨7, str "b", [str "lobby", str "b"]⟩, [], true⟩ :=
  ⟨by decide, by decide,
    readPump_join_joined goJSON ⟨7, str "b", [str "lobby", str "b"]⟩ frameJoinLobby
      (str "lobby") (by decide) (by decide)⟩

/-- C8: a join action for a room that is not in the join history appends the room to
the history, makes it the active room, emits exactly one register request carrying
the updated subscription, and the reader loop goes on. -/
theorem readPump_join_new (json : Unmarshal) (s : subscription) (msg R : Bytes)
    (hdec : json.intoAction (normalize msg) = some ⟨1, R⟩) (hR : R ∉ s.rooms) :
    readPumpPass json s (some msg)
      = ⟨⟨s.conn, R, s.rooms ++ [R]⟩, [Effect.register ⟨s.conn, R, s.rooms ++ [R]⟩], true⟩ := by
  have hf : s.findRoom R = false := (findRoom_eq_false s R).mpr hR
  simp [readPumpPass, hdec, readPumpSwitch, hf]

theorem readPump_join_new_witness :
    goJSON.intoAction (normalize frameJoinLobby) = some ⟨1, str "lobby"⟩
      ∧ str "lobby" ∉ (⟨7, str "b", [str "b"]⟩ : subscription).rooms
      ∧ readPumpPass goJSON ⟨7, str "b", [str "b"]⟩ (some frameJoinLobby)
          = ⟨⟨7, str "lobby", [str "b", str "lobby"]⟩,
              [Effect.register ⟨7, str "lobby", [str "b", str "lobby"]⟩], true⟩ :=
  ⟨by decide, by decide,
    readPump_join_new goJSON ⟨7, str "b", [str "b"]⟩ frameJoinLobby (str "lobby")
      (by decide) (by decide)⟩

/-- C3: a post action, whatever its payload, processed while the active room is the
sentinel `"0"` (as it is from connection acceptance until the first join) emits
nothing to the hub, in particular no broadcast, and ends the reader loop. -/
theorem readPump_post_before_join (json : Unmarshal) (s : subscription)
    (msg payload : Bytes)
    (hdec : json.intoAction (normalize msg) = some ⟨2, payload⟩)
    (hroom : s.room = str "0") :
    readPumpPass json s (some msg) = ⟨s, [], false⟩ := by
  simp [readPumpPass, hdec, readPumpSwitch, hroom]

theorem readPump_post_before_join_witness :
    goJSON.intoAction (normalize framePostLobby)
        = some ⟨2, str "\x7b\"Room\":\"lobby\",\"Message\":\"hi\"\x7d"⟩
      ∧ (serveWs 7).room = str "0"
      ∧ readPumpPass goJSON (serveWs 7) (some framePostLobby) = ⟨serveWs 7, [], false⟩ :=
  ⟨by decide, by decide,
    readPump_post_before_join goJSON (serveWs 7) framePostLobby
      (str "\x7b\"Room\":\"lobby\",\"Message\":\"hi\"\x7d") (by decide) (by decide)⟩

/-- C4: a post action whose payload decodes to a target room that is not in the join
history emits nothing to the hub, in particular no broadcast, and ends the reader
loop, whatever the subscription state (also with a non-empty join history). -/
theorem readPump_post_not_joined (json : Unmarshal) (s : subscription)
    (msg payload : Bytes) (im : inMessage)
    (hdec : json.intoAction (normalize msg) = some ⟨2, payload⟩)
    (hpay : json.intoInMessage payload = some im)
    (hR : im.Room ∉ s.rooms) :
    readPumpPass json s (some msg) = ⟨s, [], false⟩ := by
  have hf : s.findRoom im.Room = false := (findRoom_eq_false s im.Room).mpr hR
  by_cases hroom : s.room = str "0"
  · simp [readPumpPass, hdec, readPumpSwitch, hroom]
  · simp [readPumpPass, hdec, readPumpSwitch, hroom, hpay, hf]

theorem readPump_post_not_joined_witness :
    goJSON.intoAction (normalize framePostLobby)
        = some ⟨2, str "\x7b\"Room\":\"lobby\",\"Message\":\"hi\"\x7d"⟩
      ∧ goJSON.intoInMessage (str "\x7b\"Room\":\"lobby\",\"Message\":\"hi\"\x7d")
        = some ⟨str "lobby", str "hi"⟩
      ∧ (⟨str "lobby", str "hi"⟩ : inMessage).Room
          ∉ (⟨7, str "other", [str "other"]⟩ : subscription).rooms
      ∧ readPumpPass goJSON ⟨7, str "other", [str "other"]⟩ (some framePostLobby)
          = ⟨⟨7, str "other", [str "other"]⟩, [], false⟩ :=
  ⟨by decide, by decide, by decide,
    readPump_post_not_joined goJSON ⟨7, str "other", [str "other"]⟩ framePostLobby
      (str "\x7b\"Room\":\"lobby\",\"Message\":\"hi\"\x7d") ⟨str "lobby", str "hi"⟩
      (by decide) (by decide) (by decide)⟩

/-- A post to a joined room while the active room differs from `"0"` emits exactly one
broadcast carrying the target room and the bytes of the body, leaves the subscription
unchanged, and the reader loop goes on. -/
theorem readPump_post_joined (json : Unmarshal) (s : subscription)
    (msg payload R M : Bytes)
    (hdec : json.intoAction (normalize msg) = some ⟨2, payload⟩)
    (hpay : json.intoInMessage payload = some ⟨R, M⟩)
    (hroom : s.room ≠ str "0") (hR : R ∈ s.rooms) :
    readPumpPass json s (some msg) = ⟨s, [Effect.broadcast ⟨M, R⟩], true⟩ := by
  have hf : s.findRoom R = true := (findRoom_eq_true s R).mpr hR
  simp [readPumpPass, hdec, readPumpSwitch, hroom, hpay, hf]

/-- C2 (the failing input): a connection that joins room `"0"` and then posts `"hi"`
to room `"0"`. The join is registered with the hub and puts `"0"` into the join
history; the post decodes to `{Room: "0", Message: "hi"}`, a room of the join history,
and yet it emits no broadcast and ends the reader loop. -/
theorem readPump_post_room_zero :
    readPumpLoop goJSON (serveWs 7) [some frameJoinZero]
        = (⟨7, str "0", [str "0"]⟩, [Effect.register ⟨7, str "0", [str "0"]⟩], false)
      ∧ goJSON.intoAction (normalize framePostZero)
        = some ⟨2, str "\x7b\"Room\":\"0\",\"Message\":\"hi\"\x7d"⟩
      ∧ goJSON.intoInMessage (str "\x7b\"Room\":\"0\",\"Message\":\"hi\"\x7d")
        = some ⟨str "0", str "hi"⟩
      ∧ str "0" ∈ (⟨7, str "0", [str "0"]⟩ : subscription).rooms
      ∧ readPumpPass goJSON ⟨7, str "0", [str "0"]⟩ (some framePostZero)
        = ⟨⟨7, str "0", [str "0"]⟩, [], false⟩
      ∧ readPump goJSON (serveWs 7) [some frameJoinZero, some framePostZero]
        = [Effect.register ⟨7, str "0", [str "0"]⟩,
            Effect.unregister ⟨7, str "0", [str "0"]⟩, Effect.close] := by
  refine ⟨?_, ?_, ?_, ?_, ?_, ?_⟩ <;> decide

theorem readPumpSwitch_conn (json : Unmarshal) (s : subscription) (a : action) :
    (readPumpSwitch json s a).s.conn = s.conn := by
  unfold readPumpSwitch
  split
  · split <;> rfl
  · split
    · split
      · rfl
      · split
        · rfl
        · split <;> rfl
    · rfl

theorem readPumpPass_conn (json : Unmarshal) (s : subscription) (recv : Option Bytes) :
    (readPumpPass json s recv).s.conn = s.conn := by
  unfold readPumpPass
  split
  · rfl
  · split
    · rfl
    · exact readPumpSwitch_conn json s _

theorem readPumpSwitch_isSend (json : Unmarshal) (s : subscription) (a : action) :
    ∀ e ∈ (readPumpSwitch json s a).effects, e.isSend = true := by
  unfold readPumpSwitch
  split
  · split <;> simp [Effect.isSend]
  · split
    · split
      · simp
      · split
        · simp
        · split <;> simp [Effect.isSend]
    · simp

theorem readPumpPass_isSend (json : Unmarshal) (s : subscription) (recv : Option Bytes) :
    ∀ e ∈ (readPumpPass json s recv).effects, e.isSend = true := by
  unfold readPumpPass
  split
  · simp
  · split
    · simp
    · exact readPumpSwitch_isSend json s _

theorem readPumpLoop_conn (json : Unmarshal) (recvs : List (Option Bytes)) :
    ∀ s : subscription, (readPumpLoop json s recvs).1.conn = s.conn := by
  induction recvs with
  | nil => intro s; rfl
  | cons recv rest ih =>
    intro s
    unfold readPumpLoop
    by_cases h : (readPumpPass json s recv).goesOn = true
    · simp only [h, if_true]
      rw [ih]; exact readPumpPass_conn json s recv
    · simp only [h]
      exact readPumpPass_conn json s recv

theorem readPumpLoop_isSend (json : Unmarshal) (recvs : List (Option Bytes)) :
    ∀ s : subscription, ∀ e ∈ (readPumpLoop json s recvs).2.1, e.isSend = true := by
  induction recvs with
  | nil => intro s e he; simp [readPumpLoop] at he
  | cons recv rest ih =>
    intro s e he
    unfold readPumpLoop at he
    by_cases h : (readPumpPass json s recv).goesOn = true
    · simp only [h, if_true, List.mem_append] at he
      rcases he with he | he
      · exact readPumpPass_isSend json s recv e he
      · exact ih _ e he
    · simp only [h] at he
      exact readPumpPass_isSend json s recv e he

/-- A receive error anywhere in the sequence of receive results makes the reader loop
exit. -/
theorem readPumpLoop_exits_on_error (json : Unmarshal) (recvs : List (Option Bytes)) :
    ∀ s : subscription, none ∈ recvs → (readPumpLoop json s recvs).2.2 = true := by
  induction recvs with
  | nil => intro s h; simp at h
  | cons recv rest ih =>
    intro s h
    unfold readPumpLoop
    by_cases hg : (readPumpPass json s recv).goesOn = true
    · simp only [hg, if_true]
      rcases List.mem_cons.mp h with h1 | h1
      · subst h1; simp [readPumpPass] at hg
      · exact ih _ h1
    · simp [hg]

/-- A frame that does not decode into an action ends the reader loop. -/
theorem readPumpPass_action_error (json : Unmarshal) (s : subscription) (msg : Bytes)
    (hdec : json.intoAction (normalize msg) = none) :
    readPumpPass json s (some msg) = ⟨s, [], false⟩ := by
  simp [readPumpPass, hdec]

/-- A post whose payload does not decode into a message ends the reader loop. -/
theorem readPumpPass_payload_error (json : Unmarshal) (s : subscription)
    (msg payload : Bytes)
    (hdec : json.intoAction (normalize msg) = some ⟨2, payload⟩)
    (hpay : json.intoInMessage payload = none) :
    readPumpPass json s (some msg) = ⟨s, [], false⟩ := by
  by_cases hroom : s.room = str "0"
  · simp [readPumpPass, hdec, readPumpSwitch, hroom]
  · simp [readPumpPass, hdec, readPumpSwitch, hroom, hpay]

/-- An action of an unrecognised type changes nothing and the reader loop goes on. -/
theorem readPumpPass_unrecognised (json : Unmarshal) (s : subscription)
    (msg payload : Bytes) (t : Int)
    (hdec : json.intoAction (normalize msg) = some ⟨t, payload⟩)
    (h1 : t ≠ 1) (h2 : t ≠ 2) :
    readPumpPass json s (some msg) = ⟨s, [], true⟩ := by
  simp [readPumpPass, hdec, readPumpSwitch, h1, h2]

/-- C6: whenever the reader loop exits, by whichever path, the effect trace of
`readPump` is the sends of the loop (register and broadcast requests only) followed
by exactly one unregister request for this subscription (same connection, in its
final state) and then one close of the connection; nothing follows the close, so no
register or broadcast comes after the unregister. -/
theorem readPump_exit_cleanup (json : Unmarshal) (s : subscription)
    (recvs : List (Option Bytes))
    (hexit : (readPumpLoop json s recvs).2.2 = true) :
    readPump json s recvs
        = (readPumpLoop json s recvs).2.1
            ++ [Effect.unregister (readPumpLoop json s recvs).1, Effect.close]
      ∧ (readPumpLoop json s recvs).1.conn = s.conn
      ∧ ∀ e ∈ (readPumpLoop json s recvs).2.1, e.isSend = true := by
  refine ⟨?_, readPumpLoop_conn json recvs s, readPumpLoop_isSend json recvs s⟩
  simp [readPump, hexit]

theorem readPump_exit_cleanup_witness :
    (readPumpLoop goJSON (serveWs 7) [some frameJoinLobby, some framePostLobby, none]).2.2
        = true
      ∧ readPump goJSON (serveWs 7) [some frameJoinLobby, some framePostLobby, none]
        = [Effect.register ⟨7, str "lobby", [str "lobby"]⟩,
            Effect.broadcast ⟨str "hi", str "lobby"⟩,
            Effect.unregister ⟨7, str "lobby", [str "lobby"]⟩, Effect.close] := by
  have h := readPump_exit_cleanup goJSON (serveWs 7)
    [some frameJoinLobby, some framePostLobby, none] (by decide)
  exact ⟨by decide, h.1.trans (by decide)⟩

theorem readPumpSwitch_roomInvariant (json : Unmarshal) (s : subscription) (a : action)
    (h : roomInvariant s) : roomInvariant (readPumpSwitch json s a).s := by
  unfold readPumpSwitch
  split
  · split
    · exact h
    · right; simp
  · split
    · split
      · exact h
      · split
        · exact h
        · split <;> exact h
    · exact h

theorem readPumpPass_roomInvariant (json : Unmarshal) (s : subscription)
    (recv : Option Bytes) (h : roomInvariant s) :
    roomInvariant (readPumpPass json s recv).s := by
  unfold readPumpPass
  split
  · exact h
  · split
    · exact h
    · exact readPumpSwitch_roomInvariant json s _ h

theorem readPumpLoop_roomInvariant (json : Unmarshal) (recvs : List (Option Bytes)) :
    ∀ s : subscription, roomInvariant s → roomInvariant (readPumpLoop json s recvs).1 := by
  induction recvs with
  | nil => intro s h; exact h
  | cons recv rest ih =>
    intro s h
    unfold readPumpLoop
    by_cases hg : (readPumpPass json s recv).goesOn = true
    · simp only [hg, if_true]
      exact ih _ (readPumpPass_roomInvariant json s recv h)
    · simp only [hg]
      exact readPumpPass_roomInvariant json s recv h

/-- C10: in every state that the reader loop reaches from the state set up by
`serveWs` (active room `"0"`, empty join history), whatever the sequence of received
frames and actions, either the join history is empty and the active room is `"0"`,
or the join history is non-empty and the active room is its last element. -/
theorem readPump_roomInvariant (json : Unmarshal) (conn : Nat)
    (recvs : List (Option Bytes)) :
    ((readPumpLoop json (serveWs conn) recvs).1.rooms = []
        ∧ (readPumpLoop json (serveWs conn) recvs).1.room = str "0")
      ∨ ((readPumpLoop json (serveWs conn) recvs).1.rooms ≠ []
        ∧ (readPumpLoop json (serveWs conn) recvs).1.rooms.getLast?
            = some (readPumpLoop json (serveWs conn) recvs).1.room) :=
  readPumpLoop_roomInvariant json recvs (serveWs conn) (Or.inl ⟨rfl, rfl⟩)

/-! ## The normalisation of a received frame -/

theorem replaceLoop_newline (fuel : Nat) :
    ∀ s : Bytes, s.length ≤ fuel →
      bytes.replaceLoop newline space fuel s = newlinesToSpaces s := by
  induction fuel with
  | zero =>
    intro s hs
    have : s = [] := List.length_eq_zero.mp (Nat.le_zero.mp hs)
    subst this; rfl
  | succ fuel ih =>
    intro s hs
    cases s with
    | nil => rfl
    | cons b t =>
      have ht : t.length ≤ fuel := by simpa using hs
      by_cases hb : b = 0x0A
      · subst hb
        simp [bytes.replaceLoop, newline, space, newlinesToSpaces, List.isPrefixOf]
        simpa [newline, space, newlinesToSpaces] using ih t ht
      · have hb2 : ¬ (0x0A = b) := fun e => hb e.symm
        simp [bytes.replaceLoop, newline, space, newlinesToSpaces, List.isPrefixOf, hb, hb2]
        simpa [newline, space, newlinesToSpaces] using ih t ht

theorem Replace_newline (s : Bytes) :
    bytes.Replace s newline space = newlinesToSpaces s := by
  simp [bytes.Replace, newline]
  exact replaceLoop_newline s.length s (le_refl _)

theorem TrimLeftFunc_suffix (s : Bytes) (f : Nat → Bool) :
    bytes.TrimLeftFunc s f <:+ s := by
  unfold bytes.TrimLeftFunc
  split
  · exact List.nil_suffix
  · exact List.drop_suffix _ s

theorem TrimRightFunc_isPrefix (s : Bytes) (f : Nat → Bool) :
    bytes.TrimRightFunc s f <+: s := by
  unfold bytes.TrimRightFunc
  split
  · split
    · exact List.take_prefix _ s
    · exact List.take_prefix _ s
  · exact List.take_prefix _ s

theorem TrimFunc_infix (s : Bytes) (f : Nat → Bool) : bytes.TrimFunc s f <:+: s :=
  (TrimRightFunc_isPrefix _ f).isInfix.trans (TrimLeftFunc_suffix s f).isInfix

theorem trimSpaceStop_infix (r : Bytes) : bytes.trimSpaceStop r <:+: r.reverse := by
  induction r with
  | nil => simp [bytes.trimSpaceStop]
  | cons c r ih =>
    unfold bytes.trimSpaceStop
    split
    · exact TrimFunc_infix _ _
    · split
      · exact List.infix_refl _
      · refine ih.trans ?_
        rw [List.reverse_cons]
        exact (List.prefix_append _ _).isInfix

theorem TrimSpace_infix (s : Bytes) : bytes.TrimSpace s <:+: s := by
  induction s with
  | nil => simp [bytes.TrimSpace]
  | cons c t ih =>
    unfold bytes.TrimSpace
    split
    · exact TrimFunc_infix _ _
    · split
      · have h := trimSpaceStop_infix (c :: t).reverse
        rwa [List.reverse_reverse] at h
      · exact ih.trans (List.suffix_cons c t).isInfix

theorem asciiSpace_eq_zero (c : Nat) : bytes.asciiSpace c = 0 ↔ isAsciiSpace c = false := by
  unfold bytes.asciiSpace isAsciiSpace
  by_cases h : c = 0x09 ∨ c = 0x0A ∨ c = 0x0B ∨ c = 0x0C ∨ c = 0x0D ∨ c = 0x20
  · simp only [h, if_true]
    rcases h with h | h | h | h | h | h <;> subst h <;> decide
  · simp only [h, if_false]
    simp only [not_or] at h
    simp [h.1, h.2.1, h.2.2.1, h.2.2.2.1, h.2.2.2.2.1, h.2.2.2.2.2]

theorem trimSpaceStop_ascii (r : Bytes) (hr : ∀ b ∈ r, b < 0x80) :
    bytes.trimSpaceStop r = (r.dropWhile isAsciiSpace).reverse := by
  induction r with
  | nil => rfl
  | cons c r ih =>
    have hc : ¬ c ≥ utf8.RuneSelf := by
      have := hr c (List.mem_cons_self c r)
      simp only [utf8.RuneSelf]; omega
    have hr2 : ∀ b ∈ r, b < 0x80 := fun b hb => hr b (List.mem_cons_of_mem c hb)
    unfold bytes.trimSpaceStop
    by_cases hs : bytes.asciiSpace c = 0
    · have hs2 := (asciiSpace_eq_zero c).mp hs
      simp [hc, hs, hs2, List.dropWhile_cons]
    · have hs2 : isAsciiSpace c = true := by
        cases h : isAsciiSpace c
        · exact absurd ((asciiSpace_eq_zero c).mpr h) hs
        · rfl
      simp [hc, hs, hs2, List.dropWhile_cons, ih hr2]

theorem TrimSpace_ascii (s : Bytes) (hs : ∀ b ∈ s, b < 0x80) :
    bytes.TrimSpace s = trimAsciiSpace s := by
  induction s with
  | nil => rfl
  | cons c t ih =>
    have hc : ¬ c ≥ utf8.RuneSelf := by
      have := hs c (List.mem_cons_self c t)
      simp only [utf8.RuneSelf]; omega
    have ht : ∀ b ∈ t, b < 0x80 := fun b hb => hs b (List.mem_cons_of_mem c hb)
    unfold bytes.TrimSpace
    by_cases hz : bytes.asciiSpace c = 0
    · have hz2 := (asciiSpace_eq_zero c).mp hz
      have hrev : ∀ b ∈ (c :: t).reverse, b < 0x80 := by
        intro b hb; exact hs b (List.mem_reverse.mp hb)
      rw [if_neg hc, if_pos hz, trimSpaceStop_ascii _ hrev]
      simp [trimAsciiSpace, List.rdropWhile, List.dropWhile_cons, hz2]
    · have hz2 : isAsciiSpace c = true := by
        cases h : isAsciiSpace c
        · exact absurd ((asciiSpace_eq_zero c).mpr h) hz
        · rfl
      rw [if_neg hc, if_neg hz, ih ht]
      simp [trimAsciiSpace, List.dropWhile_cons, hz2]

theorem newlinesToSpaces_ascii (msg : Bytes) (h : ∀ b ∈ msg, b < 0x80) :
    ∀ b ∈ newlinesToSpaces msg, b < 0x80 := by
  intro b hb
  simp only [newlinesToSpaces, List.mem_map] at hb
  obtain ⟨a, ha, rfl⟩ := hb
  have := h a ha
  split <;> omega

/-- C9 (counterexample): the frame `"a\nb"` is normalised to `"a b"`, which changes an
interior byte and is not a prefix of the frame; the frame `" a"` is normalised to
`"a"`, which drops a leading byte and is not a prefix of the frame either. -/
theorem normalize_not_trailing_trim :
    normalize (str "a\nb") = str "a b"
      ∧ ¬ (normalize (str "a\nb") <+: str "a\nb")
      ∧ normalize (str " a") = str "a"
      ∧ ¬ (normalize (str " a") <+: str " a") := by
  refine ⟨?_, ?_, ?_, ?_⟩ <;> decide

/-! ## UTF-8: decoding a well-formed rune and encoding it again -/

theorem land_3F (x : Nat) : x &&& 0x3F = x % 64 := Nat.and_pow_two_sub_one_eq_mod x 6
theorem land_1F (x : Nat) : x &&& 0x1F = x % 32 := Nat.and_pow_two_sub_one_eq_mod x 5
theorem land_0F (x : Nat) : x &&& 0x0F = x % 16 := Nat.and_pow_two_sub_one_eq_mod x 4
theorem land_07 (x : Nat) : x &&& 0x07 = x % 8 := Nat.and_pow_two_sub_one_eq_mod x 3

theorem lor_eq_add (i m b : Nat) (hm : m % 2 ^ i = 0) (hb : b < 2 ^ i) :
    m ||| b = m + b := by
  have h : m = 2 ^ i * (m / 2 ^ i) := by
    have := Nat.div_add_mod m (2 ^ i)
    omega
  rw [h]
  exact (Nat.mul_add_lt_is_or hb _).symm

theorem shl6 (a : Nat) : a <<< 6 = a * 64 := Nat.shiftLeft_eq a 6
theorem shl12 (a : Nat) : a <<< 12 = a * 4096 := Nat.shiftLeft_eq a 12
theorem shl18 (a : Nat) : a <<< 18 = a * 262144 := Nat.shiftLeft_eq a 18

theorem lor_tag (k i a b : Nat) (hk : k = 2 ^ i * a) (hb : b < 2 ^ i) : k ||| b = k + b := by
  subst hk; exact (Nat.mul_add_lt_is_or hb a).symm

theorem lor_tx (b : Nat) (hb : b < 64) : utf8.tx ||| b = 0x80 + b :=
  lor_tag 0x80 6 2 b (by decide) hb
theorem lor_t2 (b : Nat) (hb : b < 32) : utf8.t2 ||| b = 0xC0 + b :=
  lor_tag 0xC0 5 6 b (by decide) hb
theorem lor_t3 (b : Nat) (hb : b < 16) : utf8.t3 ||| b = 0xE0 + b :=
  lor_tag 0xE0 4 14 b (by decide) hb
theorem lor_t4 (b : Nat) (hb : b < 8) : utf8.t4 ||| b = 0xF0 + b :=
  lor_tag 0xF0 3 30 b (by decide) hb

theorem DecodeRune_ascii (b : Nat) (t : Bytes) (hb : b < 0x80) :
    utf8.DecodeRune (b :: t) = (b, 1) := by
  simp [utf8.DecodeRune, utf8.first, hb, utf8.as, utf8.xx]

theorem DecodeRune_two (p0 b1 : Nat) (t : Bytes) (h0 : 0xC2 ≤ p0) (h0' : p0 ≤ 0xDF)
    (h1 : 0x80 ≤ b1) (h1' : b1 ≤ 0xBF) :
    utf8.DecodeRune (p0 :: b1 :: t) = ((p0 % 32) * 64 + b1 % 64, 2) := by
  have hf : utf8.first p0 = utf8.s1 := by
    unfold utf8.first
    rw [if_neg (by omega), if_neg (by omega), if_pos (by omega)]
  have e1 : utf8.s1 &&& 7 = 2 := by decide
  have e2 : utf8.s1 >>> 4 = 0 := by decide
  have e3 : ¬ utf8.s1 ≥ utf8.as := by decide
  simp only [utf8.DecodeRune, hf, e1, e2, e3, if_false, utf8.acceptRanges, utf8.locb, utf8.hicb,
    List.length_cons, utf8.mask2, utf8.maskx, land_1F, land_3F]
  rw [if_neg (by omega), if_neg (by omega), if_pos (by omega), shl6,
    lor_eq_add 6 _ _ (by omega) (by omega)]

theorem DecodeRune_three (p0 b1 b2 : Nat) (t : Bytes) (h0 : 0xE0 ≤ p0) (h0' : p0 ≤ 0xEF)
    (h1 : (if p0 = 0xE0 then 0xA0 else 0x80) ≤ b1)
    (h1' : b1 ≤ (if p0 = 0xED then 0x9F else 0xBF))
    (h2 : 0x80 ≤ b2) (h2' : b2 ≤ 0xBF) :
    utf8.DecodeRune (p0 :: b1 :: b2 :: t)
      = ((p0 % 16) * 4096 + (b1 % 64) * 64 + b2 % 64, 3) := by
  have e3 : ∀ x, x = utf8.s2 ∨ x = utf8.s3 ∨ x = utf8.s4 →
      ¬ x ≥ utf8.as ∧ x &&& 7 = 3 := by
    intro x hx; rcases hx with h | h | h <;> subst h <;> decide
  have key : ∀ x lo hi, ¬ x ≥ utf8.as → x &&& 7 = 3 → utf8.first p0 = x →
      utf8.acceptRanges (x >>> 4) = (lo, hi) → lo ≤ b1 → b1 ≤ hi → 0x80 ≤ lo → hi ≤ 0xBF →
      utf8.DecodeRune (p0 :: b1 :: b2 :: t)
        = ((p0 % 16) * 4096 + (b1 % 64) * 64 + b2 % 64, 3) := by
    intro x lo hi hx hsz hf hacc hlo hhi hlo2 hhi2
    simp only [utf8.DecodeRune, hf, hx, hsz, hacc, if_false, utf8.locb, utf8.hicb,
      List.length_cons, utf8.mask3, utf8.maskx, land_0F, land_3F]
    rw [if_neg (by omega), if_neg (by omega), if_neg (by omega), if_neg (by omega),
      if_pos (by omega), shl12, shl6,
      lor_eq_add 12 (p0 % 16 * 4096) (b1 % 64 * 64) (by omega) (by omega),
      lor_eq_add 6 (p0 % 16 * 4096 + b1 % 64 * 64) (b2 % 64) (by omega) (by omega)]
  by_cases c0 : p0 = 0xE0
  · have hf : utf8.first p0 = utf8.s2 := by subst c0; decide
    have hd : ¬ p0 = 0xED := by omega
    rw [if_pos c0] at h1; rw [if_neg hd] at h1'
    exact key utf8.s2 0xA0 0xBF (e3 _ (Or.inl rfl)).1 (e3 _ (Or.inl rfl)).2 hf (by decide)
      h1 h1' (by omega) (by omega)
  · by_cases cd : p0 = 0xED
    · have hf : utf8.first p0 = utf8.s4 := by subst cd; decide
      rw [if_neg c0] at h1; rw [if_pos cd] at h1'
      exact key utf8.s4 0x80 0x9F (e3 _ (Or.inr (Or.inr rfl))).1
        (e3 _ (Or.inr (Or.inr rfl))).2 hf (by decide) h1 h1' (by omega) (by omega)
    · have hf : utf8.first p0 = utf8.s3 := by
        unfold utf8.first
        by_cases hlt : p0 < 0xED
        · rw [if_neg (by omega), if_neg (by omega), if_neg (by omega), if_neg c0,
            if_pos hlt]
        · rw [if_neg (by omega), if_neg (by omega), if_neg (by omega), if_neg c0,
            if_neg hlt, if_neg cd, if_pos (by omega)]
      rw [if_neg c0] at h1; rw [if_neg cd] at h1'
      exact key utf8.s3 0x80 0xBF (e3 _ (Or.inr (Or.inl rfl))).1
        (e3 _ (Or.inr (Or.inl rfl))).2 hf (by decide) h1 h1' (by omega) (by omega)

theorem DecodeRune_four (p0 b1 b2 b3 : Nat) (t : Bytes) (h0 : 0xF0 ≤ p0) (h0' : p0 ≤ 0xF4)
    (h1 : (if p0 = 0xF0 then 0x90 else 0x80) ≤ b1)
    (h1' : b1 ≤ (if p0 = 0xF4 then 0x8F else 0xBF))
    (h2 : 0x80 ≤ b2) (h2' : b2 ≤ 0xBF) (h3 : 0x80 ≤ b3) (h3' : b3 ≤ 0xBF) :
    utf8.DecodeRune (p0 :: b1 :: b2 :: b3 :: t)
      = ((p0 % 8) * 262144 + (b1 % 64) * 4096 + (b2 % 64) * 64 + b3 % 64, 4) := by
  have e3 : ∀ x, x = utf8.s5 ∨ x = utf8.s6 ∨ x = utf8.s7 →
      ¬ x ≥ utf8.as ∧ x &&& 7 = 4 := by
    intro x hx; rcases hx with h | h | h <;> subst h <;> decide
  have key : ∀ x lo hi, ¬ x ≥ utf8.as → x &&& 7 = 4 → utf8.first p0 = x →
      utf8.acceptRanges (x >>> 4) = (lo, hi) → lo ≤ b1 → b1 ≤ hi → 0x80 ≤ lo → hi ≤ 0xBF →
      utf8.DecodeRune (p0 :: b1 :: b2 :: b3 :: t)
        = ((p0 % 8) * 262144 + (b1 % 64) * 4096 + (b2 % 64) * 64 + b3 % 64, 4) := by
    intro x lo hi hx hsz hf hacc hlo hhi hlo2 hhi2
    simp only [utf8.DecodeRune, hf, hx, hsz, hacc, if_false, utf8.locb, utf8.hicb,
      List.length_cons, utf8.mask4, utf8.maskx, land_07, land_3F]
    rw [if_neg (by omega), if_neg (by omega), if_neg (by omega), if_neg (by omega),
      if_neg (by omega), if_neg (by omega), shl18, shl12, shl6,
      lor_eq_add 18 (p0 % 8 * 262144) (b1 % 64 * 4096) (by omega) (by omega),
      lor_eq_add 12 (p0 % 8 * 262144 + b1 % 64 * 4096) (b2 % 64 * 64) (by omega) (by omega),
      lor_eq_add 6 (p0 % 8 * 262144 + b1 % 64 * 4096 + b2 % 64 * 64) (b3 % 64) (by omega)
        (by omega)]
  by_cases c0 : p0 = 0xF0
  · have hf : utf8.first p0 = utf8.s5 := by subst c0; decide
    have hd : ¬ p0 = 0xF4 := by omega
    rw [if_pos c0] at h1; rw [if_neg hd] at h1'
    exact key utf8.s5 0x90 0xBF (e3 _ (Or.inl rfl)).1 (e3 _ (Or.inl rfl)).2 hf (by decide)
      h1 h1' (by omega) (by omega)
  · by_cases cd : p0 = 0xF4
    · have hf : utf8.first p0 = utf8.s7 := by subst cd; decide
      rw [if_neg c0] at h1; rw [if_pos cd] at h1'
      exact key utf8.s7 0x80 0x8F (e3 _ (Or.inr (Or.inr rfl))).1
        (e3 _ (Or.inr (Or.inr rfl))).2 hf (by decide) h1 h1' (by omega) (by omega)
    · have hf : utf8.first p0 = utf8.s6 := by
        unfold utf8.first
        rw [if_neg (by omega), if_neg (by omega), if_neg (by omega), if_neg (by omega),
          if_neg (by omega), if_neg (by omega), if_neg (by omega), if_neg c0,
          if_pos (by omega)]
      rw [if_neg c0] at h1; rw [if_neg cd] at h1'
      exact key utf8.s6 0x80 0xBF (e3 _ (Or.inr (Or.inl rfl))).1
        (e3 _ (Or.inr (Or.inl rfl))).2 hf (by decide) h1 h1' (by omega) (by omega)

theorem first_spec (b : Nat) :
    (b < 0x80 ∧ utf8.first b = utf8.as)
      ∨ ((0x80 ≤ b ∧ b < 0xC2 ∨ 0xF4 < b) ∧ utf8.first b = utf8.xx)
      ∨ (0xC2 ≤ b ∧ b ≤ 0xDF ∧ utf8.first b = utf8.s1)
      ∨ (b = 0xE0 ∧ utf8.first b = utf8.s2)
      ∨ ((0xE1 ≤ b ∧ b ≤ 0xEC ∨ 0xEE ≤ b ∧ b ≤ 0xEF) ∧ utf8.first b = utf8.s3)
      ∨ (b = 0xED ∧ utf8.first b = utf8.s4)
      ∨ (b = 0xF0 ∧ utf8.first b = utf8.s5)
      ∨ (0xF1 ≤ b ∧ b ≤ 0xF3 ∧ utf8.first b = utf8.s6)
      ∨ (b = 0xF4 ∧ utf8.first b = utf8.s7) := by
  unfold utf8.first
  split
  · left; omega
  · split
    · right; left; omega
    · split
      · right; right; left; omega
      · split
        · right; right; right; left; omega
        · split
          · right; right; right; right; left; omega
          · split
            · right; right; right; right; right; left; omega
            · split
              · right; right; right; right; left; omega
              · split
                · right; right; right; right; right; right; left; omega
                · split
                  · right; right; right; right; right; right; right; left; omega
                  · split
                    · right; right; right; right; right; right; right; right; omega
                    · right; left; omega

/-- The byte sequences that `DecodeRune` accepts as one rune of two, three or four
bytes. -/
theorem DecodeRune_valid_cases (b : Nat) (t : Bytes)
    (hv : ¬ ((utf8.DecodeRune (b :: t)).1 = utf8.RuneError
      ∧ (utf8.DecodeRune (b :: t)).2 = 1)) :
    b < 0x80
      ∨ (∃ b1 t1, t = b1 :: t1 ∧ 0xC2 ≤ b ∧ b ≤ 0xDF ∧ 0x80 ≤ b1 ∧ b1 ≤ 0xBF)
      ∨ (∃ b1 b2 t2, t = b1 :: b2 :: t2 ∧ 0xE0 ≤ b ∧ b ≤ 0xEF
          ∧ (if b = 0xE0 then 0xA0 else 0x80) ≤ b1
          ∧ b1 ≤ (if b = 0xED then 0x9F else 0xBF) ∧ 0x80 ≤ b2 ∧ b2 ≤ 0xBF)
      ∨ (∃ b1 b2 b3 t3, t = b1 :: b2 :: b3 :: t3 ∧ 0xF0 ≤ b ∧ b ≤ 0xF4
          ∧ (if b = 0xF0 then 0x90 else 0x80) ≤ b1
          ∧ b1 ≤ (if b = 0xF4 then 0x8F else 0xBF) ∧ 0x80 ≤ b2 ∧ b2 ≤ 0xBF
          ∧ 0x80 ≤ b3 ∧ b3 ≤ 0xBF) := by
  have two : ∀ x lo hi, utf8.first b = x → ¬ x ≥ utf8.as → x &&& 7 = 2 →
      utf8.acceptRanges (x >>> 4) = (lo, hi) →
      ∃ b1 t1, t = b1 :: t1 ∧ lo ≤ b1 ∧ b1 ≤ hi := by
    intro x lo hi hf hx hsz hacc
    cases t with
    | nil => exfalso; apply hv; simp [utf8.DecodeRune, hf, hx, hsz]
    | cons b1 t1 =>
      by_cases hr : lo ≤ b1 ∧ b1 ≤ hi
      · exact ⟨b1, t1, rfl, hr.1, hr.2⟩
      · exfalso; apply hv
        have : b1 < lo ∨ hi < b1 := by omega
        simp [utf8.DecodeRune, hf, hx, hsz, hacc, this]
  have three : ∀ x lo hi, utf8.first b = x → ¬ x ≥ utf8.as → x &&& 7 = 3 →
      utf8.acceptRanges (x >>> 4) = (lo, hi) →
      ∃ b1 b2 t2, t = b1 :: b2 :: t2 ∧ lo ≤ b1 ∧ b1 ≤ hi ∧ 0x80 ≤ b2 ∧ b2 ≤ 0xBF := by
    intro x lo hi hf hx hsz hacc
    cases t with
    | nil => exfalso; apply hv; simp [utf8.DecodeRune, hf, hx, hsz]
    | cons b1 t1 =>
      cases t1 with
      | nil => exfalso; apply hv; simp [utf8.DecodeRune, hf, hx, hsz]
      | cons b2 t2 =>
        by_cases hr : lo ≤ b1 ∧ b1 ≤ hi
        · by_cases hr2 : 0x80 ≤ b2 ∧ b2 ≤ 0xBF
          · exact ⟨b1, b2, t2, rfl, hr.1, hr.2, hr2.1, hr2.2⟩
          · exfalso; apply hv
            have h1 : ¬ (b1 < lo ∨ hi < b1) := by omega
            have h2 : b2 < 0x80 ∨ 0xBF < b2 := by omega
            simp [utf8.DecodeRune, hf, hx, hsz, hacc, h1, h2, utf8.locb, utf8.hicb]
        · exfalso; apply hv
          have : b1 < lo ∨ hi < b1 := by omega
          simp [utf8.DecodeRune, hf, hx, hsz, hacc, this]
  have four : ∀ x lo hi, utf8.first b = x → ¬ x ≥ utf8.as → x &&& 7 = 4 →
      utf8.acceptRanges (x >>> 4) = (lo, hi) →
      ∃ b1 b2 b3 t3, t = b1 :: b2 :: b3 :: t3 ∧ lo ≤ b1 ∧ b1 ≤ hi ∧ 0x80 ≤ b2 ∧ b2 ≤ 0xBF
        ∧ 0x80 ≤ b3 ∧ b3 ≤ 0xBF := by
    intro x lo hi hf hx hsz hacc
    cases t with
    | nil => exfalso; apply hv; simp [utf8.DecodeRune, hf, hx, hsz]
    | cons b1 t1 =>
      cases t1 with
      | nil => exfalso; apply hv; simp [utf8.DecodeRune, hf, hx, hsz]
      | cons b2 t2 =>
        cases t2 with
        | nil => exfalso; apply hv; simp [utf8.DecodeRune, hf, hx, hsz]
        | cons b3 t3 =>
          by_cases hr : lo ≤ b1 ∧ b1 ≤ hi
          · by_cases hr2 : 0x80 ≤ b2 ∧ b2 ≤ 0xBF
            · by_cases hr3 : 0x80 ≤ b3 ∧ b3 ≤ 0xBF
              · exact ⟨b1, b2, b3, t3, rfl, hr.1, hr.2, hr2.1, hr2.2, hr3.1, hr3.2⟩
              · exfalso; apply hv
                have h1 : ¬ (b1 < lo ∨ hi < b1) := by omega
                have h2 : ¬ (b2 < 0x80 ∨ 0xBF < b2) := by omega
                have h3 : b3 < 0x80 ∨ 0xBF < b3 := by omega
                simp [utf8.DecodeRune, hf, hx, hsz, hacc, h1, h2, h3, utf8.locb, utf8.hicb]
            · exfalso; apply hv
              have h1 : ¬ (b1 < lo ∨ hi < b1) := by omega
              have h2 : b2 < 0x80 ∨ 0xBF < b2 := by omega
              simp [utf8.DecodeRune, hf, hx, hsz, hacc, h1, h2, utf8.locb, utf8.hicb]
          · exfalso; apply hv
            have : b1 < lo ∨ hi < b1 := by omega
            simp [utf8.DecodeRune, hf, hx, hsz, hacc, this]
  rcases first_spec b with h | h | h | h | h | h | h | h | h
  · exact Or.inl h.1
  · exfalso; apply hv
    simp [utf8.DecodeRune, h.2, utf8.xx, utf8.as]
  · obtain ⟨b1, t1, e, h1, h2⟩ := two utf8.s1 0x80 0xBF h.2.2 (by decide) (by decide) (by decide)
    exact Or.inr (Or.inl ⟨b1, t1, e, h.1, h.2.1, h1, h2⟩)
  · obtain ⟨b1, b2, t2, e, h1, h2, h3, h4⟩ :=
      three utf8.s2 0xA0 0xBF h.2 (by decide) (by decide) (by decide)
    refine Or.inr (Or.inr (Or.inl ⟨b1, b2, t2, e, by omega, by omega, ?_, ?_, h3, h4⟩))
    · rw [if_pos h.1]; exact h1
    · rw [if_neg (by omega)]; exact h2
  · obtain ⟨b1, b2, t2, e, h1, h2, h3, h4⟩ :=
      three utf8.s3 0x80 0xBF h.2 (by decide) (by decide) (by decide)
    refine Or.inr (Or.inr (Or.inl ⟨b1, b2, t2, e, by omega, by omega, ?_, ?_, h3, h4⟩))
    · rw [if_neg (by omega)]; exact h1
    · rw [if_neg (by omega)]; exact h2
  · obtain ⟨b1, b2, t2, e, h1, h2, h3, h4⟩ :=
      three utf8.s4 0x80 0x9F h.2 (by decide) (by decide) (by decide)
    refine Or.inr (Or.inr (Or.inl ⟨b1, b2, t2, e, by omega, by omega, ?_, ?_, h3, h4⟩))
    · rw [if_neg (by omega)]; exact h1
    · rw [if_pos h.1]; exact h2
  · obtain ⟨b1, b2, b3, t3, e, h1, h2, h3, h4, h5, h6⟩ :=
      four utf8.s5 0x90 0xBF h.2 (by decide) (by decide) (by decide)
    refine Or.inr (Or.inr (Or.inr ⟨b1, b2, b3, t3, e, by omega, by omega, ?_, ?_, h3, h4,
      h5, h6⟩))
    · rw [if_pos h.1]; exact h1
    · rw [if_neg (by omega)]; exact h2
  · obtain ⟨b1, b2, b3, t3, e, h1, h2, h3, h4, h5, h6⟩ :=
      four utf8.s6 0x80 0xBF h.2.2 (by decide) (by decide) (by decide)
    refine Or.inr (Or.inr (Or.inr ⟨b1, b2, b3, t3, e, by omega, by omega, ?_, ?_, h3, h4,
      h5, h6⟩))
    · rw [if_neg (by omega)]; exact h1
    · rw [if_neg (by omega)]; exact h2
  · obtain ⟨b1, b2, b3, t3, e, h1, h2, h3, h4, h5, h6⟩ :=
      four utf8.s7 0x80 0x8F h.2 (by decide) (by decide) (by decide)
    refine Or.inr (Or.inr (Or.inr ⟨b1, b2, b3, t3, e, by omega, by omega, ?_, ?_, h3, h4,
      h5, h6⟩))
    · rw [if_neg (by omega)]; exact h1
    · rw [if_pos h.1]; exact h2

theorem mod_256_64 (x : Nat) : x % 256 % 64 = x % 64 :=
  Nat.mod_mod_of_dvd x (by decide)

theorem EncodeRune_two (r : Nat) (h1 : 0x80 ≤ r) (h2 : r ≤ 0x7FF) :
    utf8.EncodeRune r = [0xC0 + r / 64, 0x80 + r % 64] := by
  unfold utf8.EncodeRune
  rw [if_neg (by simp only [utf8.rune1Max]; omega), if_pos (by simp only [utf8.rune2Max]; omega)]
  simp only [utf8.byte, utf8.maskx, land_3F, Nat.shiftRight_eq_div_pow, Nat.reducePow,
    mod_256_64]
  have e1 : r / 64 % 256 = r / 64 := Nat.mod_eq_of_lt (by omega)
  rw [e1, lor_t2 _ (by omega), lor_tx _ (Nat.mod_lt _ (by decide))]

theorem EncodeRune_three (r : Nat) (h1 : 0x800 ≤ r) (h2 : r ≤ 0xFFFF)
    (h3 : r < 0xD800 ∨ 0xDFFF < r) :
    utf8.EncodeRune r = [0xE0 + r / 4096, 0x80 + r / 64 % 64, 0x80 + r % 64] := by
  unfold utf8.EncodeRune
  rw [if_neg (by simp only [utf8.rune1Max]; omega),
    if_neg (by simp only [utf8.rune2Max]; omega),
    if_neg (by simp only [utf8.MaxRune, utf8.surrogateMin, utf8.surrogateMax]; omega),
    if_pos (by simp only [utf8.rune3Max]; omega)]
  simp only [utf8.byte, utf8.maskx, land_3F, Nat.shiftRight_eq_div_pow, Nat.reducePow,
    mod_256_64]
  have e1 : r / 4096 % 256 = r / 4096 := Nat.mod_eq_of_lt (by omega)
  rw [e1, lor_t3 _ (by omega), lor_tx _ (Nat.mod_lt _ (by decide)),
    lor_tx _ (Nat.mod_lt _ (by decide))]

theorem EncodeRune_four (r : Nat) (h1 : 0x10000 ≤ r) (h2 : r ≤ 0x10FFFF) :
    utf8.EncodeRune r
      = [0xF0 + r / 262144, 0x80 + r / 4096 % 64, 0x80 + r / 64 % 64, 0x80 + r % 64] := by
  unfold utf8.EncodeRune
  rw [if_neg (by simp only [utf8.rune1Max]; omega),
    if_neg (by simp only [utf8.rune2Max]; omega),
    if_neg (by simp only [utf8.MaxRune, utf8.surrogateMin, utf8.surrogateMax]; omega),
    if_neg (by simp only [utf8.rune3Max]; omega)]
  simp only [utf8.byte, utf8.maskx, land_3F, Nat.shiftRight_eq_div_pow, Nat.reducePow,
    mod_256_64]
  have e1 : r / 262144 % 256 = r / 262144 := Nat.mod_eq_of_lt (by omega)
  rw [e1, lor_t4 _ (by omega), lor_tx _ (Nat.mod_lt _ (by decide)),
    lor_tx _ (Nat.mod_lt _ (by decide)), lor_tx _ (Nat.mod_lt _ (by decide))]

theorem EncodeRune_ascii (r : Nat) (h : r < 0x80) : utf8.EncodeRune r = [r] := by
  unfold utf8.EncodeRune
  rw [if_pos (by simp only [utf8.rune1Max]; omega)]
  simp only [utf8.byte]
  congr 1; omega

/-- A well-formed rune of more than one byte: the bytes `w` that `DecodeRune` consumes
are all at least `0x80`, they alone determine the result, and encoding the decoded
rune gives `w` back. -/
theorem validRune_spec (b : Nat) (t : Bytes) (hb : 0x80 ≤ b)
    (hv : ¬ ((utf8.DecodeRune (b :: t)).1 = utf8.RuneError
      ∧ (utf8.DecodeRune (b :: t)).2 = 1)) :
    ∃ w rest, b :: t = w ++ rest ∧ 2 ≤ w.length ∧ w.length ≤ 4
      ∧ (∀ c ∈ w, 0x80 ≤ c)
      ∧ (∀ q, utf8.DecodeRune (w ++ q) = utf8.DecodeRune (b :: t))
      ∧ (utf8.DecodeRune (b :: t)).2 = w.length
      ∧ utf8.EncodeRune (utf8.DecodeRune (b :: t)).1 = w
      ∧ 0x80 ≤ (utf8.DecodeRune (b :: t)).1 := by
  rcases DecodeRune_valid_cases b t hv with h | h | h | h
  · omega
  · obtain ⟨b1, t1, e, h0, h0', h1, h1'⟩ := h
    subst e
    have hd := DecodeRune_two b b1 t1 h0 h0' h1 h1'
    refine ⟨[b, b1], t1, rfl, by simp, by simp, ?_, ?_, ?_, ?_, ?_⟩
    · intro c hc; simp at hc; rcases hc with rfl | rfl <;> omega
    · intro q; rw [hd]; exact DecodeRune_two b b1 q h0 h0' h1 h1'
    · rw [hd]; rfl
    · rw [hd]; simp only
      rw [EncodeRune_two _ (by omega) (by omega)]
      congr 1
      · omega
      · congr 1; omega
    · rw [hd]; simp only; omega
  · obtain ⟨b1, b2, t2, e, h0, h0', h1, h1', h2, h2'⟩ := h
    subst e
    have hd := DecodeRune_three b b1 b2 t2 h0 h0' h1 h1' h2 h2'
    have hlo : b = 0xE0 → 0xA0 ≤ b1 := by
      intro e; rw [if_pos e] at h1; exact h1
    have hlo2 : 0x80 ≤ b1 := by
      by_cases e : b = 0xE0
      · have := hlo e; omega
      · rw [if_neg e] at h1; exact h1
    have hhi : b = 0xED → b1 ≤ 0x9F := by
      intro e; rw [if_pos e] at h1'; exact h1'
    have hhi2 : b1 ≤ 0xBF := by
      by_cases e : b = 0xED
      · have := hhi e; omega
      · rw [if_neg e] at h1'; exact h1'
    refine ⟨[b, b1, b2], t2, rfl, by simp, by simp, ?_, ?_, ?_, ?_, ?_⟩
    · intro c hc; simp at hc; rcases hc with rfl | rfl | rfl <;> omega
    · intro q; rw [hd]; exact DecodeRune_three b b1 b2 q h0 h0' h1 h1' h2 h2'
    · rw [hd]; rfl
    · rw [hd]; simp only
      by_cases e0 : b = 0xE0
      · have := hlo e0
        rw [EncodeRune_three _ (by omega) (by omega) (by omega)]
        congr 1
        · omega
        · congr 1
          · omega
          · congr 1; omega
      · by_cases ed : b = 0xED
        · have := hhi ed
          rw [EncodeRune_three _ (by omega) (by omega) (by omega)]
          congr 1
          · omega
          · congr 1
            · omega
            · congr 1; omega
        · rw [EncodeRune_three _ (by omega) (by omega) (by omega)]
          congr 1
          · omega
          · congr 1
            · omega
            · congr 1; omega
    · rw [hd]; simp only
      by_cases e0 : b = 0xE0
      · have := hlo e0; omega
      · omega
  · obtain ⟨b1, b2, b3, t3, e, h0, h0', h1, h1', h2, h2', h3, h3'⟩ := h
    subst e
    have hd := DecodeRune_four b b1 b2 b3 t3 h0 h0' h1 h1' h2 h2' h3 h3'
    have hlo : b = 0xF0 → 0x90 ≤ b1 := by
      intro e; rw [if_pos e] at h1; exact h1
    have hlo2 : 0x80 ≤ b1 := by
      by_cases e : b = 0xF0
      · have := hlo e; omega
      · rw [if_neg e] at h1; exact h1
    have hhi : b = 0xF4 → b1 ≤ 0x8F := by
      intro e; rw [if_pos e] at h1'; exact h1'
    have hhi2 : b1 ≤ 0xBF := by
      by_cases e : b = 0xF4
      · have := hhi e; omega
      · rw [if_neg e] at h1'; exact h1'
    refine ⟨[b, b1, b2, b3], t3, rfl, by simp, by simp, ?_, ?_, ?_, ?_, ?_⟩
    · intro c hc; simp at hc; rcases hc with rfl | rfl | rfl | rfl <;> omega
    · intro q; rw [hd]; exact DecodeRune_four b b1 b2 b3 q h0 h0' h1 h1' h2 h2' h3 h3'
    · rw [hd]; rfl
    · rw [hd]; simp only
      by_cases e0 : b = 0xF0
      · have := hlo e0
        rw [EncodeRune_four _ (by omega) (by omega)]
        congr 1
        · omega
        · congr 1
          · omega
          · congr 1
            · omega
            · congr 1; omega
      · by_cases ed : b = 0xF4
        · have := hhi ed
          rw [EncodeRune_four _ (by omega) (by omega)]
          congr 1
          · omega
          · congr 1
            · omega
            · congr 1
              · omega
              · congr 1; omega
        · rw [EncodeRune_four _ (by omega) (by omega)]
          congr 1
          · omega
          · congr 1
            · omega
            · congr 1
              · omega
              · congr 1; omega
    · rw [hd]; simp only
      by_cases e0 : b = 0xF0
      · have := hlo e0; omega
      · omega

theorem DecodeRune_size_pos (b : Nat) (t : Bytes) : 1 ≤ (utf8.DecodeRune (b :: t)).2 := by
  by_cases hv : (utf8.DecodeRune (b :: t)).1 = utf8.RuneError
      ∧ (utf8.DecodeRune (b :: t)).2 = 1
  · omega
  · by_cases hb : b < 0x80
    · rw [DecodeRune_ascii b t hb]
    · obtain ⟨w, rest, _, h2, _, _, _, hsz, _, _⟩ := validRune_spec b t (by omega) hv
      omega

/-! ## JSON string literals: quoting and unquoting -/

theorem unquoteStep_length (c : Nat) (t w rest : Bytes)
    (h : json.unquoteStep c t = some (w, rest)) : rest.length ≤ t.length := by
  unfold json.unquoteStep at h
  by_cases hc : c = 0x5C
  · rw [if_pos hc] at h
    cases t with
    | nil => simp at h
    | cons e t1 =>
      simp only at h
      by_cases h1 : e = 0x22 ∨ e = 0x5C ∨ e = 0x2F ∨ e = 0x27
      · rw [if_pos h1] at h; cases h; simp
      rw [if_neg h1] at h
      by_cases h2 : e = 0x62
      · rw [if_pos h2] at h; cases h; simp
      rw [if_neg h2] at h
      by_cases h3 : e = 0x66
      · rw [if_pos h3] at h; cases h; simp
      rw [if_neg h3] at h
      by_cases h4 : e = 0x6E
      · rw [if_pos h4] at h; cases h; simp
      rw [if_neg h4] at h
      by_cases h5 : e = 0x72
      · rw [if_pos h5] at h; cases h; simp
      rw [if_neg h5] at h
      by_cases h6 : e = 0x74
      · rw [if_pos h6] at h; cases h; simp
      rw [if_neg h6] at h
      by_cases h7 : e = 0x75
      · rw [if_pos h7] at h
        cases hg : json.getu4 (c :: e :: t1) with
        | none => rw [hg] at h; cases h
        | some rr =>
          rw [hg] at h
          simp only at h
          by_cases hs : utf16.IsSurrogate rr = true
          · rw [if_pos hs] at h
            by_cases hd : utf16.DecodeRune rr (json.getu4 (List.drop 6 (c :: e :: t1)))
                ≠ utf16.replacementChar
            · rw [if_pos hd] at h; cases h
              simp only [List.length_drop, List.length_cons]; omega
            · rw [if_neg hd] at h; cases h
              simp only [List.length_drop, List.length_cons]; omega
          · rw [if_neg hs] at h; cases h
            simp only [List.length_drop, List.length_cons]; omega
      · rw [if_neg h7] at h; cases h
  · rw [if_neg hc] at h
    by_cases h1 : c = 0x22 ∨ c < 0x20
    · rw [if_pos h1] at h; cases h
    rw [if_neg h1] at h
    by_cases h2 : c < utf8.RuneSelf
    · rw [if_pos h2] at h; cases h; exact le_refl _
    · rw [if_neg h2] at h; cases h
      have := DecodeRune_size_pos c t
      simp only [List.length_drop, List.length_cons]
      omega

theorem unquoteLoop_fuel (f : Nat) :
    ∀ s : Bytes, s.length ≤ f → json.unquoteLoop (f + 1) s = json.unquoteLoop f s := by
  induction f with
  | zero =>
    intro s hs
    have : s = [] := List.length_eq_zero.mp (Nat.le_zero.mp hs)
    subst this; rfl
  | succ f ih =>
    intro s hs
    cases s with
    | nil => rfl
    | cons c t =>
      rw [json.unquoteLoop, json.unquoteLoop]
      cases hstep : json.unquoteStep c t with
      | none => rfl
      | some p =>
        obtain ⟨w, rest⟩ := p
        have hl := unquoteStep_length c t w rest hstep
        simp only
        rw [ih rest (by simp only [List.length_cons] at hs; omega)]

theorem unquoteLoop_fuel_le (f g : Nat) (s : Bytes) (hf : s.length ≤ f) (hg : f ≤ g) :
    json.unquoteLoop g s = json.unquoteLoop f s := by
  induction g with
  | zero =>
    have : f = 0 := by omega
    subst this; rfl
  | succ g ih =>
    by_cases h : f = g + 1
    · subst h; rfl
    · rw [unquoteLoop_fuel g s (by omega)]
      exact ih (by omega)

theorem hexDigit_hex : ∀ n, n < 16 → json.hexDigit (json.hex.getD n 0) = some n := by
  decide

theorem unquoteStep_plain (c : Nat) (t : Bytes) (h1 : c ≠ 0x5C) (h2 : c ≠ 0x22)
    (h3 : 0x20 ≤ c) (h4 : c < 0x80) : json.unquoteStep c t = some ([c], t) := by
  unfold json.unquoteStep
  rw [if_neg h1, if_neg (by omega), if_pos (by simp only [utf8.RuneSelf]; omega)]

theorem unquoteStep_rune (c : Nat) (t : Bytes) (h : 0x80 ≤ c) :
    json.unquoteStep c t
      = some (utf8.EncodeRune (utf8.DecodeRune (c :: t)).1,
          (c :: t).drop (utf8.DecodeRune (c :: t)).2) := by
  unfold json.unquoteStep
  rw [if_neg (by omega), if_neg (by omega), if_neg (by simp only [utf8.RuneSelf]; omega)]

theorem getu4_hex (d0 d1 d2 d3 : Nat) (X : Bytes) (h0 : d0 < 16) (h1 : d1 < 16)
    (h2 : d2 < 16) (h3 : d3 < 16) :
    json.getu4 (0x5C :: 0x75 :: json.hex.getD d0 0 :: json.hex.getD d1 0
        :: json.hex.getD d2 0 :: json.hex.getD d3 0 :: X)
      = some (((d0 * 16 + d1) * 16 + d2) * 16 + d3) := by
  simp only [json.getu4, hexDigit_hex _ h0, hexDigit_hex _ h1, hexDigit_hex _ h2,
    hexDigit_hex _ h3]

theorem unquoteStep_u (r : Nat) (X : Bytes) (hg : json.getu4 (0x5C :: 0x75 :: X) = some r)
    (hs : utf16.IsSurrogate r = false) :
    json.unquoteStep 0x5C (0x75 :: X)
      = some (utf8.EncodeRune r, (0x5C :: 0x75 :: X).drop 6) := by
  unfold json.unquoteStep
  simp only [if_true]
  rw [if_neg (by decide), if_neg (by decide), if_neg (by decide), if_neg (by decide),
    if_neg (by decide), if_neg (by decide), hg]
  simp only [hs, Bool.false_eq_true, if_false]

theorem escapeByte_unquoteStep (b : Nat) (X : Bytes) (hb : b < 0x80)
    (hs : json.htmlSafeSet b = false) :
    ∃ t, json.escapeByte b ++ X = 0x5C :: t ∧ json.unquoteStep 0x5C t = some ([b], X) := by
  unfold json.escapeByte
  by_cases h1 : b = 0x5C ∨ b = 0x22
  · rw [if_pos h1]
    refine ⟨b :: X, rfl, ?_⟩
    unfold json.unquoteStep
    simp only [if_true]
    rw [if_pos (by omega)]
  rw [if_neg h1]
  by_cases h2 : b = 0x08
  · rw [if_pos h2]; subst h2; exact ⟨0x62 :: X, rfl, by simp [json.unquoteStep]⟩
  rw [if_neg h2]
  by_cases h3 : b = 0x0C
  · rw [if_pos h3]; subst h3; exact ⟨0x66 :: X, rfl, by simp [json.unquoteStep]⟩
  rw [if_neg h3]
  by_cases h4 : b = 0x0A
  · rw [if_pos h4]; subst h4; exact ⟨0x6E :: X, rfl, by simp [json.unquoteStep]⟩
  rw [if_neg h4]
  by_cases h5 : b = 0x0D
  · rw [if_pos h5]; subst h5; exact ⟨0x72 :: X, rfl, by simp [json.unquoteStep]⟩
  rw [if_neg h5]
  by_cases h6 : b = 0x09
  · rw [if_pos h6]; subst h6; exact ⟨0x74 :: X, rfl, by simp [json.unquoteStep]⟩
  rw [if_neg h6]
  refine ⟨0x75 :: 0x30 :: 0x30 :: json.hex.getD (b >>> 4) 0 :: json.hex.getD (b &&& 0xF) 0 :: X,
    rfl, ?_⟩
  have e1 : b >>> 4 = b / 16 := Nat.shiftRight_eq_div_pow b 4
  have e2 : b &&& 0xF = b % 16 := land_0F b
  have hg := getu4_hex 0 0 (b / 16) (b % 16) X (by decide) (by decide) (by omega) (by omega)
  have hz : json.hex.getD 0 0 = 0x30 := by decide
  rw [hz] at hg
  rw [e1, e2, unquoteStep_u _ _ hg (by simp [utf16.IsSurrogate, utf16.surr1, utf16.surr3]; omega)]
  have hv : ((0 * 16 + 0) * 16 + b / 16) * 16 + b % 16 = b := by omega
  rw [hv, EncodeRune_ascii b hb]
  rfl

theorem unquoteLoop_step (f c : Nat) (t w rest : Bytes)
    (h : json.unquoteStep c t = some (w, rest)) :
    json.unquoteLoop (f + 1) (c :: t) = (json.unquoteLoop f rest).map (fun b => w ++ b) := by
  rw [json.unquoteLoop, h]

theorem htmlSafeSet_true (b : Nat) (h : json.htmlSafeSet b = true) :
    0x20 ≤ b ∧ b < 0x80 ∧ b ≠ 0x22 ∧ b ≠ 0x5C := by
  simp only [json.htmlSafeSet, Bool.and_eq_true, decide_eq_true_eq, bne_iff_ne, ne_eq] at h
  omega

/-- One iteration of the quoting loop at a well-formed rune, followed by one iteration
of the unquoting loop on what was written, gives back the bytes of the rune. -/
theorem unquoteLoop_appendStringStep (f b : Nat) (t X : Bytes)
    (hv : ¬ ((utf8.DecodeRune (b :: t)).1 = utf8.RuneError
      ∧ (utf8.DecodeRune (b :: t)).2 = 1)) :
    (json.appendStringStep b t).2 = (b :: t).drop (utf8.DecodeRune (b :: t)).2
      ∧ 1 ≤ ((json.appendStringStep b t).1).length
      ∧ json.unquoteLoop (f + 1) ((json.appendStringStep b t).1 ++ X)
          = (json.unquoteLoop f X).map
              (fun r => (b :: t).take (utf8.DecodeRune (b :: t)).2 ++ r) := by
  by_cases hb : b < 0x80
  · have hd := DecodeRune_ascii b t hb
    have hR : b < utf8.RuneSelf := by simp only [utf8.RuneSelf]; omega
    unfold json.appendStringStep
    rw [if_pos hR, hd]
    by_cases hs : json.htmlSafeSet b = true
    · rw [if_pos hs]
      obtain ⟨s1, s2, s3, s4⟩ := htmlSafeSet_true b hs
      refine ⟨rfl, by simp, ?_⟩
      exact unquoteLoop_step f b X [b] X (unquoteStep_plain b X s4 s3 s1 s2)
    · rw [if_neg hs]
      have hs2 : json.htmlSafeSet b = false := by
        cases h : json.htmlSafeSet b
        · rfl
        · exact absurd h hs
      obtain ⟨t1, e1, e2⟩ := escapeByte_unquoteStep b X hb hs2
      refine ⟨rfl, ?_, ?_⟩
      · obtain ⟨t0, e3, _⟩ := escapeByte_unquoteStep b [] hb hs2
        rw [List.append_nil] at e3
        rw [e3]; simp
      · rw [e1]
        exact unquoteLoop_step f 0x5C t1 [b] X e2
  · obtain ⟨w, rest, hw, hl2, hl4, hge, hdq, hsz, henc, hr⟩ :=
      validRune_spec b t (by omega) hv
    have hR : ¬ b < utf8.RuneSelf := by simp only [utf8.RuneSelf]; omega
    have htake : (b :: t).take (utf8.DecodeRune (b :: t)).2 = w := by
      rw [hsz, hw]; simp
    have hdrop : (b :: t).drop (utf8.DecodeRune (b :: t)).2 = rest := by
      rw [hsz, hw]; simp
    have h4 : utf8.DecodeRune ((b :: t).take utf8.UTFMax) = utf8.DecodeRune (b :: t) := by
      rw [hw, List.take_append_eq_append_take, List.take_of_length_le (by
        simp only [utf8.UTFMax]; exact hl4)]
      rw [← hw]
      exact hdq _
    unfold json.appendStringStep
    rw [if_neg hR]
    simp only [h4]
    rw [if_neg hv, htake, hdrop]
    by_cases hu : (utf8.DecodeRune (b :: t)).1 = 0x2028 ∨ (utf8.DecodeRune (b :: t)).1 = 0x2029
    · rw [if_pos hu]
      refine ⟨rfl, by simp, ?_⟩
      have e2 : (utf8.DecodeRune (b :: t)).1 &&& 0xF = (utf8.DecodeRune (b :: t)).1 % 16 :=
        land_0F _
      have hg := getu4_hex 2 0 2 ((utf8.DecodeRune (b :: t)).1 % 16) X (by decide)
        (by decide) (by decide) (by omega)
      have hz : json.hex.getD 0 0 = 0x30 := by decide
      have hz2 : json.hex.getD 2 0 = 0x32 := by decide
      rw [hz, hz2] at hg
      have hval : ((2 * 16 + 0) * 16 + 2) * 16 + (utf8.DecodeRune (b :: t)).1 % 16
          = (utf8.DecodeRune (b :: t)).1 := by
        rcases hu with h | h <;> rw [h]
      rw [hval] at hg
      have hsur : utf16.IsSurrogate (utf8.DecodeRune (b :: t)).1 = false := by
        rcases hu with h | h <;> rw [h] <;> decide
      have hstep := unquoteStep_u _ _ hg hsur
      rw [henc] at hstep
      rw [e2]
      exact unquoteLoop_step f 0x5C _ w X hstep
    · rw [if_neg hu]
      refine ⟨rfl, by simp only; omega, ?_⟩
      cases w with
      | nil => simp at hl2
      | cons c w1 =>
        have hc : 0x80 ≤ c := hge c (List.mem_cons_self c w1)
        have hstep := unquoteStep_rune c (w1 ++ X) hc
        have hdX := hdq X
        rw [List.cons_append] at hdX
        rw [hdX, henc, hsz] at hstep
        have hdr : List.drop (c :: w1).length (c :: (w1 ++ X)) = X := by
          rw [← List.cons_append]; simp
        rw [hdr] at hstep
        rw [List.cons_append]
        exact unquoteLoop_step f c (w1 ++ X) (c :: w1) X hstep

theorem validLoop_cons (n b : Nat) (t : Bytes) (h : utf8.validLoop (n + 1) (b :: t) = true) :
    ¬ ((utf8.DecodeRune (b :: t)).1 = utf8.RuneError ∧ (utf8.DecodeRune (b :: t)).2 = 1)
      ∧ utf8.validLoop n ((b :: t).drop (utf8.DecodeRune (b :: t)).2) = true := by
  rw [utf8.validLoop] at h
  by_cases hv : (utf8.DecodeRune (b :: t)).1 = utf8.RuneError
      ∧ (utf8.DecodeRune (b :: t)).2 = 1
  · rw [if_pos hv] at h; cases h
  · rw [if_neg hv] at h; exact ⟨hv, h⟩

theorem unquoteLoop_nil (f : Nat) : json.unquoteLoop f [] = some [] := by
  cases f <;> rfl

/-- Unquoting the quoted form of a well-formed UTF-8 string gives the string back. -/
theorem unquoteLoop_appendStringLoop (n : Nat) :
    ∀ (body : Bytes) (f : Nat), utf8.validLoop n body = true → body.length ≤ n →
      (json.appendStringLoop n body).length ≤ f →
      json.unquoteLoop f (json.appendStringLoop n body) = some body := by
  induction n with
  | zero =>
    intro body f _ hl _
    have : body = [] := List.length_eq_zero.mp (Nat.le_zero.mp hl)
    subst this
    exact unquoteLoop_nil f
  | succ n ih =>
    intro body f hv hl hf
    cases body with
    | nil => exact unquoteLoop_nil f
    | cons b t =>
      obtain ⟨hv1, hv2⟩ := validLoop_cons n b t hv
      rw [json.appendStringLoop] at hf ⊢
      have hk := DecodeRune_size_pos b t
      cases f with
      | zero =>
        obtain ⟨_, h1, _⟩ := unquoteLoop_appendStringStep 0 b t [] hv1
        simp only [List.length_append] at hf
        omega
      | succ f =>
        obtain ⟨h0, h1, h2⟩ :=
          unquoteLoop_appendStringStep f b t
            (json.appendStringLoop n (json.appendStringStep b t).2) hv1
        rw [h2, h0]
        have hlen : ((b :: t).drop (utf8.DecodeRune (b :: t)).2).length ≤ n := by
          simp only [List.length_drop, List.length_cons] at hl ⊢
          omega
        rw [ih _ f hv2 hlen (by
          rw [← h0]
          simp only [List.length_append] at hf
          omega)]
        simp only [Option.map_some', List.take_append_drop]

theorem unquoteScan_spec (n : Nat) :
    ∀ (s : Bytes) (f : Nat), s.length ≤ n → s.length ≤ f →
      json.unquoteScan n s ≤ s.length
        ∧ json.unquoteLoop f s
          = (json.unquoteLoop f (s.drop (json.unquoteScan n s))).map
              (fun r => s.take (json.unquoteScan n s) ++ r) := by
  have triv : ∀ (s : Bytes) (f : Nat),
      json.unquoteLoop f s = (json.unquoteLoop f (s.drop 0)).map (fun r => s.take 0 ++ r) := by
    intro s f
    simp
  induction n with
  | zero =>
    intro s f _ _
    exact ⟨Nat.zero_le _, triv s f⟩
  | succ n ih =>
    intro s f hn hf
    cases s with
    | nil => exact ⟨Nat.zero_le _, triv [] f⟩
    | cons c t =>
      have htn : t.length ≤ n := by simpa using hn
      cases f with
      | zero => simp at hf
      | succ f =>
        have htf : t.length ≤ f := by simpa using hf
        rw [json.unquoteScan]
        by_cases h1 : c = 0x5C ∨ c = 0x22 ∨ c < 0x20
        · rw [if_pos h1]; exact ⟨Nat.zero_le _, triv _ _⟩
        rw [if_neg h1]
        by_cases h2 : c < utf8.RuneSelf
        · rw [if_pos h2]
          obtain ⟨i1, i2⟩ := ih t f htn htf
          refine ⟨by simp only [List.length_cons]; omega, ?_⟩
          have hstep := unquoteStep_plain c t (by omega) (by omega) (by omega)
            (by simpa [utf8.RuneSelf] using h2)
          rw [unquoteLoop_step f c t [c] t hstep, i2, Nat.add_comm 1,
            List.drop_succ_cons, List.take_succ_cons,
            unquoteLoop_fuel f _ (by simp only [List.length_drop]; omega)]
          cases json.unquoteLoop f (List.drop (json.unquoteScan n t) t) <;> simp
        · rw [if_neg h2]
          simp only
          by_cases hv : (utf8.DecodeRune (c :: t)).1 = utf8.RuneError
              ∧ (utf8.DecodeRune (c :: t)).2 = 1
          · rw [if_pos hv]; exact ⟨Nat.zero_le _, triv _ _⟩
          rw [if_neg hv]
          have hc : 0x80 ≤ c := by simp only [utf8.RuneSelf] at h2; omega
          obtain ⟨w, rest, hw, hl2, hl4, hge, hdq, hsz, henc, hr⟩ := validRune_spec c t hc hv
          have hstep := unquoteStep_rune c t hc
          have hdrop : (c :: t).drop (utf8.DecodeRune (c :: t)).2 = rest := by
            rw [hsz, hw]; simp
          have hrl : rest.length + w.length = t.length + 1 := by
            have := congrArg List.length hw
            simp only [List.length_cons, List.length_append] at this
            omega
          rw [henc, hdrop] at hstep
          rw [hdrop]
          obtain ⟨i1, i2⟩ := ih rest f (by omega) (by omega)
          refine ⟨by simp only [List.length_cons]; omega, ?_⟩
          rw [unquoteLoop_step f c t w rest hstep, i2, hsz, hw, List.drop_append_eq_append_drop,
            List.take_append_eq_append_take]
          have e1 : List.drop (w.length + json.unquoteScan n rest) w = [] :=
            List.drop_of_length_le (by omega)
          have e2 : List.take (w.length + json.unquoteScan n rest) w = w :=
            List.take_of_length_le (by omega)
          have e3 : w.length + json.unquoteScan n rest - w.length = json.unquoteScan n rest := by
            omega
          rw [e1, e2, e3, List.nil_append,
            unquoteLoop_fuel f _ (by simp only [List.length_drop]; omega)]
          cases json.unquoteLoop f (List.drop (json.unquoteScan n rest) rest) <;> simp

/-- The function `unquoteBytes` on a quoted literal is its second loop run on the
whole content: the first loop only skips a prefix that the second would copy. -/
theorem unquoteBytes_eq_loop (s : Bytes) :
    json.unquoteBytes ([0x22] ++ s ++ [0x22]) = json.unquoteLoop s.length s := by
  unfold json.unquoteBytes
  have h1 : ¬ (([0x22] ++ s ++ [0x22] : Bytes).length < 2
      ∨ ([0x22] ++ s ++ [0x22] : Bytes).head? ≠ some 0x22
      ∨ ([0x22] ++ s ++ [0x22] : Bytes).getLast? ≠ some 0x22) := by
    have hlast : ([0x22] ++ s ++ [0x22] : Bytes).getLast? = some 0x22 :=
      List.getLast?_concat _
    rw [hlast]
    simp
  rw [if_neg h1]
  have h2 : (([0x22] ++ s ++ [0x22] : Bytes).drop 1).dropLast = s := by
    simp
  simp only [h2]
  obtain ⟨i1, i2⟩ := unquoteScan_spec s.length s s.length (le_refl _) (le_refl _)
  by_cases hr : json.unquoteScan s.length s = s.length
  · rw [if_pos hr, i2, hr]
    simp [unquoteLoop_nil]
  · rw [if_neg hr, i2]

/-- Quoting a well-formed UTF-8 string and unquoting the literal gives the string
back. -/
theorem unquoteBytes_appendString (body : Bytes) (hv : utf8.Valid body = true) :
    json.unquoteBytes (json.appendString body) = some body := by
  unfold json.appendString
  rw [unquoteBytes_eq_loop]
  exact unquoteLoop_appendStringLoop body.length body _ hv (le_refl _) (le_refl _)

theorem scanString_plain (c : Nat) (Z : Bytes) (h1 : c ≠ 0x22) (h2 : c ≠ 0x5C)
    (h3 : 0x20 ≤ c) :
    json.scanString (c :: Z) = (json.scanString Z).map (fun p => (c :: p.1, p.2)) := by
  rw [json.scanString.eq_def]
  simp only
  rw [if_neg h1, if_neg h2, if_neg (by omega)]

theorem scanString_high (w : Bytes) (hw : ∀ c ∈ w, 0x80 ≤ c) (Z : Bytes) :
    json.scanString (w ++ Z) = (json.scanString Z).map (fun p => (w ++ p.1, p.2)) := by
  induction w with
  | nil => simp
  | cons c w ih =>
    have hc := hw c (List.mem_cons_self c w)
    rw [List.cons_append, scanString_plain c _ (by omega) (by omega) (by omega),
      ih (fun x hx => hw x (List.mem_cons_of_mem c hx))]
    cases json.scanString Z <;> simp

theorem scanString_escape (e : Nat) (Z : Bytes)
    (he : e = 0x62 ∨ e = 0x66 ∨ e = 0x6E ∨ e = 0x72 ∨ e = 0x74 ∨ e = 0x5C ∨ e = 0x2F
      ∨ e = 0x22) :
    json.scanString (0x5C :: e :: Z)
      = (json.scanString Z).map (fun p => ([0x5C, e] ++ p.1, p.2)) := by
  rw [json.scanString.eq_def]
  simp only
  rw [if_neg (by decide)]
  simp only [if_true]
  rw [if_pos he]
  rfl

theorem scanString_u (h0 h1 h2 h3 : Nat) (Z : Bytes) (i0 : (json.hexDigit h0).isSome = true)
    (i1 : (json.hexDigit h1).isSome = true) (i2 : (json.hexDigit h2).isSome = true)
    (i3 : (json.hexDigit h3).isSome = true) :
    json.scanString (0x5C :: 0x75 :: h0 :: h1 :: h2 :: h3 :: Z)
      = (json.scanString Z).map (fun p => ([0x5C, 0x75, h0, h1, h2, h3] ++ p.1, p.2)) := by
  rw [json.scanString.eq_def]
  simp only
  rw [if_neg (by decide)]
  simp only [if_true]
  rw [if_neg (by decide), if_pos ⟨i0, i1, i2, i3⟩]
  rfl

theorem hexDigit_hex_isSome (n : Nat) (h : n < 16) :
    (json.hexDigit (json.hex.getD n 0)).isSome = true := by
  rw [hexDigit_hex n h]; rfl

theorem scanString_escapeByte (b : Nat) (Z : Bytes) (hb : b < 0x80) :
    json.scanString (json.escapeByte b ++ Z)
      = (json.scanString Z).map (fun p => (json.escapeByte b ++ p.1, p.2)) := by
  unfold json.escapeByte
  by_cases h1 : b = 0x5C ∨ b = 0x22
  · rw [if_pos h1]
    exact scanString_escape b Z (by omega)
  rw [if_neg h1]
  by_cases h2 : b = 0x08
  · rw [if_pos h2]; exact scanString_escape 0x62 Z (by decide)
  rw [if_neg h2]
  by_cases h3 : b = 0x0C
  · rw [if_pos h3]; exact scanString_escape 0x66 Z (by decide)
  rw [if_neg h3]
  by_cases h4 : b = 0x0A
  · rw [if_pos h4]; exact scanString_escape 0x6E Z (by decide)
  rw [if_neg h4]
  by_cases h5 : b = 0x0D
  · rw [if_pos h5]; exact scanString_escape 0x72 Z (by decide)
  rw [if_neg h5]
  by_cases h6 : b = 0x09
  · rw [if_pos h6]; exact scanString_escape 0x74 Z (by decide)
  rw [if_neg h6]
  have e1 : b >>> 4 = b / 16 := Nat.shiftRight_eq_div_pow b 4
  have e2 : b &&& 0xF = b % 16 := land_0F b
  rw [e1, e2]
  exact scanString_u 0x30 0x30 _ _ Z (by decide) (by decide)
    (hexDigit_hex_isSome _ (by omega)) (hexDigit_hex_isSome _ (by omega))

theorem scanString_appendStringStep (b : Nat) (t Z : Bytes)
    (hv : ¬ ((utf8.DecodeRune (b :: t)).1 = utf8.RuneError
      ∧ (utf8.DecodeRune (b :: t)).2 = 1)) :
    json.scanString ((json.appendStringStep b t).1 ++ Z)
      = (json.scanString Z).map (fun p => ((json.appendStringStep b t).1 ++ p.1, p.2)) := by
  by_cases hb : b < 0x80
  · have hR : b < utf8.RuneSelf := by simp only [utf8.RuneSelf]; omega
    unfold json.appendStringStep
    rw [if_pos hR]
    by_cases hs : json.htmlSafeSet b = true
    · rw [if_pos hs]
      obtain ⟨s1, s2, s3, s4⟩ := htmlSafeSet_true b hs
      exact scanString_plain b Z s3 s4 s1
    · rw [if_neg hs]
      exact scanString_escapeByte b Z hb
  · obtain ⟨w, rest, hw, hl2, hl4, hge, hdq, hsz, henc, hr⟩ :=
      validRune_spec b t (by omega) hv
    have hR : ¬ b < utf8.RuneSelf := by simp only [utf8.RuneSelf]; omega
    have htake : (b :: t).take (utf8.DecodeRune (b :: t)).2 = w := by
      rw [hsz, hw]; simp
    have h4 : utf8.DecodeRune ((b :: t).take utf8.UTFMax) = utf8.DecodeRune (b :: t) := by
      rw [hw, List.take_append_eq_append_take, List.take_of_length_le (by
        simp only [utf8.UTFMax]; exact hl4)]
      rw [← hw]
      exact hdq _
    unfold json.appendStringStep
    rw [if_neg hR]
    simp only [h4]
    rw [if_neg hv, htake]
    by_cases hu : (utf8.DecodeRune (b :: t)).1 = 0x2028 ∨ (utf8.DecodeRune (b :: t)).1 = 0x2029
    · rw [if_pos hu]
      have e2 : (utf8.DecodeRune (b :: t)).1 &&& 0xF = (utf8.DecodeRune (b :: t)).1 % 16 :=
        land_0F _
      rw [e2]
      exact scanString_u 0x32 0x30 0x32 _ Z (by decide) (by decide) (by decide)
        (hexDigit_hex_isSome _ (by omega))
    · rw [if_neg hu]
      exact scanString_high w hge Z

/-- The scanner reads the quoted form of a well-formed UTF-8 string up to the closing
quote that follows it. -/
theorem scanString_appendStringLoop (n : Nat) :
    ∀ (body Z : Bytes), utf8.validLoop n body = true → body.length ≤ n →
      json.scanString (json.appendStringLoop n body ++ 0x22 :: Z)
        = some (json.appendStringLoop n body, Z) := by
  induction n with
  | zero =>
    intro body Z _ hl
    have : body = [] := List.length_eq_zero.mp (Nat.le_zero.mp hl)
    subst this
    rw [json.appendStringLoop, List.nil_append, json.scanString.eq_def]
    simp
  | succ n ih =>
    intro body Z hv hl
    cases body with
    | nil =>
      rw [json.appendStringLoop, List.nil_append, json.scanString.eq_def]
      simp
    | cons b t =>
      obtain ⟨hv1, hv2⟩ := validLoop_cons n b t hv
      obtain ⟨h0, _, _⟩ := unquoteLoop_appendStringStep 0 b t [] hv1
      have hk := DecodeRune_size_pos b t
      have hlen : ((b :: t).drop (utf8.DecodeRune (b :: t)).2).length ≤ n := by
        simp only [List.length_drop, List.length_cons] at hl ⊢
        omega
      rw [json.appendStringLoop, List.append_assoc, scanString_appendStringStep b t _ hv1,
        h0, ih _ Z hv2 hlen]
      rfl

theorem parseValue_appendString (body Z : Bytes) (hv : utf8.Valid body = true) :
    json.parseValue (json.appendString body ++ Z) = some (json.Value.string body, Z) := by
  have h := unquoteBytes_appendString body hv
  unfold json.appendString at h ⊢
  have hs := scanString_appendStringLoop body.length body Z hv (le_refl _)
  rw [List.append_assoc, List.append_assoc, List.singleton_append, json.parseValue]
  rw [if_pos rfl]
  simp only [List.singleton_append] at hs ⊢
  rw [hs]
  simp only
  rw [List.singleton_append] at h
  rw [h]
  rfl

/-! ## The outbound envelope: encoding and decoding -/

theorem skipSpace_cons (c : Nat) (t : Bytes) (h : json.isSpace c = false) :
    json.skipSpace (c :: t) = c :: t := by
  simp [json.skipSpace, List.dropWhile, h]

theorem appendString_cons (s : Bytes) :
    json.appendString s = 0x22 :: (json.appendStringLoop s.length s ++ [0x22]) := rfl

theorem parseMembers_string (f : Nat) (k v R : Bytes) (hk : utf8.Valid k = true)
    (hv : utf8.Valid v = true) :
    json.parseMembers (f + 1) (json.appendString k ++ 0x3A :: (json.appendString v ++ 0x2C :: R))
      = (json.parseMembers f (json.skipSpace R)).map
          (fun p => ((k, json.Value.string v) :: p.1, p.2)) := by
  have hs := scanString_appendStringLoop k.length k
    (0x3A :: (json.appendString v ++ 0x2C :: R)) hk (le_refl _)
  have hu := unquoteBytes_appendString k hk
  have hp := parseValue_appendString v (0x2C :: R) hv
  have hsp : json.skipSpace (json.appendString v ++ 0x2C :: R)
      = json.appendString v ++ 0x2C :: R := by
    rw [appendString_cons v, List.cons_append, skipSpace_cons 0x22 _ (by decide)]
  rw [appendString_cons] at hu
  rw [appendString_cons k, List.cons_append, List.append_assoc, List.singleton_append,
    json.parseMembers]
  simp only [hs, List.singleton_append, List.cons_append, List.nil_append, hu]
  rw [skipSpace_cons 0x3A _ (by decide)]
  simp only [hsp, hp]
  rw [skipSpace_cons 0x2C _ (by decide)]

theorem parseMembers_last_zero (f : Nat) (k : Bytes) (hk : utf8.Valid k = true) :
    json.parseMembers (f + 1) (json.appendString k ++ 0x3A :: (json.appendInt 0 ++ [0x7D]))
      = some ([(k, json.Value.number 0)], []) := by
  have hs := scanString_appendStringLoop k.length k
    (0x3A :: (json.appendInt 0 ++ [0x7D])) hk (le_refl _)
  have hu := unquoteBytes_appendString k hk
  have hp : json.parseValue (json.skipSpace (json.appendInt 0 ++ [0x7D]))
      = some (json.Value.number 0, [0x7D]) := by decide
  rw [appendString_cons] at hu
  rw [appendString_cons k, List.cons_append, List.append_assoc, List.singleton_append,
    json.parseMembers]
  simp only [hs, List.singleton_append, List.cons_append, List.nil_append, hu]
  rw [skipSpace_cons 0x3A _ (by decide)]
  simp only [hp]
  rw [skipSpace_cons 0x7D _ (by decide)]

theorem parseObject_members (t : Bytes) (ms : List (Bytes × json.Value))
    (hm : json.parseMembers (0x22 :: t).length (0x22 :: t) = some (ms, []))
    (hk : ms.all (fun m => m.1.all (fun b => decide (b < utf8.RuneSelf))) = true) :
    json.parseObject (0x7B :: 0x22 :: t) = some ms := by
  unfold json.parseObject
  rw [skipSpace_cons 0x7B _ (by decide)]
  simp only
  rw [skipSpace_cons 0x22 _ (by decide)]
  simp only [hm]
  rw [if_pos ⟨by decide, hk⟩]

theorem Marshal_envelope (body : Bytes) :
    Marshal (envelope body)
      = 0x7B :: (json.appendString (str "id") ++ 0x3A :: (json.appendString (str "A")
        ++ 0x2C :: (json.appendString (str "body") ++ 0x3A :: (json.appendString body
        ++ 0x2C :: (json.appendString (str "senderID") ++ 0x3A :: (json.appendString (str "A")
        ++ 0x2C :: (json.appendString (str "sendTime") ++ 0x3A
          :: (json.appendString (str "1294706395881547000")
        ++ 0x2C :: (json.appendString (str "readStatus") ++ 0x3A
          :: (json.appendInt 0 ++ [0x7D])))))))))) := by
  have e1 : str "\x7b" = [0x7B] := by decide
  have e2 : str ":" = [0x3A] := by decide
  have e3 : str "," = [0x2C] := by decide
  have e4 : str "\x7d" = [0x7D] := by decide
  simp only [Marshal, envelope, e1, e2, e3, e4, List.append_assoc, List.singleton_append,
    List.cons_append, List.nil_append]

/-- Decoding the encoded envelope of a well-formed UTF-8 body gives the envelope
back. -/
theorem unmarshalOutMessage_Marshal (body : Bytes) (hv : utf8.Valid body = true) :
    unmarshalOutMessage (Marshal (envelope body)) = some (envelope body) := by
  have k1 : utf8.Valid (str "id") = true := by decide
  have k2 : utf8.Valid (str "body") = true := by decide
  have k3 : utf8.Valid (str "senderID") = true := by decide
  have k4 : utf8.Valid (str "sendTime") = true := by decide
  have k5 : utf8.Valid (str "readStatus") = true := by decide
  have v1 : utf8.Valid (str "A") = true := by decide
  have v4 : utf8.Valid (str "1294706395881547000") = true := by decide
  have hm : ∀ t : Bytes, 0x22 :: t = json.appendString (str "id") ++ 0x3A
        :: (json.appendString (str "A")
        ++ 0x2C :: (json.appendString (str "body") ++ 0x3A :: (json.appendString body
        ++ 0x2C :: (json.appendString (str "senderID") ++ 0x3A :: (json.appendString (str "A")
        ++ 0x2C :: (json.appendString (str "sendTime") ++ 0x3A
          :: (json.appendString (str "1294706395881547000")
        ++ 0x2C :: (json.appendString (str "readStatus") ++ 0x3A
          :: (json.appendInt 0 ++ [0x7D]))))))))) →
      json.parseMembers (0x22 :: t).length (0x22 :: t)
        = some ([(str "id", json.Value.string (str "A")),
            (str "body", json.Value.string body),
            (str "senderID", json.Value.string (str "A")),
            (str "sendTime", json.Value.string (str "1294706395881547000")),
            (str "readStatus", json.Value.number 0)], []) := by
    intro t ht
    obtain ⟨f, hf⟩ : ∃ f, (0x22 :: t).length = f + 5 := by
      refine ⟨(0x22 :: t).length - 5, ?_⟩
      rw [ht]
      simp only [List.length_append, List.length_cons, appendString_cons]
      omega
    rw [hf, ht, parseMembers_string _ _ _ _ k1 v1,
      appendString_cons (str "body"), List.cons_append, skipSpace_cons 0x22 _ (by decide),
      ← List.cons_append, ← appendString_cons (str "body"),
      parseMembers_string _ _ _ _ k2 hv,
      appendString_cons (str "senderID"), List.cons_append, skipSpace_cons 0x22 _ (by decide),
      ← List.cons_append, ← appendString_cons (str "senderID"),
      parseMembers_string _ _ _ _ k3 v1,
      appendString_cons (str "sendTime"), List.cons_append, skipSpace_cons 0x22 _ (by decide),
      ← List.cons_append, ← appendString_cons (str "sendTime"),
      parseMembers_string _ _ _ _ k4 v4,
      appendString_cons (str "readStatus"), List.cons_append, skipSpace_cons 0x22 _ (by decide),
      ← List.cons_append, ← appendString_cons (str "readStatus"),
      parseMembers_last_zero _ _ k5]
    rfl
  have a1 : (str "id").all (fun b => decide (b < utf8.RuneSelf)) = true := by decide
  have a2 : (str "body").all (fun b => decide (b < utf8.RuneSelf)) = true := by decide
  have a3 : (str "senderID").all (fun b => decide (b < utf8.RuneSelf)) = true := by decide
  have a4 : (str "sendTime").all (fun b => decide (b < utf8.RuneSelf)) = true := by decide
  have a5 : (str "readStatus").all (fun b => decide (b < utf8.RuneSelf)) = true := by decide
  have i1 : json.fieldIndex
      [str "id", str "body", str "senderID", str "sendTime", str "readStatus"] (str "id")
      = some 0 := by decide
  have i2 : json.fieldIndex
      [str "id", str "body", str "senderID", str "sendTime", str "readStatus"] (str "body")
      = some 1 := by decide
  have i3 : json.fieldIndex
      [str "id", str "body", str "senderID", str "sendTime", str "readStatus"] (str "senderID")
      = some 2 := by decide
  have i4 : json.fieldIndex
      [str "id", str "body", str "senderID", str "sendTime", str "readStatus"] (str "sendTime")
      = some 3 := by decide
  have i5 : json.fieldIndex
      [str "id", str "body", str "senderID", str "sendTime", str "readStatus"]
      (str "readStatus") = some 4 := by decide
  have hobj := parseObject_members _ _ (hm _ (by
    rw [appendString_cons (str "id"), List.cons_append])) (by
    simp only [List.all_cons, List.all_nil, a1, a2, a3, a4, a5, Bool.and_self])
  rw [Marshal_envelope, unmarshalOutMessage]
  rw [appendString_cons (str "id"), List.cons_append, hobj]
  simp only [assignAll, outMessage.assign, i1, i2, i3, i4, i5, envelope]

/-! ## The writer loop -/

/-- The bytes of one transport write: the envelope of the dequeued message, then for
each queued message a newline byte and the bytes of the message as they are. -/
theorem writePumpWrite_eq (message : Bytes) (queued : List Bytes) :
    writePumpWrite message queued
      = Marshal (envelope message) ++ (queued.map (fun m => newline ++ m)).flatten := by
  unfold writePumpWrite
  congr 1
  induction queued with
  | nil => rfl
  | cons m rest ih => simp [writeQueued, ih]

/-- With nothing queued, the transport write is the envelope of the dequeued message
alone. -/
theorem writePumpWrite_single (message : Bytes) :
    writePumpWrite message [] = Marshal (envelope message) := by
  simp [writePumpWrite, writeQueued]

/-- C5 (the failing input): message `"a"` is dequeued while `"b"` is queued. The
transport write is the envelope of `"a"`, a newline, and the bare bytes of `"b"`: the
queued message is not wrapped in an envelope, so the write differs from the
newline-delimited envelopes of `"a"` and `"b"`. -/
theorem writePump_queued_not_enveloped :
    writePumpWrite (str "a") [str "b"]
        = str ("\x7b\"id\":\"A\",\"body\":\"a\",\"senderID\":\"A\","
            ++ "\"sendTime\":\"1294706395881547000\",\"readStatus\":0\x7d\nb")
      ∧ delimitedEnvelopes [str "a", str "b"]
        = str ("\x7b\"id\":\"A\",\"body\":\"a\",\"senderID\":\"A\","
            ++ "\"sendTime\":\"1294706395881547000\",\"readStatus\":0\x7d\n"
            ++ "\x7b\"id\":\"A\",\"body\":\"b\",\"senderID\":\"A\","
            ++ "\"sendTime\":\"1294706395881547000\",\"readStatus\":0\x7d")
      ∧ writePumpWrite (str "a") [str "b"] ≠ delimitedEnvelopes [str "a", str "b"] := by
  refine ⟨?_, ?_, ?_⟩ <;> decide

/-- C7 (counterexample): the body consisting of the single byte `0xFF`, which is not
well-formed UTF-8, comes back from encoding and decoding as the three bytes of
U+FFFD. -/
theorem envelope_roundtrip_invalid_byte :
    (unmarshalOutMessage (Marshal (envelope [0xFF]))).map outMessage.Body
        = some [0xEF, 0xBF, 0xBD]
      ∧ (unmarshalOutMessage (Marshal (envelope [0xFF]))).map outMessage.Body
        ≠ some [0xFF] := by
  refine ⟨?_, ?_⟩ <;> decide

/-- C7 (amended): for every body that is well-formed UTF-8, decoding the JSON encoding
of the envelope that `writePump` builds for it yields an envelope whose body field is
exactly that body (the whole envelope is recovered). -/
theorem envelope_roundtrip (body : Bytes) (hv : utf8.Valid body = true) :
    unmarshalOutMessage (Marshal (envelope body)) = some (envelope body)
      ∧ (unmarshalOutMessage (Marshal (envelope body))).map outMessage.Body = some body := by
  have h := unmarshalOutMessage_Marshal body hv
  exact ⟨h, by rw [h]; rfl⟩

theorem envelope_roundtrip_witness :
    utf8.Valid [0x68, 0xC3, 0xA9, 0x22, 0x3C, 0x0A, 0x20, 0xE2, 0x80, 0xA8, 0xF0, 0x9F, 0x98, 0x80]
        = true
      ∧ (unmarshalOutMessage (Marshal (envelope
          [0x68, 0xC3, 0xA9, 0x22, 0x3C, 0x0A, 0x20, 0xE2, 0x80, 0xA8, 0xF0, 0x9F, 0x98, 0x80]))).map
            outMessage.Body
        = some [0x68, 0xC3, 0xA9, 0x22, 0x3C, 0x0A, 0x20, 0xE2, 0x80, 0xA8, 0xF0, 0x9F, 0x98, 0x80] :=
  ⟨by decide,
    (envelope_roundtrip
      [0x68, 0xC3, 0xA9, 0x22, 0x3C, 0x0A, 0x20, 0xE2, 0x80, 0xA8, 0xF0, 0x9F, 0x98, 0x80]
      (by decide)).2⟩

/-! ## The loops never run out of fuel

Each loop below is given as much fuel as its input has bytes (or one more); one more
unit of fuel never changes its result. -/

theorem appendStringStep_length (b : Nat) (t : Bytes) :
    (json.appendStringStep b t).2.length ≤ t.length := by
  unfold json.appendStringStep
  by_cases h1 : b < utf8.RuneSelf
  · rw [if_pos h1]
    by_cases h2 : json.htmlSafeSet b = true
    · rw [if_pos h2]
    · rw [if_neg h2]
  · rw [if_neg h1]
    have hk : 1 ≤ (utf8.DecodeRune ((b :: t).take utf8.UTFMax)).2 := by
      have : (b :: t).take utf8.UTFMax = b :: t.take 3 := rfl
      rw [this]
      exact DecodeRune_size_pos b _
    simp only
    split
    · simp only [List.length_drop, List.length_cons]; omega
    · split
      · simp only [List.length_drop, List.length_cons]; omega
      · simp only [List.length_drop, List.length_cons]; omega

theorem appendStringLoop_fuel (f : Nat) :
    ∀ s : Bytes, s.length ≤ f →
      json.appendStringLoop (f + 1) s = json.appendStringLoop f s := by
  induction f with
  | zero =>
    intro s hs
    have : s = [] := List.length_eq_zero.mp (Nat.le_zero.mp hs)
    subst this; rfl
  | succ f ih =>
    intro s hs
    cases s with
    | nil => rfl
    | cons b t =>
      have hl := appendStringStep_length b t
      rw [json.appendStringLoop, json.appendStringLoop,
        ih _ (by simp only [List.length_cons] at hs; omega)]

theorem indexFunc_fuel (p : Nat → Bool) (truth : Bool) (fuel : Nat) :
    ∀ (start : Nat) (s : Bytes), s.length ≤ fuel →
      bytes.indexFunc p truth (fuel + 1) start s = bytes.indexFunc p truth fuel start s := by
  induction fuel with
  | zero =>
    intro start s hs
    have : s = [] := List.length_eq_zero.mp (Nat.le_zero.mp hs)
    subst this; rfl
  | succ fuel ih =>
    intro start s hs
    cases s with
    | nil => rfl
    | cons c t =>
      rw [bytes.indexFunc, bytes.indexFunc]
      by_cases hc : c ≥ utf8.RuneSelf
      · have hw := DecodeRune_size_pos c t
        simp only [if_pos hc]
        by_cases hp : p (utf8.DecodeRune (c :: t)).1 = truth
        · rw [if_pos hp, if_pos hp]
        · rw [if_neg hp, if_neg hp]
          exact ih _ _ (by
            simp only [List.length_drop, List.length_cons] at hs ⊢
            omega)
      · simp only [if_neg hc]
        by_cases hp : p c = truth
        · rw [if_pos hp, if_pos hp]
        · rw [if_neg hp, if_neg hp]
          exact ih _ _ (by
            simp only [List.drop_succ_cons, List.drop_zero, List.length_cons] at hs ⊢
            omega)

theorem lastRuneStart_le (p : Bytes) (lim : Int) (fuel : Nat) :
    ∀ start : Int, utf8.lastRuneStart p lim fuel start ≤ start := by
  induction fuel with
  | zero => intro start; exact le_refl _
  | succ fuel ih =>
    intro start
    rw [utf8.lastRuneStart]
    split
    · split
      · exact le_refl _
      · have := ih (start - 1); omega
    · exact le_refl _

theorem DecodeLastRune_size (p : Bytes) (hp : p ≠ []) :
    1 ≤ (utf8.DecodeLastRune p).2 ∧ (utf8.DecodeLastRune p).2 ≤ p.length := by
  have hlen : 0 < p.length := List.length_pos.mpr hp
  unfold utf8.DecodeLastRune
  simp only
  rw [if_neg (by omega)]
  by_cases h1 : p.getD ((p.length : Int) - 1).toNat 0 < utf8.RuneSelf
  · rw [if_pos h1]; exact ⟨le_refl _, hlen⟩
  rw [if_neg h1]
  generalize hst : utf8.lastRuneStart p
    (if (p.length : Int) - utf8.UTFMax < 0 then 0 else p.length - utf8.UTFMax)
    (utf8.UTFMax + 1) ((p.length : Int) - 1 - 1) = st
  have hle : st ≤ (p.length : Int) - 1 - 1 := by
    rw [← hst]; exact lastRuneStart_le p _ _ _
  generalize hst2 : (if st < 0 then 0 else st) = st2
  have hst2' : 0 ≤ st2 ∧ st2 ≤ (p.length : Int) - 1 := by
    rw [← hst2]; split <;> omega
  by_cases h2 : st2 + ((utf8.DecodeRune (List.drop st2.toNat p)).2 : Int) ≠ (p.length : Int)
  · rw [if_pos h2]; exact ⟨le_refl _, hlen⟩
  · rw [if_neg h2]
    simp only [ne_eq, Decidable.not_not] at h2
    constructor <;> omega

theorem lastIndexFunc_fuel (s : Bytes) (p : Nat → Bool) (truth : Bool) (fuel : Nat) :
    ∀ i : Nat, i ≤ fuel → i ≤ s.length →
      bytes.lastIndexFunc s p truth (fuel + 1) i = bytes.lastIndexFunc s p truth fuel i := by
  induction fuel with
  | zero =>
    intro i hi _
    have : i = 0 := by omega
    subst this; rfl
  | succ fuel ih =>
    intro i hi hs
    rw [bytes.lastIndexFunc, bytes.lastIndexFunc]
    by_cases h0 : i > 0
    · rw [if_pos h0, if_pos h0]
      by_cases hc : s.getD (i - 1) 0 ≥ utf8.RuneSelf
      · have hne : s.take i ≠ [] := by
          intro h
          have := congrArg List.length h
          simp only [List.length_take, List.length_nil] at this
          omega
        have hw := (DecodeLastRune_size _ hne).1
        simp only [if_pos hc]
        by_cases hp : p (utf8.DecodeLastRune (List.take i s)).1 = truth
        · rw [if_pos hp, if_pos hp]
        · rw [if_neg hp, if_neg hp]
          exact ih _ (by omega) (by omega)
      · simp only [if_neg hc]
        by_cases hp : p (s.getD (i - 1) 0) = truth
        · rw [if_pos hp, if_pos hp]
        · rw [if_neg hp, if_neg hp]
          exact ih _ (by omega) (by omega)
    · rw [if_neg h0, if_neg h0]

/-! ## White space at the ends of a byte sequence -/

/-- Every white-space character is one ASCII byte or a well-formed sequence of two or
three bytes that `DecodeRune` reads as a rune of `unicode.IsSpace`. -/
theorem whiteSpace_cases (w : Bytes) (hw : w ∈ whiteSpace) :
    (∃ c, w = [c] ∧ c < 0x80 ∧ unicode.IsSpace c = true)
      ∨ (∃ l c1 r, w = [l, c1] ∧ 0xC0 ≤ l ∧ 0x80 ≤ c1 ∧ c1 < 0xC0
          ∧ utf8.RuneStart l = true ∧ unicode.IsSpace r = true
          ∧ ∀ q, utf8.DecodeRune (l :: c1 :: q) = (r, 2))
      ∨ (∃ l c1 c2 r, w = [l, c1, c2] ∧ 0xC0 ≤ l ∧ 0x80 ≤ c1 ∧ c1 < 0xC0 ∧ 0x80 ≤ c2
          ∧ c2 < 0xC0 ∧ utf8.RuneStart l = true ∧ utf8.RuneStart c1 = false
          ∧ unicode.IsSpace r = true
          ∧ ∀ q, utf8.DecodeRune (l :: c1 :: c2 :: q) = (r, 3)) := by
  simp only [whiteSpace, List.mem_cons, List.mem_singleton, List.not_mem_nil, or_false] at hw
  rcases hw with h | h | h | h | h | h | h | h | h | h | h | h | h | h | h | h | h | h | h
    | h | h | h | h | h | h
  all_goals subst h
  all_goals first
    | exact Or.inl ⟨_, rfl, by decide, by decide⟩
    | exact Or.inr (Or.inl ⟨_, _, _, rfl, by decide, by decide, by decide, by decide,
        by decide, fun q => DecodeRune_two _ _ q (by decide) (by decide) (by decide)
          (by decide)⟩)
    | exact Or.inr (Or.inr ⟨_, _, _, _, rfl, by decide, by decide, by decide, by decide,
        by decide, by decide, by decide, by decide,
        fun q => DecodeRune_three _ _ _ q (by decide) (by decide) (by decide) (by decide)
          (by decide) (by decide)⟩)

theorem whiteSpace_decode (w : Bytes) (hw : w ∈ whiteSpace) (q : Bytes) :
    unicode.IsSpace (utf8.DecodeRune (w ++ q)).1 = true
      ∧ (utf8.DecodeRune (w ++ q)).2 = w.length ∧ 1 ≤ w.length := by
  rcases whiteSpace_cases w hw with ⟨c, rfl, h1, h2⟩ | ⟨l, c1, r, rfl, _, _, _, _, h2, h3⟩
    | ⟨l, c1, c2, r, rfl, _, _, _, _, _, _, _, h2, h3⟩
  · rw [List.singleton_append, DecodeRune_ascii c q h1]
    exact ⟨h2, rfl, le_refl _⟩
  · have := h3 q
    refine ⟨?_, ?_, by simp⟩
    · show unicode.IsSpace (utf8.DecodeRune (l :: c1 :: q)).1 = true
      rw [this]; exact h2
    · show (utf8.DecodeRune (l :: c1 :: q)).2 = 2
      rw [this]
  · have := h3 q
    refine ⟨?_, ?_, by simp⟩
    · show unicode.IsSpace (utf8.DecodeRune (l :: c1 :: c2 :: q)).1 = true
      rw [this]; exact h2
    · show (utf8.DecodeRune (l :: c1 :: c2 :: q)).2 = 3
      rw [this]

theorem IsSpace_high (r : Nat) (h : unicode.IsSpace r = true) (hr : 0x80 ≤ r) :
    r ∈ [0x85, 0xA0, 0x1680, 0x2000, 0x2001, 0x2002, 0x2003, 0x2004, 0x2005, 0x2006, 0x2007,
      0x2008, 0x2009, 0x200A, 0x2028, 0x2029, 0x202F, 0x205F, 0x3000] := by
  unfold unicode.IsSpace at h
  simp only [unicode.MaxLatin1] at h
  split at h
  · simp only [Bool.or_eq_true, decide_eq_true_eq] at h
    simp only [List.mem_cons, List.mem_singleton, List.not_mem_nil, or_false]
    omega
  · simp only [Bool.or_eq_true, Bool.and_eq_true, decide_eq_true_eq] at h
    simp only [List.mem_cons, List.mem_singleton, List.not_mem_nil, or_false]
    omega

theorem IsSpace_ascii (c : Nat) (h : unicode.IsSpace c = true) (hc : c < 0x80) :
    [c] ∈ whiteSpace := by
  unfold unicode.IsSpace at h
  simp only [unicode.MaxLatin1] at h
  rw [if_pos (by omega)] at h
  simp only [Bool.or_eq_true, decide_eq_true_eq] at h
  rcases h with ((((((h | h) | h) | h) | h) | h) | h) | h
  all_goals first
    | (subst h; decide)
    | omega

theorem EncodeRune_whiteSpace :
    ∀ r ∈ [0x85, 0xA0, 0x1680, 0x2000, 0x2001, 0x2002, 0x2003, 0x2004, 0x2005, 0x2006, 0x2007,
      0x2008, 0x2009, 0x200A, 0x2028, 0x2029, 0x202F, 0x205F, 0x3000],
      utf8.EncodeRune r ∈ whiteSpace := by
  decide

theorem IsSpace_RuneError : unicode.IsSpace utf8.RuneError = false := by decide

/-- A sequence whose first rune is white space begins with one of the white-space
characters, of the width that `DecodeRune` reports. -/
theorem decode_whiteSpace (c : Nat) (t : Bytes)
    (h : unicode.IsSpace (utf8.DecodeRune (c :: t)).1 = true) :
    ∃ w ∈ whiteSpace, ∃ rest, c :: t = w ++ rest
      ∧ w.length = (utf8.DecodeRune (c :: t)).2 := by
  by_cases hc : c < 0x80
  · rw [DecodeRune_ascii c t hc] at h ⊢
    exact ⟨[c], IsSpace_ascii c h hc, t, rfl, rfl⟩
  · have hv : ¬ ((utf8.DecodeRune (c :: t)).1 = utf8.RuneError
        ∧ (utf8.DecodeRune (c :: t)).2 = 1) := by
      intro hx
      rw [hx.1, IsSpace_RuneError] at h
      cases h
    obtain ⟨w, rest, hw, _, _, _, _, hsz, henc, hr⟩ := validRune_spec c t (by omega) hv
    refine ⟨w, ?_, rest, hw, hsz.symm⟩
    rw [← henc]
    exact EncodeRune_whiteSpace _ (IsSpace_high _ h hr)

theorem leadingWhiteSpace_nil : leadingWhiteSpace [] = 0 := by decide

theorem leadingWhiteSpace_cons (c : Nat) (t : Bytes) :
    leadingWhiteSpace (c :: t)
      = if unicode.IsSpace (utf8.DecodeRune (c :: t)).1 = true
        then (utf8.DecodeRune (c :: t)).2 else 0 := by
  unfold leadingWhiteSpace
  cases hf : whiteSpace.find? (fun w => w.isPrefixOf (c :: t)) with
  | none =>
    simp only
    rw [List.find?_eq_none] at hf
    by_cases hs : unicode.IsSpace (utf8.DecodeRune (c :: t)).1 = true
    · obtain ⟨w, hw, rest, e, _⟩ := decode_whiteSpace c t hs
      exact absurd (List.isPrefixOf_iff_prefix.mpr ⟨rest, e.symm⟩) (hf w hw)
    · rw [if_neg hs]
  | some w =>
    simp only
    have hw := List.mem_of_find?_eq_some hf
    have hp : w.isPrefixOf (c :: t) = true :=
      @List.find?_some _ (fun w => List.isPrefixOf w (c :: t)) _ _ hf
    obtain ⟨rest, e⟩ := List.isPrefixOf_iff_prefix.mp hp
    obtain ⟨h1, h2, _⟩ := whiteSpace_decode w hw rest
    rw [e] at h1 h2
    rw [if_pos h1, h2]

theorem leadingWhiteSpace_le (s : Bytes) : leadingWhiteSpace s ≤ s.length := by
  unfold leadingWhiteSpace
  cases hf : whiteSpace.find? (fun w => w.isPrefixOf s) with
  | none => exact Nat.zero_le _
  | some w =>
    have hp : w.isPrefixOf s = true :=
      @List.find?_some _ (fun w => List.isPrefixOf w s) _ _ hf
    exact (List.isPrefixOf_iff_prefix.mp hp).length_le

theorem leadingWhiteSpace_eq_zero (s : Bytes) :
    leadingWhiteSpace s = 0 ↔ ∀ w ∈ whiteSpace, ¬ w <+: s := by
  unfold leadingWhiteSpace
  cases hf : whiteSpace.find? (fun w => w.isPrefixOf s) with
  | none =>
    rw [List.find?_eq_none] at hf
    simp only [true_iff]
    intro w hw hp
    exact hf w hw (List.isPrefixOf_iff_prefix.mpr hp)
  | some w =>
    have hw := List.mem_of_find?_eq_some hf
    have hp0 : w.isPrefixOf s = true :=
      @List.find?_some _ (fun w => List.isPrefixOf w s) _ _ hf
    have hp := List.isPrefixOf_iff_prefix.mp hp0
    have h1 := (whiteSpace_decode w hw []).2.2
    simp only
    constructor
    · intro h; omega
    · intro h; exact absurd hp (h w hw)

theorem trimLeading_succ (n : Nat) (s : Bytes) :
    trimLeading (n + 1) s
      = if leadingWhiteSpace s = 0 then s
        else trimLeading n (s.drop (leadingWhiteSpace s)) := rfl

theorem trimLeading_fuel (n : Nat) :
    ∀ s : Bytes, s.length ≤ n → trimLeading (n + 1) s = trimLeading n s := by
  induction n with
  | zero =>
    intro s hs
    have : s = [] := List.length_eq_zero.mp (Nat.le_zero.mp hs)
    subst this
    simp [trimLeading, leadingWhiteSpace_nil]
  | succ n ih =>
    intro s hs
    rw [trimLeading_succ (n + 1) s, trimLeading_succ n s]
    by_cases h0 : leadingWhiteSpace s = 0
    · rw [if_pos h0, if_pos h0]
    · rw [if_neg h0, if_neg h0]
      exact ih _ (by simp only [List.length_drop]; omega)

theorem trimLeading_fuel_le (n m : Nat) (s : Bytes) (hn : s.length ≤ n) (hm : n ≤ m) :
    trimLeading m s = trimLeading n s := by
  induction m with
  | zero =>
    have : n = 0 := by omega
    subst this; rfl
  | succ m ih =>
    by_cases h : n = m + 1
    · subst h; rfl
    · rw [trimLeading_fuel m s (by omega)]
      exact ih (by omega)

/-- The index that `indexFunc` finds for `unicode.IsSpace` is where the leading white
space ends. -/
theorem indexFunc_IsSpace (fuel : Nat) :
    ∀ (start : Nat) (s : Bytes), s.length < fuel →
      (match bytes.indexFunc unicode.IsSpace false fuel start s with
        | none => []
        | some i => s.drop (i - start)) = trimLeading s.length s
      ∧ ∀ i, bytes.indexFunc unicode.IsSpace false fuel start s = some i → start ≤ i := by
  induction fuel with
  | zero => intro start s hs; omega
  | succ fuel ih =>
    intro start s hs
    cases s with
    | nil => exact ⟨rfl, fun i hi => by simp [bytes.indexFunc] at hi⟩
    | cons c t =>
      have hd : (if c ≥ utf8.RuneSelf then utf8.DecodeRune (c :: t) else (c, 1))
          = utf8.DecodeRune (c :: t) := by
        by_cases hc : c ≥ utf8.RuneSelf
        · rw [if_pos hc]
        · rw [if_neg hc, DecodeRune_ascii c t (by simp only [utf8.RuneSelf] at hc; omega)]
      rw [bytes.indexFunc]
      simp only [hd]
      have hlw := leadingWhiteSpace_cons c t
      have hk := DecodeRune_size_pos c t
      by_cases hs2 : unicode.IsSpace (utf8.DecodeRune (c :: t)).1 = false
      · rw [if_pos hs2]
        have hns : ¬ unicode.IsSpace (utf8.DecodeRune (c :: t)).1 = true := by
          rw [hs2]; exact Bool.false_ne_true
        rw [if_neg hns] at hlw
        refine ⟨?_, fun i hi => by cases hi; exact le_refl _⟩
        simp only [Nat.sub_self, List.drop_zero, List.length_cons]
        rw [trimLeading_succ, if_pos hlw]
      · rw [if_neg hs2]
        have hst : unicode.IsSpace (utf8.DecodeRune (c :: t)).1 = true := by
          cases h : unicode.IsSpace (utf8.DecodeRune (c :: t)).1
          · exact absurd h hs2
          · rfl
        rw [if_pos hst] at hlw
        have hlen : ((c :: t).drop (utf8.DecodeRune (c :: t)).2).length < fuel := by
          simp only [List.length_drop, List.length_cons] at hs ⊢
          omega
        obtain ⟨i1, i2⟩ := ih (start + (utf8.DecodeRune (c :: t)).2)
          ((c :: t).drop (utf8.DecodeRune (c :: t)).2) hlen
        refine ⟨?_, fun i hi => by have := i2 i hi; omega⟩
        have hne : ¬ leadingWhiteSpace (c :: t) = 0 := by omega
        rw [show (c :: t).length = t.length + 1 from rfl, trimLeading_succ, if_neg hne, hlw,
          trimLeading_fuel_le _ t.length _ (le_refl _) (by
            simp only [List.length_drop, List.length_cons]; omega), ← i1]
        cases hidx : bytes.indexFunc unicode.IsSpace false fuel
            (start + (utf8.DecodeRune (c :: t)).2)
            ((c :: t).drop (utf8.DecodeRune (c :: t)).2) with
        | none => rfl
        | some i =>
          have := i2 i hidx
          simp only [List.drop_drop]
          congr 1
          omega

theorem TrimLeftFunc_IsSpace (s : Bytes) :
    bytes.TrimLeftFunc s unicode.IsSpace = trimLeading s.length s := by
  have h := (indexFunc_IsSpace (s.length + 1) 0 s (Nat.lt_succ_self _)).1
  unfold bytes.TrimLeftFunc
  rw [← h]
  cases bytes.indexFunc unicode.IsSpace false (s.length + 1) 0 s <;> rfl

theorem lastRuneStart_succ (p : Bytes) (lim : Int) (fuel : Nat) (start : Int) :
    utf8.lastRuneStart p lim (fuel + 1) start
      = if start ≥ lim then
          if utf8.RuneStart (p.getD start.toNat 0) then start
          else utf8.lastRuneStart p lim fuel (start - 1)
        else start := rfl

theorem DecodeLastRune_two (q : Bytes) (l c1 r : Nat) (hc : 0x80 ≤ c1)
    (hl : utf8.RuneStart l = true) (hd : utf8.DecodeRune [l, c1] = (r, 2)) :
    utf8.DecodeLastRune (q ++ [l, c1]) = (r, 2) := by
  have hlen : (q ++ [l, c1]).length = q.length + 2 := by simp
  have g1 : (q ++ [l, c1]).getD (q.length + 1) 0 = c1 := by
    rw [List.getD_append_right _ _ _ _ (by omega)]
    have : q.length + 1 - q.length = 1 := by omega
    rw [this]; rfl
  have g0 : (q ++ [l, c1]).getD q.length 0 = l := by
    rw [List.getD_append_right _ _ _ _ (le_refl _)]
    simp
  have e1 : ((↑(q.length + 2) : Int) - 1).toNat = q.length + 1 := by omega
  have e2 : ((↑(q.length + 2) : Int) - 1 - 1).toNat = q.length := by omega
  have hs : utf8.lastRuneStart (q ++ [l, c1])
      (if (↑(q.length + 2) : Int) - ↑utf8.UTFMax < 0 then 0
        else ↑(q.length + 2) - ↑utf8.UTFMax)
      (utf8.UTFMax + 1) (↑(q.length + 2) - 1 - 1) = (q.length : Int) := by
    simp only [utf8.UTFMax]
    rw [lastRuneStart_succ, if_pos (by split <;> omega), e2, g0, hl]
    simp only [if_true]
    omega
  have hdrop : List.drop q.length (q ++ [l, c1]) = [l, c1] := List.drop_left q _
  unfold utf8.DecodeLastRune
  simp only [hlen]
  rw [if_neg (by omega), e1, g1, if_neg (by simp only [utf8.RuneSelf]; omega)]
  have e4 : (if (↑q.length : Int) < 0 then (0 : Int) else ↑q.length) = ↑q.length :=
    if_neg (by omega)
  simp only [hs, e4, Int.toNat_ofNat, hdrop, hd]
  rw [if_neg (by simp only [ne_eq, Decidable.not_not]; omega)]

theorem DecodeLastRune_three (q : Bytes) (l c1 c2 r : Nat) (hc : 0x80 ≤ c2)
    (hl : utf8.RuneStart l = true) (hc1 : utf8.RuneStart c1 = false)
    (hd : utf8.DecodeRune [l, c1, c2] = (r, 3)) :
    utf8.DecodeLastRune (q ++ [l, c1, c2]) = (r, 3) := by
  have hlen : (q ++ [l, c1, c2]).length = q.length + 3 := by simp
  have g2 : (q ++ [l, c1, c2]).getD (q.length + 2) 0 = c2 := by
    rw [List.getD_append_right _ _ _ _ (by omega)]
    have : q.length + 2 - q.length = 2 := by omega
    rw [this]; rfl
  have g1 : (q ++ [l, c1, c2]).getD (q.length + 1) 0 = c1 := by
    rw [List.getD_append_right _ _ _ _ (by omega)]
    have : q.length + 1 - q.length = 1 := by omega
    rw [this]; rfl
  have g0 : (q ++ [l, c1, c2]).getD q.length 0 = l := by
    rw [List.getD_append_right _ _ _ _ (le_refl _)]
    simp
  have e1 : ((↑(q.length + 3) : Int) - 1).toNat = q.length + 2 := by omega
  have e2 : ((↑(q.length + 3) : Int) - 1 - 1).toNat = q.length + 1 := by omega
  have e3 : ((↑(q.length + 3) : Int) - 1 - 1 - 1).toNat = q.length := by omega
  have hs : utf8.lastRuneStart (q ++ [l, c1, c2])
      (if (↑(q.length + 3) : Int) - ↑utf8.UTFMax < 0 then 0
        else ↑(q.length + 3) - ↑utf8.UTFMax)
      (utf8.UTFMax + 1) (↑(q.length + 3) - 1 - 1) = (q.length : Int) := by
    simp only [utf8.UTFMax]
    rw [lastRuneStart_succ, if_pos (by split <;> omega), e2, g1, hc1]
    simp only [Bool.false_eq_true, if_false]
    rw [lastRuneStart_succ, if_pos (by split <;> omega), e3, g0, hl]
    simp only [if_true]
    omega
  have hdrop : List.drop q.length (q ++ [l, c1, c2]) = [l, c1, c2] := List.drop_left q _
  unfold utf8.DecodeLastRune
  simp only [hlen]
  rw [if_neg (by omega), e1, g2, if_neg (by simp only [utf8.RuneSelf]; omega)]
  have e4 : (if (↑q.length : Int) < 0 then (0 : Int) else ↑q.length) = ↑q.length :=
    if_neg (by omega)
  simp only [hs, e4, Int.toNat_ofNat, hdrop, hd]
  rw [if_neg (by simp only [ne_eq, Decidable.not_not]; omega)]

/-- The result of `DecodeLastRune` on a sequence that ends with a non-ASCII byte:
the error of width 1, or the result of `DecodeRune` on a final segment that it
consumes whole. -/
theorem DecodeLastRune_spec (p : Bytes) (hp : p ≠ []) :
    (p.getD (p.length - 1) 0 < 0x80 ∧ utf8.DecodeLastRune p = (p.getD (p.length - 1) 0, 1))
      ∨ (0x80 ≤ p.getD (p.length - 1) 0 ∧ utf8.DecodeLastRune p = (utf8.RuneError, 1))
      ∨ (0x80 ≤ p.getD (p.length - 1) 0 ∧ ∃ start, start < p.length
          ∧ utf8.DecodeRune (p.drop start) = utf8.DecodeLastRune p
          ∧ start + (utf8.DecodeLastRune p).2 = p.length) := by
  have hlen : 0 < p.length := List.length_pos.mpr hp
  unfold utf8.DecodeLastRune
  simp only
  rw [if_neg (by omega)]
  have e0 : ((p.length : Int) - 1).toNat = p.length - 1 := by omega
  rw [e0]
  by_cases h1 : p.getD (p.length - 1) 0 < utf8.RuneSelf
  · rw [if_pos h1]; exact Or.inl ⟨by simpa [utf8.RuneSelf] using h1, rfl⟩
  rw [if_neg h1]
  have h1' : 0x80 ≤ p.getD (p.length - 1) 0 := by
    simp only [utf8.RuneSelf] at h1; omega
  generalize hst : utf8.lastRuneStart p
    (if (p.length : Int) - utf8.UTFMax < 0 then 0 else p.length - utf8.UTFMax)
    (utf8.UTFMax + 1) ((p.length : Int) - 1 - 1) = st
  have hle : st ≤ (p.length : Int) - 1 - 1 := by
    rw [← hst]; exact lastRuneStart_le p _ _ _
  generalize hst2 : (if st < 0 then 0 else st) = st2
  have hst2' : 0 ≤ st2 ∧ st2 ≤ (p.length : Int) - 1 := by
    rw [← hst2]; split <;> omega
  by_cases h2 : st2 + ((utf8.DecodeRune (List.drop st2.toNat p)).2 : Int) ≠ (p.length : Int)
  · rw [if_pos h2]; exact Or.inr (Or.inl ⟨h1', rfl⟩)
  · rw [if_neg h2]
    simp only [ne_eq, Decidable.not_not] at h2
    exact Or.inr (Or.inr ⟨h1', st2.toNat, by omega, rfl, by simp only; omega⟩)

theorem getD_last_append (q : Bytes) (c : Nat) :
    (q ++ [c]).getD ((q ++ [c]).length - 1) 0 = c := by
  have : (q ++ [c]).length - 1 = q.length := by simp
  rw [this, List.getD_append_right _ _ _ _ (le_refl _)]
  simp

theorem DecodeLastRune_nil : utf8.DecodeLastRune [] = (utf8.RuneError, 0) := rfl

/-- A sequence that ends with a white-space character: `DecodeLastRune` reads that
character. -/
theorem whiteSpace_decodeLast (w : Bytes) (hw : w ∈ whiteSpace) (q : Bytes) :
    unicode.IsSpace (utf8.DecodeLastRune (q ++ w)).1 = true
      ∧ (utf8.DecodeLastRune (q ++ w)).2 = w.length := by
  rcases whiteSpace_cases w hw with ⟨c, rfl, h1, h2⟩
    | ⟨l, c1, r, rfl, _, hc1, _, hl, h2, h3⟩
    | ⟨l, c1, c2, r, rfl, _, _, _, hc2, _, hl, hn1, h2, h3⟩
  · rcases DecodeLastRune_spec (q ++ [c]) (by simp) with ⟨_, e⟩ | ⟨e, _⟩ | ⟨e, _⟩
    · rw [e, getD_last_append]; exact ⟨h2, rfl⟩
    · rw [getD_last_append] at e; omega
    · rw [getD_last_append] at e; omega
  · rw [DecodeLastRune_two q l c1 r hc1 hl (h3 [])]
    exact ⟨h2, rfl⟩
  · rw [DecodeLastRune_three q l c1 c2 r hc2 hl hn1 (h3 [])]
    exact ⟨h2, rfl⟩

/-- A sequence whose last rune is white space ends with one of the white-space
characters, of the width that `DecodeLastRune` reports. -/
theorem decodeLast_whiteSpace (p : Bytes)
    (h : unicode.IsSpace (utf8.DecodeLastRune p).1 = true) :
    ∃ w ∈ whiteSpace, ∃ q, p = q ++ w ∧ w.length = (utf8.DecodeLastRune p).2 := by
  by_cases hp : p = []
  · subst hp
    rw [DecodeLastRune_nil, IsSpace_RuneError] at h
    cases h
  rcases DecodeLastRune_spec p hp with ⟨h1, e⟩ | ⟨_, e⟩ | ⟨_, start, hs, e, hsum⟩
  · rw [e] at h ⊢
    refine ⟨_, IsSpace_ascii _ h h1, p.dropLast, ?_, rfl⟩
    have hl := List.dropLast_append_getLast hp
    have hg : p.getLast hp = p.getD (p.length - 1) 0 := by
      rw [List.getLast_eq_getElem, List.getD_eq_getElem?_getD, List.getElem?_eq_getElem]
      rfl
    rw [hg] at hl
    exact hl.symm
  · rw [e, IsSpace_RuneError] at h
    cases h
  · have hne : p.drop start ≠ [] := by
      intro hx
      have := congrArg List.length hx
      simp only [List.length_drop, List.length_nil] at this
      omega
    cases hd : p.drop start with
    | nil => exact absurd hd hne
    | cons c t =>
      rw [hd] at e
      rw [← e] at h
      obtain ⟨w, hw, rest, e2, hlen⟩ := decode_whiteSpace c t h
      rw [e] at hlen
      have hrest : rest = [] := by
        have := congrArg List.length hd
        rw [e2] at this
        simp only [List.length_drop, List.length_append] at this
        exact List.length_eq_zero.mp (by omega)
      subst hrest
      rw [List.append_nil] at e2
      refine ⟨w, hw, p.take start, ?_, hlen⟩
      rw [← e2, ← hd, List.take_append_drop]

theorem trailingWhiteSpace_eq (p : Bytes) :
    trailingWhiteSpace p
      = if unicode.IsSpace (utf8.DecodeLastRune p).1 = true
        then (utf8.DecodeLastRune p).2 else 0 := by
  unfold trailingWhiteSpace
  cases hf : whiteSpace.find? (fun w => w.isSuffixOf p) with
  | none =>
    simp only
    rw [List.find?_eq_none] at hf
    by_cases hs : unicode.IsSpace (utf8.DecodeLastRune p).1 = true
    · obtain ⟨w, hw, q, e, _⟩ := decodeLast_whiteSpace p hs
      exact absurd (List.isSuffixOf_iff_suffix.mpr ⟨q, e.symm⟩) (hf w hw)
    · rw [if_neg hs]
  | some w =>
    simp only
    have hw := List.mem_of_find?_eq_some hf
    have hp : w.isSuffixOf p = true :=
      @List.find?_some _ (fun w => List.isSuffixOf w p) _ _ hf
    obtain ⟨q, e⟩ := List.isSuffixOf_iff_suffix.mp hp
    obtain ⟨h1, h2⟩ := whiteSpace_decodeLast w hw q
    rw [e] at h1 h2
    rw [if_pos h1, h2]

theorem trailingWhiteSpace_le (s : Bytes) : trailingWhiteSpace s ≤ s.length := by
  unfold trailingWhiteSpace
  cases hf : whiteSpace.find? (fun w => w.isSuffixOf s) with
  | none => exact Nat.zero_le _
  | some w =>
    have hp : w.isSuffixOf s = true :=
      @List.find?_some _ (fun w => List.isSuffixOf w s) _ _ hf
    exact (List.isSuffixOf_iff_suffix.mp hp).length_le

theorem trailingWhiteSpace_eq_zero (s : Bytes) :
    trailingWhiteSpace s = 0 ↔ ∀ w ∈ whiteSpace, ¬ w <:+ s := by
  unfold trailingWhiteSpace
  cases hf : whiteSpace.find? (fun w => w.isSuffixOf s) with
  | none =>
    rw [List.find?_eq_none] at hf
    simp only [true_iff]
    intro w hw hp
    exact hf w hw (List.isSuffixOf_iff_suffix.mpr hp)
  | some w =>
    have hw := List.mem_of_find?_eq_some hf
    have hp0 : w.isSuffixOf s = true :=
      @List.find?_some _ (fun w => List.isSuffixOf w s) _ _ hf
    have hp := List.isSuffixOf_iff_suffix.mp hp0
    have h1 := (whiteSpace_decode w hw []).2.2
    simp only
    constructor
    · intro h; omega
    · intro h; exact absurd hp (h w hw)

theorem trimTrailing_succ (n : Nat) (s : Bytes) :
    trimTrailing (n + 1) s
      = if trailingWhiteSpace s = 0 then s
        else trimTrailing n (s.take (s.length - trailingWhiteSpace s)) := rfl

theorem trimTrailing_fuel (n : Nat) :
    ∀ s : Bytes, s.length ≤ n → trimTrailing (n + 1) s = trimTrailing n s := by
  induction n with
  | zero =>
    intro s hs
    have : s = [] := List.length_eq_zero.mp (Nat.le_zero.mp hs)
    subst this
    rfl
  | succ n ih =>
    intro s hs
    rw [trimTrailing_succ (n + 1) s, trimTrailing_succ n s]
    by_cases h0 : trailingWhiteSpace s = 0
    · rw [if_pos h0, if_pos h0]
    · rw [if_neg h0, if_neg h0]
      exact ih _ (by simp only [List.length_take]; omega)

theorem trimTrailing_fuel_le (n m : Nat) (s : Bytes) (hn : s.length ≤ n) (hm : n ≤ m) :
    trimTrailing m s = trimTrailing n s := by
  induction m with
  | zero =>
    have : n = 0 := by omega
    subst this; rfl
  | succ m ih =>
    by_cases h : n = m + 1
    · subst h; rfl
    · rw [trimTrailing_fuel m s (by omega)]
      exact ih (by omega)

/-- A non-ASCII byte that is not followed by a continuation byte is read by
`DecodeRune` as one byte. -/
theorem DecodeRune_width_one (c : Nat) (q : Bytes) (hc : 0x80 ≤ c)
    (hq : ∀ h ∈ q.head?, h < 0x80 ∨ 0xC0 ≤ h) : (utf8.DecodeRune (c :: q)).2 = 1 := by
  by_cases hv : (utf8.DecodeRune (c :: q)).1 = utf8.RuneError
      ∧ (utf8.DecodeRune (c :: q)).2 = 1
  · exact hv.2
  · exfalso
    rcases DecodeRune_valid_cases c q hv with h | ⟨b1, t1, e, _, _, h1, h1'⟩
      | ⟨b1, b2, t2, e, _, _, h1, h1', _, _⟩ | ⟨b1, b2, b3, t3, e, _, _, h1, h1', _, _, _, _⟩
    · omega
    · subst e
      have := hq b1 (by simp)
      omega
    · subst e
      have := hq b1 (by simp)
      split at h1 <;> split at h1' <;> omega
    · subst e
      have := hq b1 (by simp)
      split at h1 <;> split at h1' <;> omega

theorem whiteSpace_head (w : Bytes) (hw : w ∈ whiteSpace) (q : Bytes) :
    ∀ h ∈ (w ++ q).head?, h < 0x80 ∨ 0xC0 ≤ h := by
  intro h hh
  rcases whiteSpace_cases w hw with ⟨c, rfl, h1, _⟩ | ⟨l, c1, r, rfl, h1, _⟩
    | ⟨l, c1, c2, r, rfl, h1, _⟩
  all_goals
    simp only [List.cons_append, List.head?_cons, Option.mem_def, Option.some.injEq] at hh
    subst hh
    omega

theorem getD_take_last (s : Bytes) (i : Nat) (hi : 0 < i) (hs : i ≤ s.length) :
    (s.take i).getD ((s.take i).length - 1) 0 = s.getD (i - 1) 0 := by
  have hl : (s.take i).length = i := by simp only [List.length_take]; omega
  rw [hl, List.getD_eq_getElem?_getD, List.getD_eq_getElem?_getD,
    List.getElem?_take_of_lt (by omega)]

/-- The index that `lastIndexFunc` finds for `unicode.IsSpace` in `s[0:i]`, advanced
by the width of the rune found there as `TrimRightFunc` does, is where the trailing
white space of `s[0:i]` begins. -/
theorem lastIndexFunc_IsSpace (s : Bytes) (fuel : Nat) :
    ∀ i, i ≤ s.length → i < fuel → (∀ h ∈ (s.drop i).head?, h < 0x80 ∨ 0xC0 ≤ h) →
      (match bytes.lastIndexFunc s unicode.IsSpace false fuel i with
        | some j =>
          if s.getD j 0 ≥ utf8.RuneSelf then s.take (j + (utf8.DecodeRune (s.drop j)).2)
          else s.take (j + 1)
        | none => s.take 0) = trimTrailing i (s.take i) := by
  induction fuel with
  | zero => intro i _ hf; omega
  | succ fuel ih =>
    intro i hi hf hnc
    rw [bytes.lastIndexFunc]
    by_cases h0 : i > 0
    swap
    · have : i = 0 := by omega
      subst this
      rw [if_neg h0]
      rfl
    rw [if_pos h0]
    have hpl : (s.take i).length = i := by simp only [List.length_take]; omega
    have hpne : s.take i ≠ [] := by
      intro hx
      have := congrArg List.length hx
      rw [hpl] at this
      simp only [List.length_nil] at this
      omega
    have hlast := getD_take_last s i h0 hi
    rw [hpl] at hlast
    have hspec := DecodeLastRune_spec (s.take i) hpne
    rw [hpl, hlast] at hspec
    have hd : (if s.getD (i - 1) 0 ≥ utf8.RuneSelf then utf8.DecodeLastRune (s.take i)
        else (s.getD (i - 1) 0, 1)) = utf8.DecodeLastRune (s.take i) := by
      by_cases hc : s.getD (i - 1) 0 ≥ utf8.RuneSelf
      · rw [if_pos hc]
      · rw [if_neg hc]
        simp only [utf8.RuneSelf] at hc
        rcases hspec with ⟨_, e⟩ | ⟨e, _⟩ | ⟨e, _⟩
        · exact e.symm
        · omega
        · omega
    simp only [hd]
    have htw := trailingWhiteSpace_eq (s.take i)
    have hsz := (DecodeLastRune_size (s.take i) hpne)
    rw [hpl] at hsz
    obtain ⟨i', hi'⟩ : ∃ i', i = i' + 1 := ⟨i - 1, by omega⟩
    by_cases hs2 : unicode.IsSpace (utf8.DecodeLastRune (s.take i)).1 = false
    · rw [if_pos hs2]
      have hns : ¬ unicode.IsSpace (utf8.DecodeLastRune (s.take i)).1 = true := by
        rw [hs2]; exact Bool.false_ne_true
      rw [if_neg hns] at htw
      have hrhs : trimTrailing i (s.take i) = s.take i := by
        rw [hi', trimTrailing_succ, ← hi', if_pos htw]
      rw [hrhs]
      simp only
      have hdropj : s.drop (i - 1) = s.getD (i - 1) 0 :: s.drop i := by
        have hlt : i - 1 < s.length := by omega
        rw [List.drop_eq_getElem_cons hlt, List.getD_eq_getElem?_getD,
          List.getElem?_eq_getElem hlt]
        simp only [Option.getD_some]
        congr 2
        omega
      rcases hspec with ⟨h1, e⟩ | ⟨h1, e⟩ | ⟨h1, start, hst, e, hsum⟩
      · rw [e]
        simp only
        rw [if_neg (by simp only [utf8.RuneSelf]; omega)]
        congr 1
        omega
      · rw [e]
        simp only
        rw [if_pos (by simp only [utf8.RuneSelf]; omega), hdropj,
          DecodeRune_width_one _ _ h1 hnc]
        congr 1
        omega
      · by_cases hv : (utf8.DecodeLastRune (s.take i)).1 = utf8.RuneError
            ∧ (utf8.DecodeLastRune (s.take i)).2 = 1
        · rw [hv.2]
          rw [if_pos (by simp only [utf8.RuneSelf]; omega), hdropj,
            DecodeRune_width_one _ _ h1 hnc]
          congr 1
          omega
        · have hj : i - (utf8.DecodeLastRune (s.take i)).2 = start := by
            omega
          rw [hj]
          have hsplit : s.drop start = (s.take i).drop start ++ s.drop i := by
            have h1 : s = s.take i ++ s.drop i := (List.take_append_drop i s).symm
            conv_lhs => rw [h1]
            rw [List.drop_append_of_le_length (by rw [hpl]; omega)]
          cases hseg : (s.take i).drop start with
          | nil =>
            have := congrArg List.length hseg
            simp only [List.length_drop, hpl, List.length_nil] at this
            omega
          | cons c0 t0 =>
            rw [hseg] at e hsplit
            rw [← e] at hv
            have hseglen : (c0 :: t0).length = (utf8.DecodeLastRune (s.take i)).2 := by
              have := congrArg List.length hseg
              simp only [List.length_drop, hpl] at this
              omega
            have hc0 : 0x80 ≤ c0 := by
              by_contra hlt
              have hlt' : c0 < 0x80 := by omega
              rw [DecodeRune_ascii c0 t0 hlt'] at e
              have e2 : (utf8.DecodeLastRune (s.take i)).2 = 1 := by rw [← e]
              have hst1 : start = i - 1 := by omega
              have hg : s.getD (i - 1) 0 = c0 := by
                have : s.drop (i - 1) = c0 :: (t0 ++ s.drop i) := by
                  rw [← hst1, hsplit]; rfl
                rw [hdropj] at this
                exact (List.cons.inj this).1
              omega
            obtain ⟨w, rest, hw, _, _, _, hdq, hwsz, _, _⟩ := validRune_spec c0 t0 hc0 hv
            have hrest : rest = [] := by
              have := congrArg List.length hw
              rw [e] at hwsz
              simp only [List.length_append] at this
              exact List.length_eq_zero.mp (by omega)
            subst hrest
            rw [List.append_nil] at hw
            have hfw : utf8.DecodeRune (s.drop start) = utf8.DecodeLastRune (s.take i) := by
              rw [hsplit, hw, hdq, e]
            have hgs : s.getD start 0 = c0 := by
              have hlt : start < s.length := by omega
              have := List.drop_eq_getElem_cons hlt
              rw [hsplit] at this
              rw [List.getD_eq_getElem?_getD, List.getElem?_eq_getElem hlt]
              simp only [Option.getD_some]
              exact ((List.cons.inj this).1).symm
            rw [hgs, if_pos (by simp only [utf8.RuneSelf]; omega), hfw]
            congr 1
    · rw [if_neg hs2]
      have hst : unicode.IsSpace (utf8.DecodeLastRune (s.take i)).1 = true := by
        cases h : unicode.IsSpace (utf8.DecodeLastRune (s.take i)).1
        · exact absurd h hs2
        · rfl
      rw [if_pos hst] at htw
      obtain ⟨w, hw, q, e, hwl⟩ := decodeLast_whiteSpace (s.take i) hst
      have hql : q.length = i - (utf8.DecodeLastRune (s.take i)).2 := by
        have := congrArg List.length e
        rw [hpl] at this
        simp only [List.length_append] at this
        omega
      have hdrop' : s.drop (i - (utf8.DecodeLastRune (s.take i)).2) = w ++ s.drop i := by
        have h1 : s = (q ++ w) ++ s.drop i := by
          rw [← e]; exact (List.take_append_drop i s).symm
        have h2 := congrArg (List.drop q.length) h1
        rw [List.append_assoc, List.drop_left] at h2
        rw [← hql]
        exact h2
      have hnc' : ∀ h ∈ (s.drop (i - (utf8.DecodeLastRune (s.take i)).2)).head?,
          h < 0x80 ∨ 0xC0 ≤ h := by
        rw [hdrop']; exact whiteSpace_head w hw _
      have hih := ih (i - (utf8.DecodeLastRune (s.take i)).2) (by omega) (by omega) hnc'
      rw [hih]
      have hne : ¬ trailingWhiteSpace (s.take i) = 0 := by omega
      have htt : (s.take i).take ((s.take i).length - trailingWhiteSpace (s.take i))
          = s.take (i - (utf8.DecodeLastRune (s.take i)).2) := by
        rw [hpl, htw, List.take_take]
        congr 1
        omega
      conv_rhs => rw [hi', trimTrailing_succ, ← hi', if_neg hne, htt]
      have hlen2 : (s.take (i - (utf8.DecodeLastRune (s.take i)).2)).length
          = i - (utf8.DecodeLastRune (s.take i)).2 := by
        simp only [List.length_take]; omega
      exact (trimTrailing_fuel_le (i - (utf8.DecodeLastRune (s.take i)).2) i'
        (s.take (i - (utf8.DecodeLastRune (s.take i)).2)) (by omega) (by omega)).symm

theorem TrimRightFunc_IsSpace (s : Bytes) :
    bytes.TrimRightFunc s unicode.IsSpace = trimTrailing s.length s := by
  have h := lastIndexFunc_IsSpace s (s.length + 1) s.length (le_refl _) (Nat.lt_succ_self _)
    (by simp)
  rw [List.take_length] at h
  unfold bytes.TrimRightFunc
  exact h

theorem leadingWhiteSpace_pos (s : Bytes) (h : leadingWhiteSpace s ≠ 0) :
    ∃ w ∈ whiteSpace, w <+: s ∧ leadingWhiteSpace s = w.length := by
  unfold leadingWhiteSpace at h ⊢
  cases hf : whiteSpace.find? (fun w => w.isPrefixOf s) with
  | none => rw [hf] at h; exact absurd rfl h
  | some w =>
    have hp : w.isPrefixOf s = true :=
      @List.find?_some _ (fun w => List.isPrefixOf w s) _ _ hf
    exact ⟨w, List.mem_of_find?_eq_some hf, List.isPrefixOf_iff_prefix.mp hp, rfl⟩

theorem trailingWhiteSpace_pos (s : Bytes) (h : trailingWhiteSpace s ≠ 0) :
    ∃ w ∈ whiteSpace, w <:+ s ∧ trailingWhiteSpace s = w.length := by
  unfold trailingWhiteSpace at h ⊢
  cases hf : whiteSpace.find? (fun w => w.isSuffixOf s) with
  | none => rw [hf] at h; exact absurd rfl h
  | some w =>
    have hp : w.isSuffixOf s = true :=
      @List.find?_some _ (fun w => List.isSuffixOf w s) _ _ hf
    exact ⟨w, List.mem_of_find?_eq_some hf, List.isSuffixOf_iff_suffix.mp hp, rfl⟩

/-- What `trimLeading` removes is a sequence of white-space characters. -/
theorem trimLeading_decomp (n : Nat) :
    ∀ s : Bytes, ∃ a : List Bytes, (∀ w ∈ a, w ∈ whiteSpace)
      ∧ s = a.flatten ++ trimLeading n s := by
  induction n with
  | zero => intro s; exact ⟨[], by simp, rfl⟩
  | succ n ih =>
    intro s
    rw [trimLeading_succ]
    by_cases h : leadingWhiteSpace s = 0
    · rw [if_pos h]; exact ⟨[], by simp, rfl⟩
    · rw [if_neg h]
      obtain ⟨w, hw, hp, hl⟩ := leadingWhiteSpace_pos s h
      obtain ⟨a, ha, e⟩ := ih (s.drop (leadingWhiteSpace s))
      refine ⟨w :: a, ?_, ?_⟩
      · intro x hx
        rcases List.mem_cons.mp hx with rfl | hx
        · exact hw
        · exact ha x hx
      · rw [List.flatten_cons, List.append_assoc, ← e, hl]
        exact (List.prefix_iff_eq_append.mp hp).symm

/-- What `trimTrailing` removes is a sequence of white-space characters. -/
theorem trimTrailing_decomp (n : Nat) :
    ∀ s : Bytes, ∃ b : List Bytes, (∀ w ∈ b, w ∈ whiteSpace)
      ∧ s = trimTrailing n s ++ b.flatten := by
  induction n with
  | zero => intro s; exact ⟨[], by simp, by simp [trimTrailing]⟩
  | succ n ih =>
    intro s
    rw [trimTrailing_succ]
    by_cases h : trailingWhiteSpace s = 0
    · rw [if_pos h]; exact ⟨[], by simp, by simp⟩
    · rw [if_neg h]
      obtain ⟨w, hw, hp, hl⟩ := trailingWhiteSpace_pos s h
      obtain ⟨b, hb, e⟩ := ih (s.take (s.length - trailingWhiteSpace s))
      refine ⟨b ++ [w], ?_, ?_⟩
      · intro x hx
        rcases List.mem_append.mp hx with hx | hx
        · exact hb x hx
        · rw [List.mem_singleton.mp hx]; exact hw
      · rw [List.flatten_concat, ← List.append_assoc, ← e, hl]
        exact (List.suffix_iff_eq_append.mp hp).symm

theorem trimLeading_length_le (n : Nat) (s : Bytes) : (trimLeading n s).length ≤ s.length := by
  obtain ⟨a, _, e⟩ := trimLeading_decomp n s
  have := congrArg List.length e
  rw [List.length_append] at this
  omega

theorem trimTrailing_isPrefix (n : Nat) (s : Bytes) : trimTrailing n s <+: s := by
  obtain ⟨b, _, e⟩ := trimTrailing_decomp n s
  exact ⟨b.flatten, e.symm⟩

/-- With enough fuel `trimLeading` leaves no white-space character at the front. -/
theorem leadingWhiteSpace_trimLeading (n : Nat) :
    ∀ s : Bytes, s.length ≤ n → leadingWhiteSpace (trimLeading n s) = 0 := by
  induction n with
  | zero =>
    intro s hs
    have : s = [] := List.length_eq_zero.mp (Nat.le_zero.mp hs)
    subst this
    exact leadingWhiteSpace_nil
  | succ n ih =>
    intro s hs
    rw [trimLeading_succ]
    by_cases h : leadingWhiteSpace s = 0
    · rw [if_pos h]; exact h
    · rw [if_neg h]
      apply ih
      rw [List.length_drop]
      omega

/-- With enough fuel `trimTrailing` leaves no white-space character at the end. -/
theorem trailingWhiteSpace_trimTrailing (n : Nat) :
    ∀ s : Bytes, s.length ≤ n → trailingWhiteSpace (trimTrailing n s) = 0 := by
  induction n with
  | zero =>
    intro s hs
    have : s = [] := List.length_eq_zero.mp (Nat.le_zero.mp hs)
    subst this
    rfl
  | succ n ih =>
    intro s hs
    rw [trimTrailing_succ]
    by_cases h : trailingWhiteSpace s = 0
    · rw [if_pos h]; exact h
    · rw [if_neg h]
      apply ih
      rw [List.length_take]
      have := trailingWhiteSpace_le s
      omega

theorem leadingWhiteSpace_of_isPrefix (p s : Bytes) (hp : p <+: s)
    (h : leadingWhiteSpace s = 0) : leadingWhiteSpace p = 0 := by
  rw [leadingWhiteSpace_eq_zero] at h ⊢
  intro w hw hwp
  exact h w hw (hwp.trans hp)

theorem trimWhiteSpace_leading (s : Bytes) : leadingWhiteSpace (trimWhiteSpace s) = 0 :=
  leadingWhiteSpace_of_isPrefix _ _ (trimTrailing_isPrefix _ _)
    (leadingWhiteSpace_trimLeading s.length s (le_refl _))

theorem trimWhiteSpace_trailing (s : Bytes) : trailingWhiteSpace (trimWhiteSpace s) = 0 :=
  trailingWhiteSpace_trimTrailing s.length _ (trimLeading_length_le _ _)

theorem trimWhiteSpace_decomp (s : Bytes) :
    ∃ a b : List Bytes, (∀ w ∈ a, w ∈ whiteSpace) ∧ (∀ w ∈ b, w ∈ whiteSpace)
      ∧ s = a.flatten ++ trimWhiteSpace s ++ b.flatten := by
  obtain ⟨a, ha, ea⟩ := trimLeading_decomp s.length s
  obtain ⟨b, hb, eb⟩ := trimTrailing_decomp s.length (trimLeading s.length s)
  refine ⟨a, b, ha, hb, ?_⟩
  unfold trimWhiteSpace
  rw [List.append_assoc, ← eb, ← ea]

theorem trimLeading_of_zero (n : Nat) (s : Bytes) (h : leadingWhiteSpace s = 0) :
    trimLeading n s = s := by
  cases n with
  | zero => rfl
  | succ n => rw [trimLeading_succ, if_pos h]

theorem trimTrailing_of_zero (n : Nat) (s : Bytes) (h : trailingWhiteSpace s = 0) :
    trimTrailing n s = s := by
  cases n with
  | zero => rfl
  | succ n => rw [trimTrailing_succ, if_pos h]

/-- Function `bytes.TrimFunc` with `unicode.IsSpace` removes the leading and the
trailing white-space characters. -/
theorem TrimFunc_IsSpace (s : Bytes) :
    bytes.TrimFunc s unicode.IsSpace = trimWhiteSpace s := by
  unfold bytes.TrimFunc trimWhiteSpace
  rw [TrimRightFunc_IsSpace, TrimLeftFunc_IsSpace]
  exact (trimTrailing_fuel_le _ _ _ (le_refl _) (trimLeading_length_le _ _)).symm

theorem IsSpace_asciiSpace (c : Nat) (hc : c < 0x80) :
    unicode.IsSpace c = true ↔ bytes.asciiSpace c ≠ 0 := by
  unfold unicode.IsSpace bytes.asciiSpace
  simp only [unicode.MaxLatin1]
  rw [if_pos (by omega)]
  simp only [Bool.or_eq_true, decide_eq_true_eq]
  constructor
  · intro h
    rw [if_pos (by omega)]
    exact Nat.one_ne_zero
  · intro h
    by_cases h2 : c = 0x09 ∨ c = 0x0A ∨ c = 0x0B ∨ c = 0x0C ∨ c = 0x0D ∨ c = 0x20
    · omega
    · rw [if_neg h2] at h
      exact absurd rfl h

theorem DecodeLastRune_ascii (q : Bytes) (c : Nat) (hc : c < 0x80) :
    utf8.DecodeLastRune (q ++ [c]) = (c, 1) := by
  have hne : q ++ [c] ≠ [] := by simp
  have hl := getD_last_append q c
  rcases DecodeLastRune_spec (q ++ [c]) hne with ⟨_, e⟩ | ⟨h, _⟩ | ⟨h, _⟩
  · rw [e, hl]
  · rw [hl] at h; omega
  · rw [hl] at h; omega

/-- The second loop of `bytes.TrimSpace`, on a slice that does not begin with white
space, removes the trailing white-space characters. -/
theorem trimSpaceStop_spec (r : Bytes) :
    leadingWhiteSpace r.reverse = 0 → bytes.trimSpaceStop r = trimTrailing r.length r.reverse := by
  induction r with
  | nil => intro _; rfl
  | cons c r ih =>
    intro hl
    rw [bytes.trimSpaceStop]
    by_cases h1 : c ≥ utf8.RuneSelf
    · rw [if_pos h1, TrimFunc_IsSpace]
      unfold trimWhiteSpace
      rw [trimLeading_of_zero _ _ hl, List.length_reverse]
    · rw [if_neg h1]
      simp only [utf8.RuneSelf, ge_iff_le, not_le] at h1
      have hd : utf8.DecodeLastRune (c :: r).reverse = (c, 1) := by
        rw [List.reverse_cons]; exact DecodeLastRune_ascii _ c h1
      have htw := trailingWhiteSpace_eq (c :: r).reverse
      rw [hd] at htw
      simp only at htw
      by_cases h2 : bytes.asciiSpace c = 0
      · rw [if_pos h2]
        have hns : ¬ unicode.IsSpace c = true := by
          rw [IsSpace_asciiSpace c h1]; exact not_not.mpr h2
        rw [if_neg hns] at htw
        exact (trimTrailing_of_zero _ _ htw).symm
      · rw [if_neg h2]
        have hsp : unicode.IsSpace c = true := (IsSpace_asciiSpace c h1).mpr h2
        rw [if_pos hsp] at htw
        have hl' : leadingWhiteSpace r.reverse = 0 :=
          leadingWhiteSpace_of_isPrefix _ _
            (by rw [List.reverse_cons]; exact List.prefix_append _ _) hl
        rw [ih hl', List.length_cons, trimTrailing_succ, htw, if_neg Nat.one_ne_zero]
        congr 1
        rw [List.reverse_cons, List.length_append, List.length_singleton, Nat.add_sub_cancel,
          List.take_left]

/-- Function `bytes.TrimSpace` removes the leading and the trailing white-space
characters. -/
theorem TrimSpace_spec (s : Bytes) : bytes.TrimSpace s = trimWhiteSpace s := by
  induction s with
  | nil => rfl
  | cons c t ih =>
    rw [bytes.TrimSpace]
    by_cases h1 : c ≥ utf8.RuneSelf
    · rw [if_pos h1, TrimFunc_IsSpace]
    · rw [if_neg h1]
      simp only [utf8.RuneSelf, ge_iff_le, not_le] at h1
      have hlw := leadingWhiteSpace_cons c t
      rw [DecodeRune_ascii c t h1] at hlw
      simp only at hlw
      by_cases h2 : bytes.asciiSpace c = 0
      · rw [if_pos h2]
        have hns : ¬ unicode.IsSpace c = true := by
          rw [IsSpace_asciiSpace c h1]; exact not_not.mpr h2
        rw [if_neg hns] at hlw
        rw [trimSpaceStop_spec _ (by rw [List.reverse_reverse]; exact hlw),
          List.reverse_reverse, List.length_reverse]
        unfold trimWhiteSpace
        rw [trimLeading_of_zero _ _ hlw]
      · rw [if_neg h2, ih]
        have hsp : unicode.IsSpace c = true := (IsSpace_asciiSpace c h1).mpr h2
        rw [if_pos hsp] at hlw
        unfold trimWhiteSpace
        rw [List.length_cons, trimLeading_succ, hlw, if_neg Nat.one_ne_zero, List.drop_one,
          List.tail_cons]
        exact (trimTrailing_fuel_le _ _ _ (trimLeading_length_le _ _) (Nat.le_succ _)).symm

theorem normalize_ascii (msg : Bytes) (h : ∀ b ∈ msg, b < 0x80) :
    normalize msg = trimAsciiSpace (newlinesToSpaces msg) := by
  unfold normalize
  rw [Replace_newline]
  exact TrimSpace_ascii _ (newlinesToSpaces_ascii msg h)

theorem normalize_eq (msg : Bytes) : normalize msg = trimWhiteSpace (newlinesToSpaces msg) := by
  unfold normalize
  rw [Replace_newline]
  exact TrimSpace_spec _

/-- The normalisation of a frame that is not ASCII: the no-break space U+00A0 in
front, the newline and the ideographic space U+3000 at the end are removed, the
two-byte letter U+00E9 is kept. -/
theorem normalize_unicode_example :
    normalize [0xC2, 0xA0, 0xC3, 0xA9, 0x0A, 0xE3, 0x80, 0x80] = [0xC3, 0xA9] := by
  decide

/-- C9 (amended): for every received frame the normalisation step replaces every
newline byte of the frame, also an interior one, by a space byte and then removes
all white-space characters at both ends and nothing else: the normalised payload is
the newline-replaced frame without its leading and its trailing white-space
characters (the six ASCII white-space bytes and the UTF-8 encodings of the other
Unicode white-space characters), what is removed in front and at the end is a
sequence of white-space characters, the payload neither begins nor ends with a
white-space character, and for a frame of ASCII bytes it is the newline-replaced
frame without its leading and its trailing ASCII white-space bytes. -/
theorem normalize_spec (msg : Bytes) :
    bytes.Replace msg newline space = newlinesToSpaces msg
      ∧ normalize msg = trimWhiteSpace (newlinesToSpaces msg)
      ∧ (∃ a b : List Bytes, (∀ w ∈ a, w ∈ whiteSpace) ∧ (∀ w ∈ b, w ∈ whiteSpace)
          ∧ newlinesToSpaces msg = a.flatten ++ normalize msg ++ b.flatten)
      ∧ (∀ w ∈ whiteSpace, ¬ w <+: normalize msg ∧ ¬ w <:+ normalize msg)
      ∧ normalize msg <:+: newlinesToSpaces msg
      ∧ ((∀ b ∈ msg, b < 0x80) → normalize msg = trimAsciiSpace (newlinesToSpaces msg)) := by
  have he := normalize_eq msg
  refine ⟨Replace_newline msg, he, ?_, ?_, ?_, normalize_ascii msg⟩
  · rw [he]; exact trimWhiteSpace_decomp _
  · intro w hw
    rw [he]
    exact ⟨(leadingWhiteSpace_eq_zero _).mp (trimWhiteSpace_leading _) w hw,
      (trailingWhiteSpace_eq_zero _).mp (trimWhiteSpace_trailing _) w hw⟩
  · unfold normalize
    rw [Replace_newline]
    exact TrimSpace_infix _

theorem normalize_spec_witness :
    (∀ b ∈ str " a\nb \n", b < 0x80)
      ∧ normalize (str " a\nb \n") = str "a b" := by
  have h := (normalize_spec (str " a\nb \n")).2.2.2.2.2 (by decide)
  exact ⟨by decide, h.trans (by decide)⟩

end GoChat
